import Mathlib

/-!
A shallow embedding of the persistent piece-tree text buffer of
`src/fredbuf.cpp`, together with theorems settling the claims of
the specification against the code.

Conventions of the embedding:

* bytes are modelled as `Nat` (`10` is the line feed `\n`, `13` is `\r`);
* the C++ scalar wrappers (`CharOffset`, `Length`, `LFCount`, `Line`,
  `Column`, `LineStart`) are all `size_t` enums; they are modelled as `Nat`.
  Additions cannot overflow for any realisable buffer, so they are plain
  `Nat` additions; subtractions of `size_t` values wrap modulo `2^64` and
  are reachable with small inputs (see the `line_feed_count` theorems), so
  every C++ subtraction (`retract`, `distance`, `operator-`, raw `-`) is
  modelled by `sub64`, the two's-complement subtraction on `[0, 2^64)`;
* out-of-bounds vector reads (undefined behaviour in C++) are modelled by
  `List.getD _ _ 0`; every theorem that relies on indexing proves the
  access in bounds;
* C++ `while` loops whose termination is not structural are modelled by a
  fuel parameter; the canonical fuel passed by the wrapper definitions is
  proven (or evaluated) sufficient wherever a claim depends on it.
-/

namespace Fredbuf

/-- The modulus of `size_t` arithmetic (the code prints these values with a
64-bit format, and `BufferIndex::ModBuf = -1` is `2^64 - 1`). -/
def w64 : Nat := 2 ^ 64

/-- Wrapping (two's-complement) subtraction on `size_t`: models `retract`,
`distance`, `operator-` and raw `-` from `enum-utils.h` / `fredbuf.cpp`. -/
def sub64 (a b : Nat) : Nat := if b ≤ a then a - b else w64 + a - b

/-- Wrapping addition on `size_t`: models `extend`, `operator+` and raw `+`
from `enum-utils.h` / `fredbuf.cpp`. -/
def add64 (a b : Nat) : Nat := (a + b) % w64

/-- The byte value of the line feed character. -/
def lfByte : Nat := 10

/-- The byte value of the carriage return character. -/
def crByte : Nat := 13

/-- `PieceTree::BufferIndex::ModBuf` is `size_t(-1)`. -/
def modBufIdx : Nat := w64 - 1

/-- `PieceTree::BufferCursor`: a `(line, column)` position inside one buffer. -/
structure BufferCursor where
  line : Nat
  column : Nat
deriving Repr, DecidableEq, Inhabited

/-- `PieceTree::Piece`: a half-open slice of one buffer together with its
precomputed byte length and newline count. -/
structure Piece where
  index : Nat
  first : BufferCursor
  last : BufferCursor
  length : Nat
  newline_count : Nat
deriving Repr, DecidableEq, Inhabited

/-- `PieceTree::NodeData`: a piece plus the left-subtree augmentations. -/
structure NodeData where
  piece : Piece
  left_subtree_length : Nat
  left_subtree_lf_count : Nat
deriving Repr, DecidableEq, Inhabited

/-- `PieceTree::Color`.  `DoubleBlack` belongs to the disabled removal
variant and is never produced by the live code paths. -/
inductive Color where
  | Red
  | Black
  | DoubleBlack
deriving Repr, DecidableEq, Inhabited

/-- `PieceTree::RedBlackTree`: the persistent tree of pieces. -/
inductive RBTree where
  | nil
  | node (c : Color) (l : RBTree) (data : NodeData) (r : RBTree)
deriving Repr, DecidableEq, Inhabited

namespace RBTree

/-- `RedBlackTree::is_empty`. -/
def is_empty : RBTree → Bool
  | nil => true
  | node _ _ _ _ => false

/-- `RedBlackTree::left` (the C++ asserts non-emptiness; on `nil` we return
`nil`, which no guarded caller can observe). -/
def left : RBTree → RBTree
  | nil => nil
  | node _ l _ _ => l

/-- `RedBlackTree::right`. -/
def right : RBTree → RBTree
  | nil => nil
  | node _ _ _ r => r

/-- `RedBlackTree::root` (the `NodeData` of the root node). -/
def rootData : RBTree → NodeData
  | nil => default
  | node _ _ d _ => d

/-- `RedBlackTree::root_color` (asserted non-empty in C++; `Black` on `nil`
matches the `ColorTree` convention used by the source). -/
def rootColor : RBTree → Color
  | nil => Color.Black
  | node c _ _ _ => c

/-- Number of nodes; used for fuel bounds of the non-structural loops. -/
def size : RBTree → Nat
  | nil => 0
  | node _ l _ r => size l + size r + 1

/-- `PieceTree::tree_length`: total length of a subtree, computed exactly as
in the source from the stored augmentation of the root plus the right spine. -/
def tree_length : RBTree → Nat
  | nil => 0
  | node _ _ d r => d.left_subtree_length + d.piece.length + tree_length r

/-- `PieceTree::tree_lf_count`. -/
def tree_lf_count : RBTree → Nat
  | nil => 0
  | node _ _ d r => d.left_subtree_lf_count + d.piece.newline_count + tree_lf_count r

end RBTree

/-- `PieceTree::attribute` (named `attributeData` because `attribute` is a
Lean keyword): recompute the left-subtree augmentations of a node from its
actual left child. -/
def attributeData (data : NodeData) (left : RBTree) : NodeData :=
  { data with
    left_subtree_length := left.tree_length
    left_subtree_lf_count := left.tree_lf_count }

namespace RBTree

/-- The private C++ constructor `RedBlackTree(Color, left, val, right)`:
every node the algorithms build goes through `attribute`, so the stored
augmentations are recomputed here. -/
def mk' (c : Color) (l : RBTree) (data : NodeData) (r : RBTree) : RBTree :=
  node c l (attributeData data l) r

/-- Whether the tree is a non-empty red-rooted node. -/
def isRed : RBTree → Bool
  | node Color.Red _ _ _ => true
  | _ => false

/-- Whether the tree is a non-empty black-rooted node. -/
def isBlackNode : RBTree → Bool
  | node Color.Black _ _ _ => true
  | _ => false

/-- `RedBlackTree::paint` (asserted non-empty in C++). -/
def paint (t : RBTree) (c : Color) : RBTree :=
  match t with
  | nil => nil
  | node _ l d r => mk' c l d r

/-- `RedBlackTree::doubled_left`: red node with a red left child. -/
def doubled_left : RBTree → Bool
  | node Color.Red (node Color.Red _ _ _) _ _ => true
  | _ => false

/-- `RedBlackTree::doubled_right`: red node with a red right child. -/
def doubled_right : RBTree → Bool
  | node Color.Red _ _ (node Color.Red _ _ _) => true
  | _ => false

/-- The four-argument `RedBlackTree::balance(Color, lft, x, rgt)` used by
insertion: Okasaki's four red-red rotation patterns. -/
def balance (c : Color) (lft : RBTree) (x : NodeData) (rgt : RBTree) : RBTree :=
  if c ≠ Color.Black then mk' c lft x rgt
  else if lft.doubled_left then
    mk' Color.Red (lft.left.paint Color.Black) lft.rootData
      (mk' Color.Black lft.right x rgt)
  else if lft.doubled_right then
    mk' Color.Red
      (mk' Color.Black lft.left lft.rootData lft.right.left)
      lft.right.rootData
      (mk' Color.Black lft.right.right x rgt)
  else if rgt.doubled_left then
    mk' Color.Red
      (mk' Color.Black lft x rgt.left.left)
      rgt.left.rootData
      (mk' Color.Black rgt.left.right rgt.rootData rgt.right)
  else if rgt.doubled_right then
    mk' Color.Red
      (mk' Color.Black lft x rgt.left)
      rgt.rootData
      (rgt.right.paint Color.Black)
  else mk' c lft x rgt

/-- The single-argument `RedBlackTree::balance(node)` used by the removal
rebalancers: split two red children, otherwise defer to the four-case
`balance` (the C++ asserts the root is black on that path). -/
def balanceNode (t : RBTree) : RBTree :=
  if t.left.isRed && t.right.isRed then
    mk' Color.Red (t.left.paint Color.Black) t.rootData (t.right.paint Color.Black)
  else balance t.rootColor t.left t.rootData t.right

/-- `RedBlackTree::balance_left`: absorb a left child that lost one unit of
black height.  The argument is the already-assembled red node, exactly as in
the source; the unreachable `assert(!"impossible")` branch returns the input. -/
def balance_left (l : RBTree) : RBTree :=
  if l.left.isRed then
    mk' Color.Red (l.left.paint Color.Black) l.rootData l.right
  else if l.right.isBlackNode then
    balanceNode (mk' Color.Black l.left l.rootData (l.right.paint Color.Red))
  else if l.right.isRed && l.right.left.isBlackNode then
    mk' Color.Red
      (mk' Color.Black l.left l.rootData l.right.left.left)
      l.right.left.rootData
      (balanceNode
        (mk' Color.Black l.right.left.right l.right.rootData
          (l.right.right.paint Color.Red)))
  else l

/-- `RedBlackTree::balance_right`: mirror image of `balance_left`. -/
def balance_right (r : RBTree) : RBTree :=
  if r.right.isRed then
    mk' Color.Red r.left r.rootData (r.right.paint Color.Black)
  else if r.left.isBlackNode then
    balanceNode (mk' Color.Black (r.left.paint Color.Red) r.rootData r.right)
  else if r.left.isRed && r.left.right.isBlackNode then
    mk' Color.Red
      (balanceNode
        (mk' Color.Black (r.left.left.paint Color.Red) r.left.rootData
          r.left.right.left))
      r.left.right.rootData
      (mk' Color.Black r.left.right.right r.rootData r.right)
  else r

/-- `RedBlackTree::fuse` with an explicit fuel (the recursion of the source
descends into `left.right`/`right.left`, which is not structural; the
wrapper `fuse` supplies fuel that always suffices). -/
def fuseAux : Nat → RBTree → RBTree → RBTree
  | 0, _, _ => nil
  | fuel + 1, l, r =>
    if l.is_empty then r
    else if r.is_empty then l
    else if l.rootColor = Color.Black ∧ r.rootColor = Color.Red then
      mk' Color.Red (fuseAux fuel l r.left) r.rootData r.right
    else if l.rootColor = Color.Red ∧ r.rootColor = Color.Black then
      mk' Color.Red l.left l.rootData (fuseAux fuel l.right r)
    else if l.rootColor = Color.Red ∧ r.rootColor = Color.Red then
      let fused := fuseAux fuel l.right r.left
      if fused.isRed then
        mk' Color.Red
          (mk' Color.Red l.left l.rootData fused.left)
          fused.rootData
          (mk' Color.Red fused.right r.rootData r.right)
      else
        mk' Color.Red l.left l.rootData (mk' Color.Red fused r.rootData r.right)
    else
      let fused := fuseAux fuel l.right r.left
      if fused.isRed then
        mk' Color.Red
          (mk' Color.Black l.left l.rootData fused.left)
          fused.rootData
          (mk' Color.Black fused.right r.rootData r.right)
      else
        balance_left
          (mk' Color.Red l.left l.rootData
            (mk' Color.Black fused r.rootData r.right))

/-- `RedBlackTree::fuse`: merge two adjacent subtrees after a removal. -/
def fuse (l r : RBTree) : RBTree := fuseAux (l.size + r.size + 1) l r

/-- The tail of `RedBlackTree::remove_left` after its recursive call:
`new_left` is `rem(root.left(), at, total)`. -/
def remove_left (root new_left : RBTree) : RBTree :=
  let new_node := mk' Color.Red new_left root.rootData root.right
  if root.left.isBlackNode then balance_left new_node else new_node

/-- The tail of `RedBlackTree::remove_right` after its recursive call:
`new_right` is `rem(root.right(), at, total + ...)`. -/
def remove_right (root new_right : RBTree) : RBTree :=
  let new_node := mk' Color.Red root.left root.rootData new_right
  if root.right.isBlackNode then balance_right new_node else new_node

/-- The static `RedBlackTree::rem(root, at, total)` of the enabled
(fuse-based) removal algorithm. -/
def remS : RBTree → Nat → Nat → RBTree
  | nil, _, _ => nil
  | node c l y r, a, total =>
    if a < total + y.left_subtree_length then
      remove_left (node c l y r) (remS l a total)
    else if a = total + y.left_subtree_length then
      fuse l r
    else
      remove_right (node c l y r)
        (remS r a (total + y.left_subtree_length + y.piece.length))

/-- `RedBlackTree::remove(at)`: run `rem` and repaint the root black. -/
def remove (t : RBTree) (a : Nat) : RBTree :=
  match remS t a 0 with
  | nil => nil
  | node _ l d r => mk' Color.Black l d r

/-- `RedBlackTree::ins`: Okasaki insertion guided by cumulative offsets. -/
def ins : RBTree → NodeData → Nat → Nat → RBTree
  | nil, x, _, _ => mk' Color.Red nil x nil
  | node c l y r, x, a, total =>
    if a < total + y.left_subtree_length + y.piece.length then
      balance c (ins l x a total) y r
    else
      balance c l y (ins r x a (total + y.left_subtree_length + y.piece.length))

/-- `RedBlackTree::insert(x, at)`: insert and repaint the root black. -/
def insert (t : RBTree) (x : NodeData) (a : Nat) : RBTree :=
  match ins t x a 0 with
  | nil => nil
  | node _ l d r => mk' Color.Black l d r

end RBTree

/-- `PieceTree::populate_line_starts`, tail of the scan: for each line feed
at index `i` push `i + 1`. -/
def lineStartsTail : List Nat → Nat → List Nat
  | [], _ => []
  | c :: rest, i =>
    if c = lfByte then (i + 1) :: lineStartsTail rest (i + 1)
    else lineStartsTail rest (i + 1)

/-- `PieceTree::populate_line_starts`: `0` followed by the successor of every
line-feed index. -/
def populate_line_starts (buf : List Nat) : List Nat :=
  0 :: lineStartsTail buf 0

/-- `PieceTree::CharBuffer`: raw bytes plus the per-buffer line-starts table. -/
structure CharBuffer where
  buffer : List Nat
  line_starts : List Nat
deriving Repr, DecidableEq, Inhabited

/-- `PieceTree::Tree::BufferMeta`. -/
structure BufferMeta where
  lf_count : Nat
  total_content_length : Nat
deriving Repr, DecidableEq, Inhabited

/-- `PieceTree::Tree`: the buffer-engine state.  `scratch_starts` is cleared
before every use in the source and is therefore not part of the state. -/
structure Tree where
  buffers : List CharBuffer
  mod_buffer : CharBuffer
  root : RBTree
  last_insert : BufferCursor
  meta : BufferMeta
deriving Repr, DecidableEq, Inhabited

/-- `PieceTree::NodePosition`.  The extra `path` field models the C++
`const NodeData*` (the address of the node inside the immutable tree): two
`NodePosition`s produced from the same root denote the same node exactly when
their root-to-node paths agree (`false` = left, `true` = right); `none`
models the null pointer. -/
structure NodePosition where
  node : Option NodeData
  remainder : Nat
  start_offset : Nat
  line : Nat
  path : Option (List Bool)
deriving Repr, DecidableEq, Inhabited

namespace Tree

/-- `Tree::buffer_at`: the mod buffer for `BufferIndex::ModBuf`, otherwise an
index into the original-buffer vector (out of bounds is UB in C++ and is
modelled as an empty buffer). -/
def buffer_at (st : Tree) (index : Nat) : CharBuffer :=
  if index = modBufIdx then st.mod_buffer else st.buffers.getD index ⟨[], []⟩

/-- `Tree::buffer_offset`: `line_starts[cursor.line] + cursor.column`. -/
def buffer_offset (st : Tree) (index : Nat) (cursor : BufferCursor) : Nat :=
  (st.buffer_at index).line_starts.getD cursor.line 0 + cursor.column

/-- `Tree::line_feed_count(index, start, end)`, including the carriage-return
code path and its wrapping subtraction. -/
def line_feed_count (st : Tree) (index : Nat) (start e : BufferCursor) : Nat :=
  if e.column = 0 then sub64 e.line start.line
  else
    let starts := (st.buffer_at index).line_starts
    if e.line = sub64 starts.length 1 then sub64 e.line start.line
    else
      let next_start_offset := starts.getD (e.line + 1) 0
      let end_offset := starts.getD e.line 0 + e.column
      if next_start_offset > end_offset + 1 then sub64 e.line start.line
      else
        let previous_char_offset := sub64 end_offset 1
        let buffer := (st.buffer_at index).buffer
        if buffer.getD previous_char_offset 0 = crByte then
          sub64 e.line (start.line + 1)
        else sub64 e.line start.line

/-- `Tree::build_piece(txt)`: append `txt` and its shifted line starts to the
modification buffer, build the corresponding piece, and advance
`last_insert`.  Returns the piece together with the updated engine state. -/
def build_piece (st : Tree) (txt : List Nat) : Piece × Tree :=
  let start_offset := st.mod_buffer.buffer.length
  let scratch_starts := (populate_line_starts txt).map (fun s => s + start_offset)
  let start := st.last_insert
  let line_starts' := st.mod_buffer.line_starts ++ scratch_starts.drop 1
  let buffer' := st.mod_buffer.buffer ++ txt
  let st' : Tree := { st with mod_buffer := ⟨buffer', line_starts'⟩ }
  let end_offset := buffer'.length
  let end_index := sub64 line_starts'.length 1
  let end_col := sub64 end_offset (line_starts'.getD end_index 0)
  let end_pos : BufferCursor := ⟨end_index, end_col⟩
  let piece : Piece :=
    { index := modBufIdx
      first := start
      last := end_pos
      length := sub64 end_offset start_offset
      newline_count := st'.line_feed_count modBufIdx start end_pos }
  (piece, { st' with last_insert := end_pos })

/-- The binary-search loop of `Tree::buffer_position`, with fuel.  State is
`(low, high, mid, mid_start)`; the result is the final `(mid, mid_start)`. -/
def bpAux (starts : List Nat) (offset : Nat) :
    Nat → Nat → Nat → Nat → Nat → Nat × Nat
  | 0, _, _, mid, mid_start => (mid, mid_start)
  | fuel + 1, low, high, mid, mid_start =>
    if low ≤ high then
      let mid' := low + sub64 high low / 2
      let mid_start' := starts.getD mid' 0
      if mid' = high then (mid', mid_start')
      else
        let mid_stop := starts.getD (mid' + 1) 0
        if offset < mid_start' then
          bpAux starts offset fuel low (sub64 mid' 1) mid' mid_start'
        else if mid_stop ≤ offset then
          bpAux starts offset fuel (mid' + 1) high mid' mid_start'
        else (mid', mid_start')
    else (mid, mid_start)

/-- `Tree::buffer_position(piece, remainder)`: locate the cursor of the byte
`remainder` positions into the piece by binary search over the piece's lines. -/
def buffer_position (st : Tree) (piece : Piece) (remainder : Nat) : BufferCursor :=
  let starts := (st.buffer_at piece.index).line_starts
  let start_offset := starts.getD piece.first.line 0 + piece.first.column
  let offset := start_offset + remainder
  let low := piece.first.line
  let high := piece.last.line
  let mids := bpAux starts offset (sub64 high low + 2) low high 0 0
  ⟨mids.1, sub64 offset mids.2⟩

/-- The loop of `Tree::node_at`, as a structural descent carrying the offset,
the accumulated start offset and newline count, and the path (the node
address, see `NodePosition.path`). -/
def node_at_go (st : Tree) :
    RBTree → Nat → Nat → Nat → List Bool → NodePosition
  | RBTree.nil, _, _, _, _ => ⟨none, 0, 0, 0, none⟩
  | RBTree.node _ l y r, off, node_start_offset, newline_count, path =>
    if y.left_subtree_length > off then
      node_at_go st l off node_start_offset newline_count (path ++ [false])
    else if y.left_subtree_length + y.piece.length > off then
      let nso := node_start_offset + y.left_subtree_length
      let nl := newline_count + y.left_subtree_lf_count
      let remainder := sub64 off y.left_subtree_length
      let pos := st.buffer_position y.piece remainder
      let nl := nl + sub64 pos.line y.piece.first.line
      ⟨some y, remainder, nso, nl + 1, some path⟩
    else
      if r.is_empty then
        let nso := node_start_offset + y.left_subtree_length
        let nl := newline_count + (y.left_subtree_lf_count + y.piece.newline_count)
        ⟨some y, y.piece.length, nso, nl + 1, some path⟩
      else
        let offset_amount := y.left_subtree_length + y.piece.length
        node_at_go st r (sub64 off offset_amount) (node_start_offset + offset_amount)
          (newline_count + (y.left_subtree_lf_count + y.piece.newline_count))
          (path ++ [true])

/-- `Tree::node_at(off)`. -/
def node_at (st : Tree) (off : Nat) : NodePosition :=
  node_at_go st st.root off 0 0 []

/-- `Tree::trim_piece_right(piece, pos)`: new piece `[first, pos)`. -/
def trim_piece_right (st : Tree) (piece : Piece) (pos : BufferCursor) : Piece :=
  let orig_end_offset := st.buffer_offset piece.index piece.last
  let new_end_offset := st.buffer_offset piece.index pos
  let new_lf_count := st.line_feed_count piece.index piece.first pos
  let len_delta := sub64 orig_end_offset new_end_offset
  let new_len := sub64 piece.length len_delta
  { piece with last := pos, newline_count := new_lf_count, length := new_len }

/-- `Tree::trim_piece_left(piece, pos)`: new piece `[pos, last)`. -/
def trim_piece_left (st : Tree) (piece : Piece) (pos : BufferCursor) : Piece :=
  let orig_start_offset := st.buffer_offset piece.index piece.first
  let new_start_offset := st.buffer_offset piece.index pos
  let new_lf_count := st.line_feed_count piece.index pos piece.last
  let len_delta := sub64 new_start_offset orig_start_offset
  let new_len := sub64 piece.length len_delta
  { piece with first := pos, newline_count := new_lf_count, length := new_len }

/-- `Tree::shrink_piece(piece, first, last)`. -/
def shrink_piece (st : Tree) (piece : Piece) (first last : BufferCursor) :
    Piece × Piece :=
  (st.trim_piece_right piece first, st.trim_piece_left piece last)

/-- `Tree::compute_buffer_meta` (run by the `ScopeGuard` at the end of every
mutation path that passes the initial argument checks). -/
def compute_buffer_meta (st : Tree) : Tree :=
  { st with meta := ⟨st.root.tree_lf_count, st.root.tree_length⟩ }

/-- The `while` loop of `Tree::remove_node_range`, with fuel: repeatedly
remove the node at `delete_at_offset` until the deleted length reaches the
requested length or the tree has no node there. -/
def rnrLoop (delete_at_offset length : Nat) :
    Nat → Tree → Nat → NodePosition → Tree
  | 0, st, _, _ => st
  | fuel + 1, st, deleted_len, first =>
    match first.node with
    | none => st
    | some nd =>
      if deleted_len < length then
        let deleted_len := deleted_len + nd.piece.length
        let st := { st with root := st.root.remove delete_at_offset }
        rnrLoop delete_at_offset length fuel st deleted_len
          (st.node_at delete_at_offset)
      else st

/-- `Tree::remove_node_range(first, length)`: expand the length by the part
of the first piece that precedes the range, then run the removal loop. -/
def remove_node_range (st : Tree) (first : NodePosition) (length : Nat) : Tree :=
  match first.node with
  | none => st
  | some nd =>
    let total_length := nd.piece.length
    let length := sub64 length (sub64 total_length first.remainder) + total_length
    rnrLoop first.start_offset length (length + 1) st 0 first

/-- `Tree::insert(offset, txt)`.  Empty text returns before the scope guard
is constructed; every other path ends in `compute_buffer_meta`. -/
def insert (st : Tree) (offset : Nat) (txt : List Nat) : Tree :=
  if txt = [] then st
  else if st.root.is_empty then
    let pr := st.build_piece txt
    Tree.compute_buffer_meta
      { pr.2 with root := pr.2.root.insert ⟨pr.1, 0, 0⟩ 0 }
  else
    let result := st.node_at offset
    let result :=
      if result.node.isNone then
        let off :=
          if st.meta.total_content_length ≠ 0 then
            0 + sub64 st.meta.total_content_length 1
          else 0
        st.node_at off
      else result
    match result.node with
    | none => st.compute_buffer_meta
    | some nd =>
      let insert_pos := st.buffer_position nd.piece result.remainder
      if result.start_offset = offset then
        let pr := st.build_piece txt
        Tree.compute_buffer_meta
          { pr.2 with root := pr.2.root.insert ⟨pr.1, 0, 0⟩ offset }
      else if ¬ (offset < result.start_offset + nd.piece.length) then
        let pr := st.build_piece txt
        Tree.compute_buffer_meta
          { pr.2 with root := pr.2.root.insert ⟨pr.1, 0, 0⟩ offset }
      else
        let new_len_right :=
          sub64 (st.buffer_offset nd.piece.index nd.piece.last)
            (st.buffer_offset nd.piece.index insert_pos)
        let new_piece_right : Piece :=
          { nd.piece with
            first := insert_pos
            length := new_len_right
            newline_count := st.line_feed_count nd.piece.index insert_pos nd.piece.last }
        let new_piece_left := st.trim_piece_right nd.piece insert_pos
        let pr := st.build_piece txt
        let st := pr.2
        let new_piece := pr.1
        let root := st.root.remove result.start_offset
        let root := root.insert ⟨new_piece_left, 0, 0⟩ result.start_offset
        let nso := result.start_offset + new_piece_left.length
        let root := root.insert ⟨new_piece, 0, 0⟩ nso
        let nso := nso + new_piece.length
        let root := root.insert ⟨new_piece_right, 0, 0⟩ nso
        Tree.compute_buffer_meta { st with root := root }

/-- `Tree::remove(offset, count)`.  A zero count or an empty tree returns
before the scope guard; every other path ends in `compute_buffer_meta`. -/
def remove (st : Tree) (offset count : Nat) : Tree :=
  if count = 0 ∨ st.root.is_empty then st
  else
    let first := st.node_at offset
    let last := st.node_at (add64 offset count)
    match first.node with
    | none => st
    | some first_nd =>
      let start_split_pos := st.buffer_position first_nd.piece first.remainder
      if first.path = last.path then
        let end_split_pos := st.buffer_position first_nd.piece last.remainder
        if first.start_offset = offset then
          if count = first_nd.piece.length then
            Tree.compute_buffer_meta
              { st with root := st.root.remove first.start_offset }
          else
            let new_piece := st.trim_piece_left first_nd.piece end_split_pos
            Tree.compute_buffer_meta
              { st with
                root := (st.root.remove first.start_offset).insert
                  ⟨new_piece, 0, 0⟩ first.start_offset }
        else if add64 first.start_offset first_nd.piece.length =
            add64 offset count then
          let new_piece := st.trim_piece_right first_nd.piece start_split_pos
          Tree.compute_buffer_meta
            { st with
              root := (st.root.remove first.start_offset).insert
                ⟨new_piece, 0, 0⟩ first.start_offset }
        else
          let lr := st.shrink_piece first_nd.piece start_split_pos end_split_pos
          Tree.compute_buffer_meta
            { st with
              root := ((st.root.remove first.start_offset).insert
                ⟨lr.2, 0, 0⟩ first.start_offset).insert
                ⟨lr.1, 0, 0⟩ first.start_offset }
      else
        let new_first := st.trim_piece_right first_nd.piece start_split_pos
        match last.node with
        | none =>
          let st := st.remove_node_range first count
          let st :=
            if new_first.length ≠ 0 then
              { st with root := st.root.insert ⟨new_first, 0, 0⟩ first.start_offset }
            else st
          st.compute_buffer_meta
        | some last_nd =>
          let end_split_pos := st.buffer_position last_nd.piece last.remainder
          let new_last := st.trim_piece_left last_nd.piece end_split_pos
          let st := st.remove_node_range first count
          let st :=
            if last.remainder ≠ 0 then
              if new_last.length ≠ 0 then
                { st with root := st.root.insert ⟨new_last, 0, 0⟩ first.start_offset }
              else st
            else st
          let st :=
            if new_first.length ≠ 0 then
              { st with root := st.root.insert ⟨new_first, 0, 0⟩ first.start_offset }
            else st
          st.compute_buffer_meta

end Tree

/-- The piece-construction loop of `Tree::build_tree`: one piece per
non-empty original buffer, inserted at the running end offset. -/
def btGo : List CharBuffer → Nat → Nat → RBTree → RBTree
  | [], _, _, root => root
  | buf :: rest, i, offset, root =>
    if buf.buffer = [] then btGo rest (i + 1) offset root
    else
      let last_line := sub64 buf.line_starts.length 1
      let piece : Piece :=
        { index := i
          first := ⟨0, 0⟩
          last := ⟨last_line, sub64 buf.buffer.length (buf.line_starts.getD last_line 0)⟩
          length := buf.buffer.length
          newline_count := last_line }
      btGo rest (i + 1) (offset + piece.length) (root.insert ⟨piece, 0, 0⟩ offset)

/-- `TreeBuilder::accept` for each input string followed by `create()`:
each accepted byte string becomes one `CharBuffer` with its line starts, and
`Tree::build_tree` assembles the initial tree (mod buffer reset to a single
line start `0`, `last_insert` reset, meta recomputed). -/
def create (bufs : List (List Nat)) : Tree :=
  let buffers := bufs.map (fun b => CharBuffer.mk b (populate_line_starts b))
  Tree.compute_buffer_meta
    { buffers := buffers
      mod_buffer := ⟨[], [0]⟩
      root := btGo buffers 0 0 RBTree.nil
      last_insert := ⟨0, 0⟩
      meta := ⟨0, 0⟩ }

namespace Tree

/-- `Tree::accumulate_value(piece, index)`: length of the piece from its
start to the end of relative line `index` (including the line feed), or to
the end of the piece. -/
def accumulate_value (st : Tree) (piece : Piece) (index : Nat) : Nat :=
  let line_starts := (st.buffer_at piece.index).line_starts
  let expected_start := piece.first.line + (index + 1)
  let first := line_starts.getD piece.first.line 0 + piece.first.column
  if expected_start > piece.last.line then
    let last := line_starts.getD piece.last.line 0 + piece.last.column
    sub64 last first
  else
    let last := line_starts.getD expected_start 0
    sub64 last first

/-- `Tree::accumulate_value_no_lf(piece, index)`: as `accumulate_value` but
excluding a trailing line feed. -/
def accumulate_value_no_lf (st : Tree) (piece : Piece) (index : Nat) : Nat :=
  let buffer := st.buffer_at piece.index
  let line_starts := buffer.line_starts
  let expected_start := piece.first.line + (index + 1)
  let first := line_starts.getD piece.first.line 0 + piece.first.column
  if expected_start > piece.last.line then
    let last := line_starts.getD piece.last.line 0 + piece.last.column
    if last = first then 0
    else if buffer.buffer.getD (sub64 last 1) 0 = lfByte then
      sub64 (sub64 last 1) first
    else sub64 last first
  else
    let last := line_starts.getD expected_start 0
    if last = first then 0
    else if buffer.buffer.getD (sub64 last 1) 0 = lfByte then
      sub64 (sub64 last 1) first
    else sub64 last first

/-- `Tree::line_start<accumulate>(offset, node, line)`: the byte offset where
`line` starts, guided by the line-feed augmentations.  The member-function
pointer template argument is an explicit function argument. -/
def line_start (st : Tree) (accumulate : Tree → Piece → Nat → Nat) :
    RBTree → Nat → Nat → Nat
  | RBTree.nil, offset, _ => offset
  | RBTree.node _ l y r, offset, line =>
    let line_index := sub64 line 1
    if y.left_subtree_lf_count ≥ line_index then
      st.line_start accumulate l offset line
    else if y.left_subtree_lf_count + y.piece.newline_count ≥ line_index then
      let line_index := sub64 line_index y.left_subtree_lf_count
      let len := y.left_subtree_length
      let len :=
        if line_index ≠ 0 then len + accumulate st y.piece (sub64 line_index 1)
        else len
      offset + len
    else
      let line_index :=
        sub64 line_index (y.left_subtree_lf_count + y.piece.newline_count)
      st.line_start accumulate r (offset + y.left_subtree_length + y.piece.length)
        (line_index + 1)

/-- `Tree::LineRange` of `Tree::get_line_range(line)`: `first` includes the
trailing line feed accumulator, `last` excludes it (and `last` is computed
for `extend(line)`). -/
def get_line_range (st : Tree) (line : Nat) : Nat × Nat :=
  (st.line_start Tree.accumulate_value st.root 0 line,
   st.line_start Tree.accumulate_value_no_lf st.root 0 (line + 1))

end Tree

/-- `TreeWalker::Direction`. -/
inductive WDir where
  | Left
  | Center
  | Right
deriving Repr, DecidableEq, Inhabited

/-- `TreeWalker::StackEntry`. -/
structure StackEntry where
  node : RBTree
  dir : WDir
deriving Repr, DecidableEq, Inhabited

/-- `PieceTree::TreeWalker` state.  The C++ `first_ptr`/`last_ptr` byte
pointers into the current piece's buffer are modelled as the buffer index
(`ptrBuf`, `none` for the initial null pointers) plus byte offsets
(`firstPtr`, `lastPtr`); both pointers always point into the same buffer, so
the pointer comparison `first_ptr == last_ptr` is `firstPtr = lastPtr`.  The
head of `stack` is the top (the C++ `stack.back()`). -/
structure TreeWalker where
  stack : List StackEntry
  total_offset : Nat
  ptrBuf : Option Nat
  firstPtr : Nat
  lastPtr : Nat
deriving Repr, DecidableEq, Inhabited

namespace TreeWalker

/-- `TreeWalker::exhausted`. -/
def exhausted (w : TreeWalker) : Bool :=
  match w.stack with
  | [] => true
  | e :: rest =>
    if w.firstPtr ≠ w.lastPtr then false
    else if rest ≠ [] then false
    else if e.node.is_empty then true
    else if e.dir = WDir.Right ∧ e.node.right.is_empty then true
    else false

/-- The loop of `TreeWalker::fast_forward_to` for a non-zero offset.  The
top stack entry is the current `node`; the entries below it are `below`. -/
def ffGo (st : Tree) :
    RBTree → Nat → List StackEntry → List StackEntry × Option Nat × Nat × Nat
  | RBTree.nil, _, below => (⟨RBTree.nil, WDir.Left⟩ :: below, none, 0, 0)
  | RBTree.node c l y r, offset, below =>
    if y.left_subtree_length > offset then
      ffGo st l offset (⟨RBTree.node c l y r, WDir.Center⟩ :: below)
    else if y.left_subtree_length + y.piece.length > offset then
      let offset := sub64 offset y.left_subtree_length
      let first_offset := st.buffer_offset y.piece.index y.piece.first
      let last_offset := st.buffer_offset y.piece.index y.piece.last
      (⟨RBTree.node c l y r, WDir.Right⟩ :: below, some y.piece.index,
        first_offset + offset, last_offset)
    else
      let offset_amount := y.left_subtree_length + y.piece.length
      ffGo st r (sub64 offset offset_amount) below

/-- The `TreeWalker` constructor: push the root, set `total_offset`, and
fast-forward (which returns immediately for offset `0`). -/
def init (st : Tree) (offset : Nat) : TreeWalker :=
  if offset = 0 then ⟨[⟨st.root, WDir.Left⟩], offset, none, 0, 0⟩
  else
    let res := ffGo st st.root offset []
    ⟨res.1, offset, res.2.1, res.2.2.1, res.2.2.2⟩

/-- `TreeWalker::populate_ptrs`, with fuel for its self-recursion. -/
def populate_ptrs (st : Tree) : Nat → TreeWalker → TreeWalker
  | 0, w => w
  | fuel + 1, w =>
    if w.exhausted then w
    else
      match w.stack with
      | [] => w
      | e :: rest =>
        if e.node.is_empty then
          populate_ptrs st fuel { w with stack := rest }
        else
          match e.dir with
          | WDir.Left =>
            if ¬ e.node.left.is_empty then
              populate_ptrs st fuel
                { w with stack := ⟨e.node.left, WDir.Left⟩ ::
                    ⟨e.node, WDir.Center⟩ :: rest }
            else
              let piece := e.node.rootData.piece
              { w with
                stack := ⟨e.node, WDir.Right⟩ :: rest
                ptrBuf := some piece.index
                firstPtr := st.buffer_offset piece.index piece.first
                lastPtr := st.buffer_offset piece.index piece.last }
          | WDir.Center =>
            let piece := e.node.rootData.piece
            { w with
              stack := ⟨e.node, WDir.Right⟩ :: rest
              ptrBuf := some piece.index
              firstPtr := st.buffer_offset piece.index piece.first
              lastPtr := st.buffer_offset piece.index piece.last }
          | WDir.Right =>
            populate_ptrs st fuel
              { w with stack := ⟨e.node.right, WDir.Left⟩ :: rest }

/-- Fuel that bounds the population/streaming recursions of a walker. -/
def wFuel (w : TreeWalker) : Nat :=
  w.stack.foldl (fun a e => a + 3 * e.node.size + 3) 3

/-- Read the byte under `first_ptr` (dereferencing the null pointer is UB in
C++ and modelled as `0`). -/
def deref (st : Tree) (w : TreeWalker) : Nat :=
  match w.ptrBuf with
  | none => 0
  | some idx => (st.buffer_at idx).buffer.getD w.firstPtr 0

/-- `TreeWalker::next`, with fuel for the catch-all self-recursion. -/
def nextAux (st : Tree) : Nat → TreeWalker → Nat × TreeWalker
  | 0, w => (0, w)
  | fuel + 1, w =>
    if w.firstPtr = w.lastPtr then
      let w' := populate_ptrs st (wFuel w) w
      if w'.exhausted then (0, w')
      else if w'.firstPtr = w'.lastPtr then nextAux st fuel w'
      else
        (deref st w',
          { w' with firstPtr := w'.firstPtr + 1, total_offset := w'.total_offset + 1 })
    else
      (deref st w,
        { w with firstPtr := w.firstPtr + 1, total_offset := w.total_offset + 1 })

/-- `TreeWalker::next` with its canonical fuel. -/
def next (st : Tree) (w : TreeWalker) : Nat × TreeWalker :=
  nextAux st (wFuel w + 1) w

end TreeWalker

namespace Tree

/-- The streaming loop of `Tree::assemble_line`: read bytes until the walker
is exhausted or a line feed is produced. -/
def walkLoop (st : Tree) : Nat → TreeWalker → List Nat → List Nat
  | 0, _, acc => acc.reverse
  | fuel + 1, w, acc =>
    if w.exhausted then acc.reverse
    else
      let cw := w.next st
      if cw.1 = lfByte then acc.reverse
      else walkLoop st fuel cw.2 (cw.1 :: acc)

/-- `Tree::assemble_line(buf, node, line)` (the enabled `#if 1` variant):
seek a walker to the line's start offset and stream to the next line feed. -/
def assemble_line (st : Tree) (node : RBTree) (line : Nat) : List Nat :=
  if node.is_empty then []
  else
    let line_offset := st.line_start Tree.accumulate_value node 0 line
    let walker := TreeWalker.init st line_offset
    walkLoop st (st.root.tree_length + 3 * st.root.size + 16) walker []

/-- `Tree::get_line_content(buf, line)`: the buffer is cleared first, so the
result models the final contents of the caller's buffer. -/
def get_line_content (st : Tree) (line : Nat) : List Nat :=
  if line = 0 then [] else st.assemble_line st.root line

end Tree

/-! Observation functions and invariants (the specification side). -/

/-- The pieces of a tree in in-order. -/
def inorderP : RBTree → List Piece
  | RBTree.nil => []
  | RBTree.node _ l d r => inorderP l ++ d.piece :: inorderP r

/-- The bytes a piece denotes: the half-open range of its buffer between the
buffer offsets of `first` and `last` (exactly the slice the tree walker
streams for that piece). -/
def pieceBytes (st : Tree) (p : Piece) : List Nat :=
  let buf := st.buffer_at p.index
  let a := buf.line_starts.getD p.first.line 0 + p.first.column
  let b := buf.line_starts.getD p.last.line 0 + p.last.column
  (buf.buffer.take b).drop a

/-- The content of the document: the bytes of the pieces in in-order. -/
def contentOf (st : Tree) : List Nat :=
  ((inorderP st.root).map (pieceBytes st)).flatten

/-- Sum of the stored `length` fields of a piece list. -/
def sumLen (l : List Piece) : Nat := (l.map Piece.length).sum

/-- Sum of the stored `newline_count` fields of a piece list. -/
def sumNl (l : List Piece) : Nat := (l.map Piece.newline_count).sum

/-- Augmentation correctness: every node's stored `left_subtree_length` and
`left_subtree_lf_count` are the sums of the piece lengths and newline counts
over its left subtree. -/
def augOk : RBTree → Bool
  | RBTree.nil => true
  | RBTree.node _ l d r =>
    augOk l && augOk r && d.left_subtree_length = sumLen (inorderP l) &&
      d.left_subtree_lf_count = sumNl (inorderP l)

/-- No red node has a red child. -/
def invc : RBTree → Bool
  | RBTree.nil => true
  | RBTree.node c l _ r =>
    (c ≠ Color.Red || (!l.isRed && !r.isRed)) && invc l && invc r

/-- Weakened colour invariant: the children are `invc`, but the root may be
red with red children (Nipkow's `invc2`). -/
def invc2 : RBTree → Bool
  | RBTree.nil => true
  | RBTree.node _ l _ r => invc l && invc r

/-- Number of black nodes on the left spine (the black height, once `invh`
holds).  `DoubleBlack` never occurs in the live algorithm; it counts two. -/
def bh : RBTree → Nat
  | RBTree.nil => 0
  | RBTree.node c l _ _ =>
    bh l + (match c with | Color.Red => 0 | Color.Black => 1 | Color.DoubleBlack => 2)

/-- Every root-to-empty path has the same number of black nodes. -/
def invh : RBTree → Bool
  | RBTree.nil => true
  | RBTree.node _ l _ r => invh l && invh r && bh l = bh r

/-- Count of line-feed bytes in a byte list. -/
def countLf (l : List Nat) : Nat := l.countP (· = lfByte)

/-- A buffer is well formed when its line-starts table is exactly the one
`populate_line_starts` computes from its bytes. -/
def bufWF (b : CharBuffer) : Prop := b.line_starts = populate_line_starts b.buffer

/-- Engine states reachable from a built tree by `insert` and `remove`. -/
inductive Reachable : Tree → Prop where
  | created (bufs : List (List Nat)) : Reachable (create bufs)
  | inserted (st : Tree) (offset : Nat) (txt : List Nat) :
      Reachable st → Reachable (st.insert offset txt)
  | removed (st : Tree) (offset count : Nat) :
      Reachable st → Reachable (st.remove offset count)

theorem sumLen_nil : sumLen [] = 0 := rfl

theorem sumLen_cons (p : Piece) (l : List Piece) :
    sumLen (p :: l) = p.length + sumLen l := by simp [sumLen]

theorem sumLen_append (a b : List Piece) :
    sumLen (a ++ b) = sumLen a + sumLen b := by simp [sumLen]

theorem sumNl_nil : sumNl [] = 0 := rfl

theorem sumNl_cons (p : Piece) (l : List Piece) :
    sumNl (p :: l) = p.newline_count + sumNl l := by simp [sumNl]

theorem sumNl_append (a b : List Piece) :
    sumNl (a ++ b) = sumNl a + sumNl b := by simp [sumNl]

theorem augOk_node_iff (c : Color) (l : RBTree) (d : NodeData) (r : RBTree) :
    augOk (RBTree.node c l d r) = true ↔
      augOk l = true ∧ augOk r = true ∧
        d.left_subtree_length = sumLen (inorderP l) ∧
        d.left_subtree_lf_count = sumNl (inorderP l) := by
  simp [augOk, Bool.and_eq_true, decide_eq_true_eq, and_assoc]

/-- Trees with correct augmentations report their true totals. -/
theorem tree_length_eq_sumLen (t : RBTree) (h : augOk t = true) :
    t.tree_length = sumLen (inorderP t) := by
  induction t with
  | nil => rfl
  | node c l d r ihl ihr =>
    rw [augOk_node_iff] at h
    simp [RBTree.tree_length, inorderP, sumLen_append, sumLen_cons, ihr h.2.1, h.2.2.1]
    omega

theorem tree_lf_count_eq_sumNl (t : RBTree) (h : augOk t = true) :
    t.tree_lf_count = sumNl (inorderP t) := by
  induction t with
  | nil => rfl
  | node c l d r ihl ihr =>
    rw [augOk_node_iff] at h
    simp [RBTree.tree_lf_count, inorderP, sumNl_append, sumNl_cons, ihr h.2.1, h.2.2.2]
    omega

theorem augOk_left {t : RBTree} (h : augOk t = true) : augOk t.left = true := by
  cases t with
  | nil => rfl
  | node c l d r => exact ((augOk_node_iff _ _ _ _).1 h).1

theorem augOk_right {t : RBTree} (h : augOk t = true) : augOk t.right = true := by
  cases t with
  | nil => rfl
  | node c l d r => exact ((augOk_node_iff _ _ _ _).1 h).2.1

theorem augOk_mk' {l r : RBTree} (c : Color) (d : NodeData)
    (hl : augOk l = true) (hr : augOk r = true) :
    augOk (RBTree.mk' c l d r) = true := by
  rw [RBTree.mk', augOk_node_iff]
  exact ⟨hl, hr, tree_length_eq_sumLen l hl, tree_lf_count_eq_sumNl l hl⟩

theorem augOk_paint {t : RBTree} (c : Color) (h : augOk t = true) :
    augOk (t.paint c) = true := by
  cases t with
  | nil => rfl
  | node c' l d r =>
    rw [augOk_node_iff] at h
    exact augOk_mk' c d h.1 h.2.1

theorem augOk_balance {lft rgt : RBTree} (c : Color) (x : NodeData)
    (hl : augOk lft = true) (hr : augOk rgt = true) :
    augOk (RBTree.balance c lft x rgt) = true := by
  unfold RBTree.balance
  split_ifs
  all_goals repeat' first
    | assumption
    | apply augOk_mk'
    | apply augOk_paint
    | apply augOk_left
    | apply augOk_right

theorem augOk_balanceNode {t : RBTree} (h : augOk t = true) :
    augOk (RBTree.balanceNode t) = true := by
  unfold RBTree.balanceNode
  split_ifs
  all_goals repeat' first
    | assumption
    | apply augOk_mk'
    | apply augOk_paint
    | apply augOk_balance
    | apply augOk_left
    | apply augOk_right

theorem augOk_balance_left {t : RBTree} (h : augOk t = true) :
    augOk (RBTree.balance_left t) = true := by
  unfold RBTree.balance_left
  split_ifs
  all_goals repeat' first
    | assumption
    | apply augOk_mk'
    | apply augOk_paint
    | apply augOk_balanceNode
    | apply augOk_left
    | apply augOk_right

theorem augOk_balance_right {t : RBTree} (h : augOk t = true) :
    augOk (RBTree.balance_right t) = true := by
  unfold RBTree.balance_right
  split_ifs
  all_goals repeat' first
    | assumption
    | apply augOk_mk'
    | apply augOk_paint
    | apply augOk_balanceNode
    | apply augOk_left
    | apply augOk_right

theorem augOk_fuseAux {l r : RBTree} (fuel : Nat)
    (hl : augOk l = true) (hr : augOk r = true) :
    augOk (RBTree.fuseAux fuel l r) = true := by
  induction fuel generalizing l r with
  | zero => rfl
  | succ n ih =>
    rw [RBTree.fuseAux]
    split_ifs
    all_goals try dsimp only
    all_goals try split_ifs
    all_goals repeat' first
      | assumption
      | apply augOk_mk'
      | apply augOk_paint
      | apply augOk_balance_left
      | apply ih
      | apply augOk_left
      | apply augOk_right

theorem augOk_fuse {l r : RBTree}
    (hl : augOk l = true) (hr : augOk r = true) :
    augOk (RBTree.fuse l r) = true :=
  augOk_fuseAux _ hl hr

theorem augOk_remove_left {root new_left : RBTree}
    (h : augOk root = true) (hn : augOk new_left = true) :
    augOk (RBTree.remove_left root new_left) = true := by
  unfold RBTree.remove_left
  dsimp only
  split_ifs
  all_goals repeat' first
    | assumption
    | apply augOk_mk'
    | apply augOk_balance_left
    | apply augOk_left
    | apply augOk_right

theorem augOk_remove_right {root new_right : RBTree}
    (h : augOk root = true) (hn : augOk new_right = true) :
    augOk (RBTree.remove_right root new_right) = true := by
  unfold RBTree.remove_right
  dsimp only
  split_ifs
  all_goals repeat' first
    | assumption
    | apply augOk_mk'
    | apply augOk_balance_right
    | apply augOk_left
    | apply augOk_right

theorem augOk_remS {t : RBTree} (a total : Nat) (h : augOk t = true) :
    augOk (RBTree.remS t a total) = true := by
  induction t generalizing total with
  | nil => rfl
  | node c l y r ihl ihr =>
    have hparts := (augOk_node_iff _ _ _ _).1 h
    rw [RBTree.remS]
    split_ifs
    all_goals repeat' first
      | assumption
      | exact hparts.1
      | exact hparts.2.1
      | apply augOk_remove_left
      | apply augOk_remove_right
      | apply augOk_fuse
      | apply ihl
      | apply ihr

theorem augOk_remove {t : RBTree} (a : Nat) (h : augOk t = true) :
    augOk (t.remove a) = true := by
  unfold RBTree.remove
  have h' := augOk_remS a 0 h
  match hm : RBTree.remS t a 0 with
  | RBTree.nil => rfl
  | RBTree.node c l d r =>
    rw [hm] at h'
    have hp := (augOk_node_iff _ _ _ _).1 h'
    exact augOk_mk' _ _ hp.1 hp.2.1

theorem augOk_ins {t : RBTree} (x : NodeData) (a total : Nat)
    (h : augOk t = true) : augOk (RBTree.ins t x a total) = true := by
  induction t generalizing total with
  | nil => exact augOk_mk' _ _ rfl rfl
  | node c l y r ihl ihr =>
    have hparts := (augOk_node_iff _ _ _ _).1 h
    rw [RBTree.ins]
    split_ifs
    all_goals repeat' first
      | assumption
      | exact hparts.1
      | exact hparts.2.1
      | apply augOk_balance
      | apply ihl
      | apply ihr

theorem augOk_insert {t : RBTree} (x : NodeData) (a : Nat)
    (h : augOk t = true) : augOk (t.insert x a) = true := by
  unfold RBTree.insert
  have h' := augOk_ins x a 0 h
  match hm : RBTree.ins t x a 0 with
  | RBTree.nil => rfl
  | RBTree.node c l d r =>
    rw [hm] at h'
    have hp := (augOk_node_iff _ _ _ _).1 h'
    exact augOk_mk' _ _ hp.1 hp.2.1

/-! Shape lemmas for the red-black invariant proofs. -/

theorem invc_node (c : Color) (l : RBTree) (d : NodeData) (r : RBTree) :
    invc (RBTree.node c l d r) = true ↔
      (c = Color.Red → l.isRed = false ∧ r.isRed = false) ∧
        invc l = true ∧ invc r = true := by
  cases c <;>
    simp [invc, RBTree.isRed, Bool.and_eq_true, Bool.not_eq_true', and_assoc]

theorem invc2_node (c : Color) (l : RBTree) (d : NodeData) (r : RBTree) :
    invc2 (RBTree.node c l d r) = true ↔ invc l = true ∧ invc r = true := by
  simp [invc2, Bool.and_eq_true]

theorem invh_node (c : Color) (l : RBTree) (d : NodeData) (r : RBTree) :
    invh (RBTree.node c l d r) = true ↔
      invh l = true ∧ invh r = true ∧ bh l = bh r := by
  simp [invh, Bool.and_eq_true, and_assoc]

theorem invc_invc2 {t : RBTree} (h : invc t = true) : invc2 t = true := by
  cases t with
  | nil => rfl
  | node c l d r =>
    rw [invc_node] at h
    rw [invc2_node]
    exact ⟨h.2.1, h.2.2⟩

theorem invc2_not_red_invc {t : RBTree} (h : invc2 t = true)
    (hr : t.isRed = false) : invc t = true := by
  cases t with
  | nil => rfl
  | node c l d r =>
    rw [invc2_node] at h
    rw [invc_node]
    cases c with
    | Red => simp [RBTree.isRed] at hr
    | Black => exact ⟨by simp, h.1, h.2⟩
    | DoubleBlack => exact ⟨by simp, h.1, h.2⟩

theorem isRed_iff {t : RBTree} :
    t.isRed = true ↔ ∃ l d r, t = RBTree.node Color.Red l d r := by
  cases t with
  | nil => simp [RBTree.isRed]
  | node c l d r => cases c <;> simp [RBTree.isRed]

theorem isBlackNode_iff {t : RBTree} :
    t.isBlackNode = true ↔ ∃ l d r, t = RBTree.node Color.Black l d r := by
  cases t with
  | nil => simp [RBTree.isBlackNode]
  | node c l d r => cases c <;> simp [RBTree.isBlackNode]

theorem doubled_left_iff {t : RBTree} :
    t.doubled_left = true ↔
      ∃ a da b d r, t = RBTree.node Color.Red (RBTree.node Color.Red a da b) d r := by
  match t with
  | RBTree.nil => simp [RBTree.doubled_left]
  | RBTree.node c RBTree.nil d r => cases c <;> simp [RBTree.doubled_left]
  | RBTree.node c (RBTree.node cl a da b) d r =>
    cases c <;> cases cl <;> simp [RBTree.doubled_left]

theorem doubled_right_iff {t : RBTree} :
    t.doubled_right = true ↔
      ∃ l d a da b, t = RBTree.node Color.Red l d (RBTree.node Color.Red a da b) := by
  match t with
  | RBTree.nil => simp [RBTree.doubled_right]
  | RBTree.node c l d RBTree.nil => cases c <;> simp [RBTree.doubled_right]
  | RBTree.node c l d (RBTree.node cr a da b) =>
    cases c <;> cases cr <;> simp [RBTree.doubled_right]

/-- A tree that satisfies the weak colour invariant and has neither doubled
pattern satisfies the strong one. -/
theorem invc2_no_doubles_invc {t : RBTree} (h : invc2 t = true)
    (h1 : t.doubled_left = false) (h2 : t.doubled_right = false) :
    invc t = true := by
  cases t with
  | nil => rfl
  | node c l d r =>
    rw [invc2_node] at h
    rw [invc_node]
    refine ⟨?_, h.1, h.2⟩
    intro hc
    subst hc
    constructor
    · cases hl : l.isRed
      · rfl
      · obtain ⟨a, da, b, rfl⟩ := isRed_iff.1 hl
        simp [RBTree.doubled_left] at h1
    · cases hr : r.isRed
      · rfl
      · obtain ⟨a, da, b, rfl⟩ := isRed_iff.1 hr
        simp [RBTree.doubled_right] at h2

theorem bh_mk' (c : Color) (l : RBTree) (d : NodeData) (r : RBTree) :
    bh (RBTree.mk' c l d r) = bh (RBTree.node c l d r) := rfl

theorem invc_mk' (c : Color) (l : RBTree) (d : NodeData) (r : RBTree) :
    invc (RBTree.mk' c l d r) = invc (RBTree.node c l d r) := rfl

theorem invc2_mk' (c : Color) (l : RBTree) (d : NodeData) (r : RBTree) :
    invc2 (RBTree.mk' c l d r) = invc2 (RBTree.node c l d r) := rfl

theorem invh_mk' (c : Color) (l : RBTree) (d : NodeData) (r : RBTree) :
    invh (RBTree.mk' c l d r) = invh (RBTree.node c l d r) := rfl

/-- No node of the tree is coloured `DoubleBlack` (that colour belongs to
the disabled removal variant and is never constructed by the live code). -/
def noDB : RBTree → Bool
  | RBTree.nil => true
  | RBTree.node c l _ r => (c ≠ Color.DoubleBlack) && noDB l && noDB r

theorem noDB_node (c : Color) (l : RBTree) (d : NodeData) (r : RBTree) :
    noDB (RBTree.node c l d r) = true ↔
      c ≠ Color.DoubleBlack ∧ noDB l = true ∧ noDB r = true := by
  simp [noDB, Bool.and_eq_true, and_assoc]

theorem noDB_left {t : RBTree} (h : noDB t = true) : noDB t.left = true := by
  cases t with
  | nil => rfl
  | node c l d r => exact ((noDB_node _ _ _ _).1 h).2.1

theorem noDB_right {t : RBTree} (h : noDB t = true) : noDB t.right = true := by
  cases t with
  | nil => rfl
  | node c l d r => exact ((noDB_node _ _ _ _).1 h).2.2

theorem noDB_mk'R {l r : RBTree} (d : NodeData)
    (hl : noDB l = true) (hr : noDB r = true) :
    noDB (RBTree.mk' Color.Red l d r) = true := by
  rw [RBTree.mk', noDB_node]; exact ⟨by simp, hl, hr⟩

theorem noDB_mk'B {l r : RBTree} (d : NodeData)
    (hl : noDB l = true) (hr : noDB r = true) :
    noDB (RBTree.mk' Color.Black l d r) = true := by
  rw [RBTree.mk', noDB_node]; exact ⟨by simp, hl, hr⟩

theorem noDB_paintR {t : RBTree} (h : noDB t = true) :
    noDB (t.paint Color.Red) = true := by
  cases t with
  | nil => rfl
  | node c l d r =>
    rw [noDB_node] at h
    exact noDB_mk'R _ h.2.1 h.2.2

theorem noDB_paintB {t : RBTree} (h : noDB t = true) :
    noDB (t.paint Color.Black) = true := by
  cases t with
  | nil => rfl
  | node c l d r =>
    rw [noDB_node] at h
    exact noDB_mk'B _ h.2.1 h.2.2

theorem noDB_rootColor {t : RBTree} (h : noDB t = true) :
    t.rootColor ≠ Color.DoubleBlack := by
  cases t with
  | nil => simp [RBTree.rootColor]
  | node c l d r => exact ((noDB_node _ _ _ _).1 h).1

theorem noDB_balance {lft rgt : RBTree} (c : Color) (x : NodeData)
    (hc : c ≠ Color.DoubleBlack)
    (hl : noDB lft = true) (hr : noDB rgt = true) :
    noDB (RBTree.balance c lft x rgt) = true := by
  unfold RBTree.balance
  split_ifs
  all_goals repeat' first
    | assumption
    | apply noDB_mk'R
    | apply noDB_mk'B
    | apply noDB_paintR
    | apply noDB_paintB
    | apply noDB_left
    | apply noDB_right
  all_goals (rw [RBTree.mk', noDB_node]; exact ⟨hc, hl, hr⟩)

theorem noDB_balanceNode {t : RBTree} (h : noDB t = true)
    (hc : t.rootColor ≠ Color.DoubleBlack) :
    noDB (RBTree.balanceNode t) = true := by
  unfold RBTree.balanceNode
  split_ifs
  all_goals repeat' first
    | assumption
    | apply noDB_mk'R
    | apply noDB_mk'B
    | apply noDB_paintR
    | apply noDB_paintB
    | apply noDB_left
    | apply noDB_right
  exact noDB_balance _ _ hc (noDB_left h) (noDB_right h)

theorem noDB_balanceNode_mkB {l r : RBTree} (d : NodeData)
    (hl : noDB l = true) (hr : noDB r = true) :
    noDB (RBTree.balanceNode (RBTree.mk' Color.Black l d r)) = true :=
  noDB_balanceNode (noDB_mk'B d hl hr) (by simp [RBTree.mk', RBTree.rootColor])

theorem noDB_balance_left {t : RBTree} (h : noDB t = true)
    (hc : t.rootColor ≠ Color.DoubleBlack) :
    noDB (RBTree.balance_left t) = true := by
  unfold RBTree.balance_left
  split_ifs
  all_goals repeat' first
    | assumption
    | apply noDB_mk'R
    | apply noDB_mk'B
    | apply noDB_paintR
    | apply noDB_paintB
    | apply noDB_balanceNode_mkB
    | apply noDB_left
    | apply noDB_right
  all_goals exact (default : NodeData)

theorem noDB_balance_right {t : RBTree} (h : noDB t = true)
    (hc : t.rootColor ≠ Color.DoubleBlack) :
    noDB (RBTree.balance_right t) = true := by
  unfold RBTree.balance_right
  split_ifs
  all_goals repeat' first
    | assumption
    | apply noDB_mk'R
    | apply noDB_mk'B
    | apply noDB_paintR
    | apply noDB_paintB
    | apply noDB_balanceNode_mkB
    | apply noDB_left
    | apply noDB_right
  all_goals exact (default : NodeData)

theorem noDB_balance_left_mkR {l r : RBTree} (d : NodeData)
    (hl : noDB l = true) (hr : noDB r = true) :
    noDB (RBTree.balance_left (RBTree.mk' Color.Red l d r)) = true :=
  noDB_balance_left (noDB_mk'R d hl hr) (by simp [RBTree.mk', RBTree.rootColor])

theorem noDB_balance_right_mkR {l r : RBTree} (d : NodeData)
    (hl : noDB l = true) (hr : noDB r = true) :
    noDB (RBTree.balance_right (RBTree.mk' Color.Red l d r)) = true :=
  noDB_balance_right (noDB_mk'R d hl hr) (by simp [RBTree.mk', RBTree.rootColor])

theorem noDB_fuseAux {l r : RBTree} (fuel : Nat)
    (hl : noDB l = true) (hr : noDB r = true) :
    noDB (RBTree.fuseAux fuel l r) = true := by
  induction fuel generalizing l r with
  | zero => rfl
  | succ n ih =>
    rw [RBTree.fuseAux]
    split_ifs
    all_goals try dsimp only
    all_goals try split_ifs
    all_goals repeat' first
      | assumption
      | apply noDB_mk'R
      | apply noDB_mk'B
      | apply ih
      | apply noDB_left
      | apply noDB_right
      | apply noDB_balance_left_mkR
    all_goals exact (default : NodeData)

theorem noDB_fuse {l r : RBTree} (hl : noDB l = true) (hr : noDB r = true) :
    noDB (RBTree.fuse l r) = true :=
  noDB_fuseAux _ hl hr

theorem noDB_remS {t : RBTree} (a total : Nat) (h : noDB t = true) :
    noDB (RBTree.remS t a total) = true := by
  induction t generalizing total with
  | nil => rfl
  | node c l y r ihl ihr =>
    have hp := (noDB_node _ _ _ _).1 h
    rw [RBTree.remS]
    split_ifs
    · rw [RBTree.remove_left]
      try dsimp only
      split_ifs
      all_goals repeat' first
        | exact hp.2.1
        | exact hp.2.2
        | apply ihl
        | apply noDB_mk'R
        | apply noDB_left
        | apply noDB_right
        | apply noDB_balance_left_mkR
      all_goals exact (default : NodeData)
    · exact noDB_fuse hp.2.1 hp.2.2
    · rw [RBTree.remove_right]
      try dsimp only
      split_ifs
      all_goals repeat' first
        | exact hp.2.1
        | exact hp.2.2
        | apply ihr
        | apply noDB_mk'R
        | apply noDB_left
        | apply noDB_right
        | apply noDB_balance_right_mkR
      all_goals exact (default : NodeData)

theorem noDB_remove {t : RBTree} (a : Nat) (h : noDB t = true) :
    noDB (t.remove a) = true := by
  unfold RBTree.remove
  have h' := noDB_remS a 0 h
  match hm : RBTree.remS t a 0 with
  | RBTree.nil => rfl
  | RBTree.node c l d r =>
    rw [hm] at h'
    have hp := (noDB_node _ _ _ _).1 h'
    exact noDB_mk'B _ hp.2.1 hp.2.2

theorem noDB_ins {t : RBTree} (x : NodeData) (a total : Nat)
    (h : noDB t = true) : noDB (RBTree.ins t x a total) = true := by
  induction t generalizing total with
  | nil => exact noDB_mk'R _ rfl rfl
  | node c l y r ihl ihr =>
    have hp := (noDB_node _ _ _ _).1 h
    rw [RBTree.ins]
    split_ifs
    · exact noDB_balance c y hp.1 (ihl _ hp.2.1) hp.2.2
    · exact noDB_balance c y hp.1 hp.2.1 (ihr _ hp.2.2)

theorem noDB_insert {t : RBTree} (x : NodeData) (a : Nat)
    (h : noDB t = true) : noDB (t.insert x a) = true := by
  unfold RBTree.insert
  have h' := noDB_ins x a 0 h
  match hm : RBTree.ins t x a 0 with
  | RBTree.nil => rfl
  | RBTree.node c l d r =>
    rw [hm] at h'
    have hp := (noDB_node _ _ _ _).1 h'
    exact noDB_mk'B _ hp.2.1 hp.2.2

/-! Red-black invariant contracts (following the classic structure of the
Isabelle/Nipkow proofs for insertion balancing and join-based deletion). -/

/-- The four-case insertion `balance` at a black root restores the strong
colour invariant from one weakly-coloured side and increments the height. -/
theorem balance_black_contract (l r : RBTree) (x : NodeData)
    (hhl : invh l = true) (hhr : invh r = true) (hbh : bh l = bh r)
    (hc : (invc l = true ∧ invc2 r = true) ∨ (invc2 l = true ∧ invc r = true)) :
    invh (RBTree.balance Color.Black l x r) = true ∧
      bh (RBTree.balance Color.Black l x r) = bh l + 1 ∧
      invc (RBTree.balance Color.Black l x r) = true := by
  unfold RBTree.balance
  split_ifs with h0 h1 h2 h3 h4
  · simp at h0
  · obtain ⟨a, da, b, dl, rl, rfl⟩ := doubled_left_iff.1 h1
    simp only [RBTree.mk', RBTree.paint, RBTree.left, RBTree.right, RBTree.rootData,
      invc_node, invc2_node, invh_node, bh, RBTree.isRed] at *
    rcases hc with ⟨hc1, hc2⟩ | ⟨hc1, hc2⟩ <;> simp_all <;> omega
  · obtain ⟨a, da, b1, d1, b, rfl⟩ := doubled_right_iff.1 h2
    simp only [RBTree.mk', RBTree.paint, RBTree.left, RBTree.right, RBTree.rootData,
      invc_node, invc2_node, invh_node, bh, RBTree.isRed] at *
    rcases hc with ⟨hc1, hc2⟩ | ⟨hc1, hc2⟩ <;> simp_all <;> omega
  · obtain ⟨a, da, b1, d1, b, rfl⟩ := doubled_left_iff.1 h3
    simp only [RBTree.mk', RBTree.paint, RBTree.left, RBTree.right, RBTree.rootData,
      invc_node, invc2_node, invh_node, bh, RBTree.isRed] at *
    rcases hc with ⟨hc1, hc2⟩ | ⟨hc1, hc2⟩ <;> simp_all <;> omega
  · obtain ⟨a, da, b1, d1, b, rfl⟩ := doubled_right_iff.1 h4
    simp only [RBTree.mk', RBTree.paint, RBTree.left, RBTree.right, RBTree.rootData,
      invc_node, invc2_node, invh_node, bh, RBTree.isRed] at *
    rcases hc with ⟨hc1, hc2⟩ | ⟨hc1, hc2⟩ <;> simp_all <;> omega
  · simp only [RBTree.mk', invc_node, invc2_node, invh_node, bh] at *
    have hl' : invc l = true := by
      rcases hc with ⟨hc1, _⟩ | ⟨hc1, _⟩
      · exact hc1
      · exact invc2_no_doubles_invc hc1 (by simpa using h1) (by simpa using h2)
    have hr' : invc r = true := by
      rcases hc with ⟨_, hc2⟩ | ⟨_, hc2⟩
      · exact invc2_no_doubles_invc hc2 (by simpa using h3) (by simpa using h4)
      · exact hc2
    simp_all

/-- The single-argument removal `balance` on a freshly built black node. -/
theorem balanceNode_black_contract (l r : RBTree) (d : NodeData)
    (hhl : invh l = true) (hhr : invh r = true) (hbh : bh l = bh r)
    (hc : (invc l = true ∧ invc2 r = true) ∨ (invc2 l = true ∧ invc r = true)) :
    invh (RBTree.balanceNode (RBTree.mk' Color.Black l d r)) = true ∧
      bh (RBTree.balanceNode (RBTree.mk' Color.Black l d r)) = bh l + 1 ∧
      invc (RBTree.balanceNode (RBTree.mk' Color.Black l d r)) = true := by
  unfold RBTree.balanceNode
  split_ifs with h1
  · rw [Bool.and_eq_true] at h1
    obtain ⟨a1, d1, b1, rfl⟩ := isRed_iff.1 (by simpa [RBTree.mk', RBTree.left] using h1.1)
    obtain ⟨a2, d2, b2, rfl⟩ := isRed_iff.1 (by simpa [RBTree.mk', RBTree.right] using h1.2)
    simp only [RBTree.mk', RBTree.paint, RBTree.left, RBTree.right, RBTree.rootData,
      invc_node, invc2_node, invh_node, bh, RBTree.isRed] at *
    rcases hc with ⟨hc1, hc2⟩ | ⟨hc1, hc2⟩ <;> simp_all <;> omega
  · have hrw : (RBTree.mk' Color.Black l d r).rootColor = Color.Black := rfl
    have hlw : (RBTree.mk' Color.Black l d r).left = l := rfl
    have hdw : (RBTree.mk' Color.Black l d r).right = r := rfl
    rw [hrw, hlw, hdw]
    exact balance_black_contract l r _ hhl hhr hbh hc

theorem mk'_left (c : Color) (l : RBTree) (d : NodeData) (r : RBTree) :
    (RBTree.mk' c l d r).left = l := rfl

theorem mk'_right (c : Color) (l : RBTree) (d : NodeData) (r : RBTree) :
    (RBTree.mk' c l d r).right = r := rfl

set_option maxHeartbeats 1000000

theorem balance_left_contract (l r : RBTree) (d : NodeData)
    (hhl : invh l = true) (hhr : invh r = true) (hbh : bh l + 1 = bh r)
    (hcl : invc2 l = true) (hcr : invc r = true) (hdb : noDB r = true) :
    invh (RBTree.balance_left (RBTree.mk' Color.Red l d r)) = true ∧
      bh (RBTree.balance_left (RBTree.mk' Color.Red l d r)) = bh r ∧
      invc2 (RBTree.balance_left (RBTree.mk' Color.Red l d r)) = true ∧
      (r.isRed = false → invc (RBTree.balance_left (RBTree.mk' Color.Red l d r)) = true) := by
  unfold RBTree.balance_left
  rw [mk'_left, mk'_right]
  split_ifs with h1 h2 h3
  · -- left child red: repaint it black
    obtain ⟨a, da, b, rfl⟩ := isRed_iff.1 h1
    simp only [RBTree.mk', RBTree.paint, RBTree.left, RBTree.right, RBTree.rootData,
      invc_node, invc2_node, invh_node, bh, RBTree.isRed] at *
    simp_all
  · -- right sibling black: push blackness down and rebalance
    have hl' : invc l = true := invc2_not_red_invc hcl (by simpa using h1)
    obtain ⟨rl, dr, rr, rfl⟩ := isBlackNode_iff.1 h2
    have hbn := balanceNode_black_contract l ((RBTree.node Color.Black rl dr rr).paint Color.Red)
      ((RBTree.mk' Color.Red l d (RBTree.node Color.Black rl dr rr)).rootData)
      hhl ?_ ?_ ?_
    · refine ⟨hbn.1, ?_, invc_invc2 hbn.2.2, fun _ => hbn.2.2⟩
      rw [hbn.2.1]
      simp only [bh] at hbh ⊢
      omega
    · simp only [RBTree.paint, RBTree.mk', invh_node] at hhr ⊢
      exact ⟨hhr.1, hhr.2.1, hhr.2.2⟩
    · simp only [RBTree.paint, RBTree.mk', bh] at hbh ⊢
      omega
    · refine Or.inl ⟨hl', ?_⟩
      simp only [RBTree.paint, RBTree.mk', invc2_node]
      simp only [invc_node] at hcr
      exact ⟨hcr.2.1, hcr.2.2⟩
  · -- right sibling red with black left nephew
    have hl' : invc l = true := invc2_not_red_invc hcl (by simpa using h1)
    rw [Bool.and_eq_true] at h3
    obtain ⟨rl0, dr, rr0, rfl⟩ := isRed_iff.1 h3.1
    obtain ⟨t2, u, t3, hrl⟩ := isBlackNode_iff.1 (by simpa using h3.2)
    subst hrl
    rw [invh_node] at hhr
    obtain ⟨hhrl, hht4, hbrl4⟩ := hhr
    rw [invh_node] at hhrl
    obtain ⟨hht2, hht3, hb23⟩ := hhrl
    rw [invc_node] at hcr
    obtain ⟨hnored, hcrl, ht4c⟩ := hcr
    have hnr := hnored rfl
    rw [invc_node] at hcrl
    obtain ⟨hx1, hct2, hct3⟩ := hcrl
    simp only [bh] at hbrl4 hbh
    have ht4 : ∃ a4 d4 b4, rr0 = RBTree.node Color.Black a4 d4 b4 := by
      have hdb' := ((noDB_node _ _ _ _).1 hdb).2.2
      cases rr0 with
      | nil =>
        simp only [bh] at hbrl4
        omega
      | node c4 a4 d4 b4 =>
        cases c4 with
        | Red => simp [RBTree.isRed] at hnr
        | Black => exact ⟨a4, d4, b4, rfl⟩
        | DoubleBlack =>
          rw [noDB_node] at hdb'
          simp at hdb'
    obtain ⟨a4, d4, b4, rfl⟩ := ht4
    rw [invh_node] at hht4
    rw [invc_node] at ht4c
    simp only [bh] at hbrl4
    have hbn := balanceNode_black_contract t3
        ((RBTree.node Color.Black a4 d4 b4).paint Color.Red)
        ((RBTree.node Color.Red (RBTree.node Color.Black t2 u t3) dr
          (RBTree.node Color.Black a4 d4 b4)).rootData) hht3 ?_ ?_ ?_
    · simp only [mk'_left, mk'_right, RBTree.left, RBTree.right]
      refine ⟨?_, ?_, ?_, ?_⟩
      · rw [RBTree.mk', invh_node, RBTree.mk', invh_node]
        refine ⟨⟨hhl, hht2, by omega⟩, hbn.1, ?_⟩
        rw [hbn.2.1]
        simp only [bh]
        omega
      · simp only [RBTree.mk', bh]
        omega
      · rw [RBTree.mk', invc2_node, RBTree.mk', invc_node]
        exact ⟨⟨by simp, hl', hct2⟩, hbn.2.2⟩
      · intro hfalse
        simp [RBTree.isRed] at hfalse
    · simp only [RBTree.paint, RBTree.mk', invh_node]
      exact ⟨hht4.1, hht4.2.1, hht4.2.2⟩
    · simp only [RBTree.paint, RBTree.mk', bh]
      omega
    · refine Or.inl ⟨hct3, ?_⟩
      simp only [RBTree.paint, RBTree.mk', invc2_node]
      exact ⟨ht4c.2.1, ht4c.2.2⟩
  · -- impossible: the deficient left child's sibling cannot be empty here
    exfalso
    cases r with
    | nil => simp [bh] at hbh
    | node cr rl dr rr =>
      cases cr with
      | Black => simp [RBTree.isBlackNode] at h2
      | DoubleBlack =>
        rw [noDB_node] at hdb
        simp at hdb
      | Red =>
        simp only [RBTree.isRed, Bool.and_eq_true] at h3
        have h3' : rl.isBlackNode = false := by
          cases hb : rl.isBlackNode
          · rfl
          · exact absurd ⟨trivial, hb⟩ h3
        rw [invc_node] at hcr
        have hrl := hcr.1 rfl
        cases rl with
        | nil =>
          rw [invh_node] at hhr
          simp only [bh] at hhr hbh
          omega
        | node cl a da b =>
          cases cl with
          | Red => simp [RBTree.isRed] at hrl
          | Black => simp [RBTree.isBlackNode] at h3'
          | DoubleBlack =>
            rw [noDB_node] at hdb
            simp only [noDB_node] at hdb
            simp at hdb





theorem balance_right_contract (l r : RBTree) (d : NodeData)
    (hhl : invh l = true) (hhr : invh r = true) (hbh : bh l = bh r + 1)
    (hcl : invc l = true) (hcr : invc2 r = true) (hdb : noDB l = true) :
    invh (RBTree.balance_right (RBTree.mk' Color.Red l d r)) = true ∧
      bh (RBTree.balance_right (RBTree.mk' Color.Red l d r)) = bh l ∧
      invc2 (RBTree.balance_right (RBTree.mk' Color.Red l d r)) = true ∧
      (l.isRed = false → invc (RBTree.balance_right (RBTree.mk' Color.Red l d r)) = true) := by
  unfold RBTree.balance_right
  rw [mk'_left, mk'_right]
  split_ifs with h1 h2 h3
  · -- right child red: repaint it black
    obtain ⟨a, da, b, rfl⟩ := isRed_iff.1 h1
    simp only [RBTree.mk', RBTree.paint, RBTree.left, RBTree.right, RBTree.rootData,
      invc_node, invc2_node, invh_node, bh, RBTree.isRed] at *
    simp_all
  · -- left sibling black: push blackness down and rebalance
    have hr' : invc r = true := invc2_not_red_invc hcr (by simpa using h1)
    obtain ⟨ll, dl, lr, rfl⟩ := isBlackNode_iff.1 h2
    have hbn := balanceNode_black_contract
      ((RBTree.node Color.Black ll dl lr).paint Color.Red) r
      ((RBTree.mk' Color.Red (RBTree.node Color.Black ll dl lr) d r).rootData)
      ?_ hhr ?_ ?_
    · refine ⟨hbn.1, ?_, invc_invc2 hbn.2.2, fun _ => hbn.2.2⟩
      rw [hbn.2.1]
      simp only [RBTree.paint, RBTree.mk', bh] at hbh ⊢
      try omega
    · simp only [RBTree.paint, RBTree.mk', invh_node] at hhl ⊢
      exact ⟨hhl.1, hhl.2.1, hhl.2.2⟩
    · simp only [RBTree.paint, RBTree.mk', bh] at hbh ⊢
      omega
    · refine Or.inr ⟨?_, hr'⟩
      simp only [RBTree.paint, RBTree.mk', invc2_node]
      simp only [invc_node] at hcl
      exact ⟨hcl.2.1, hcl.2.2⟩
  · -- left sibling red with black right nephew
    have hr' : invc r = true := invc2_not_red_invc hcr (by simpa using h1)
    rw [Bool.and_eq_true] at h3
    obtain ⟨ll0, dl, lr0, rfl⟩ := isRed_iff.1 h3.1
    obtain ⟨t2, u, t3, hlr⟩ := isBlackNode_iff.1 (by simpa using h3.2)
    subst hlr
    rw [invh_node] at hhl
    obtain ⟨hht0, hhlr, hb04⟩ := hhl
    rw [invh_node] at hhlr
    obtain ⟨hht2, hht3, hb23⟩ := hhlr
    rw [invc_node] at hcl
    obtain ⟨hnored, ht0c, hclr⟩ := hcl
    have hnl := hnored rfl
    rw [invc_node] at hclr
    obtain ⟨hx1, hct2, hct3⟩ := hclr
    simp only [bh] at hb04 hbh
    have ht0 : ∃ a0 d0 b0, ll0 = RBTree.node Color.Black a0 d0 b0 := by
      have hdb' := ((noDB_node _ _ _ _).1 hdb).2.1
      cases ll0 with
      | nil =>
        simp only [bh] at hb04
        omega
      | node c0 a0 d0 b0 =>
        cases c0 with
        | Red => simp [RBTree.isRed] at hnl
        | Black => exact ⟨a0, d0, b0, rfl⟩
        | DoubleBlack =>
          rw [noDB_node] at hdb'
          simp at hdb'
    obtain ⟨a0, d0, b0, rfl⟩ := ht0
    rw [invh_node] at hht0
    rw [invc_node] at ht0c
    simp only [bh] at hb04
    have hbn := balanceNode_black_contract
        ((RBTree.node Color.Black a0 d0 b0).paint Color.Red) t2
        ((RBTree.node Color.Red (RBTree.node Color.Black a0 d0 b0) dl
          (RBTree.node Color.Black t2 u t3)).rootData) ?_ hht2 ?_ ?_
    · obtain ⟨hbn1, hbn2, hbn3⟩ := hbn
      simp only [mk'_left, mk'_right, RBTree.left, RBTree.right]
      simp only [RBTree.mk', RBTree.paint, bh] at hbn1 hbn2 hbn3 hbh ⊢
      refine ⟨?_, ?_, ?_, ?_⟩
      · simp only [invh_node, bh]
        exact ⟨hbn1, ⟨hht3, hhr, by omega⟩, by omega⟩
      · omega
      · simp only [invc2_node, invc_node]
        exact ⟨hbn3, by simp, hct3, hr'⟩
      · intro hfalse
        simp [RBTree.isRed] at hfalse
    · simp only [RBTree.paint, RBTree.mk', invh_node]
      exact ⟨hht0.1, hht0.2.1, hht0.2.2⟩
    · simp only [RBTree.paint, RBTree.mk', bh]
      omega
    · refine Or.inr ⟨?_, hct2⟩
      simp only [RBTree.paint, RBTree.mk', invc2_node]
      exact ⟨ht0c.2.1, ht0c.2.2⟩
  · -- impossible: the deficient right child's sibling cannot be empty here
    exfalso
    cases l with
    | nil => simp [bh] at hbh
    | node cl ll dl lr =>
      cases cl with
      | Black => simp [RBTree.isBlackNode] at h2
      | DoubleBlack =>
        rw [noDB_node] at hdb
        simp at hdb
      | Red =>
        simp only [RBTree.isRed, Bool.and_eq_true] at h3
        have h3' : lr.isBlackNode = false := by
          cases hb : lr.isBlackNode
          · rfl
          · exact absurd ⟨trivial, hb⟩ h3
        rw [invc_node] at hcl
        have hlr := hcl.1 rfl
        cases lr with
        | nil =>
          rw [invh_node] at hhl
          simp only [bh] at hhl hbh
          omega
        | node cr2 a da b =>
          cases cr2 with
          | Red => simp [RBTree.isRed] at hlr
          | Black => simp [RBTree.isBlackNode] at h3'
          | DoubleBlack =>
            rw [noDB_node] at hdb
            simp only [noDB_node] at hdb
            simp at hdb

theorem rootColor_black_shape {t : RBTree} (h : t.rootColor = Color.Black)
    (hne : t.is_empty = false) : ∃ l d r, t = RBTree.node Color.Black l d r := by
  cases t with
  | nil => simp [RBTree.is_empty] at hne
  | node c l d r => exact ⟨l, d, r, by rw [← h]; rfl⟩

theorem rootColor_red_shape {t : RBTree} (h : t.rootColor = Color.Red) :
    ∃ l d r, t = RBTree.node Color.Red l d r := by
  cases t with
  | nil => simp [RBTree.rootColor] at h
  | node c l d r => exact ⟨l, d, r, by rw [← h]; rfl⟩

theorem fuseAux_contract (fuel : Nat) (l r : RBTree)
    (hsz : l.size + r.size < fuel)
    (hhl : invh l = true) (hhr : invh r = true) (hbh : bh l = bh r)
    (hcl : invc l = true) (hcr : invc r = true)
    (hdbl : noDB l = true) (hdbr : noDB r = true) :
    invh (RBTree.fuseAux fuel l r) = true ∧
      bh (RBTree.fuseAux fuel l r) = bh l ∧
      invc2 (RBTree.fuseAux fuel l r) = true ∧
      (l.isRed = false → r.isRed = false → invc (RBTree.fuseAux fuel l r) = true) := by
  induction fuel generalizing l r with
  | zero => omega
  | succ n ih =>
    rw [RBTree.fuseAux]
    split_ifs with he1 he2 hc1 hc2 hc3
    · -- l empty
      cases l with
      | node c ll dl lr => simp [RBTree.is_empty] at he1
      | nil => exact ⟨hhr, hbh.symm, invc_invc2 hcr, fun _ _ => hcr⟩
    · -- r empty
      cases r with
      | node c rl dr rr => simp [RBTree.is_empty] at he2
      | nil => exact ⟨hhl, rfl, invc_invc2 hcl, fun _ _ => hcl⟩
    · -- (Black, Red)
      obtain ⟨rl, dr, rr, rfl⟩ := rootColor_red_shape hc1.2
      obtain ⟨hhrl, hhrr, hbrr⟩ := (invh_node _ _ _ _).1 hhr
      obtain ⟨hcrch, hcrl, hcrr⟩ := (invc_node _ _ _ _).1 hcr
      obtain ⟨hrl_nr, hrr_nr⟩ := hcrch rfl
      obtain ⟨-, hdbrl, hdbrr⟩ := (noDB_node _ _ _ _).1 hdbr
      simp only [RBTree.size] at hsz
      simp only [bh] at hbh
      obtain ⟨hf1, hf2, hf3, hf4⟩ := ih l rl (by omega) hhl hhrl (by omega) hcl hcrl
        hdbl hdbrl
      have hlnr : l.isRed = false := by
        cases hl : l.isRed
        · rfl
        · obtain ⟨a, b, c, rfl⟩ := isRed_iff.1 hl
          simp [RBTree.rootColor] at hc1
      have hfc := hf4 hlnr hrl_nr
      simp only [RBTree.left, RBTree.right, RBTree.rootData]
      refine ⟨?_, ?_, ?_, ?_⟩
      · rw [invh_mk', invh_node]
        exact ⟨hf1, hhrr, by omega⟩
      · rw [bh_mk']
        simp only [bh]
        try omega
      · rw [invc2_mk', invc2_node]
        exact ⟨hfc, hcrr⟩
      · intro _ hx2
        simp [RBTree.isRed] at hx2
    · -- (Red, Black)
      obtain ⟨ll, dl, lr, rfl⟩ := rootColor_red_shape hc2.1
      obtain ⟨hhll, hhlr, hbll⟩ := (invh_node _ _ _ _).1 hhl
      obtain ⟨hclch, hcll, hclr⟩ := (invc_node _ _ _ _).1 hcl
      obtain ⟨hll_nr, hlr_nr⟩ := hclch rfl
      obtain ⟨-, hdbll, hdblr⟩ := (noDB_node _ _ _ _).1 hdbl
      simp only [RBTree.size] at hsz
      simp only [bh] at hbh
      obtain ⟨hf1, hf2, hf3, hf4⟩ := ih lr r (by omega) hhlr hhr (by omega) hclr hcr
        hdblr hdbr
      have hrnr : r.isRed = false := by
        cases hr : r.isRed
        · rfl
        · obtain ⟨a, b, c, rfl⟩ := isRed_iff.1 hr
          simp [RBTree.rootColor] at hc2
      have hfc := hf4 hlr_nr hrnr
      simp only [RBTree.left, RBTree.right, RBTree.rootData]
      refine ⟨?_, ?_, ?_, ?_⟩
      · rw [invh_mk', invh_node]
        exact ⟨hhll, hf1, by omega⟩
      · rw [bh_mk']
        simp only [bh]
        try omega
      · rw [invc2_mk', invc2_node]
        exact ⟨hcll, hfc⟩
      · intro hx1 _
        simp [RBTree.isRed] at hx1
    · -- (Red, Red)
      obtain ⟨ll, dl, lr, rfl⟩ := rootColor_red_shape hc3.1
      obtain ⟨rl, dr, rr, rfl⟩ := rootColor_red_shape hc3.2
      obtain ⟨hhll, hhlr, hbll⟩ := (invh_node _ _ _ _).1 hhl
      obtain ⟨hhrl, hhrr, hbrr⟩ := (invh_node _ _ _ _).1 hhr
      obtain ⟨hclch, hcll, hclr⟩ := (invc_node _ _ _ _).1 hcl
      obtain ⟨hcrch, hcrl, hcrr⟩ := (invc_node _ _ _ _).1 hcr
      obtain ⟨hll_nr, hlr_nr⟩ := hclch rfl
      obtain ⟨hrl_nr, hrr_nr⟩ := hcrch rfl
      obtain ⟨-, hdbll, hdblr⟩ := (noDB_node _ _ _ _).1 hdbl
      obtain ⟨-, hdbrl, hdbrr⟩ := (noDB_node _ _ _ _).1 hdbr
      simp only [RBTree.size] at hsz
      simp only [bh] at hbh
      obtain ⟨hf1, hf2, hf3, hf4⟩ := ih lr rl (by omega) hhlr hhrl (by omega) hclr hcrl
        hdblr hdbrl
      have hfc := hf4 hlr_nr hrl_nr
      simp only [RBTree.left, RBTree.right, RBTree.rootData]
      try dsimp only
      split_ifs with hred
      · obtain ⟨fl, fd, fr, hfeq⟩ := isRed_iff.1 hred
        rw [hfeq] at hf1 hf2 hfc
        obtain ⟨hffl, hffr, hfbb⟩ := (invh_node _ _ _ _).1 hf1
        obtain ⟨hfch, hfcl, hfcr⟩ := (invc_node _ _ _ _).1 hfc
        obtain ⟨hfl_nr, hfr_nr⟩ := hfch rfl
        simp only [bh] at hf2
        rw [hfeq]
        simp only [RBTree.left, RBTree.right, RBTree.rootData]
        refine ⟨?_, ?_, ?_, ?_⟩
        · simp only [invh_mk', invh_node, bh_mk', bh]
          exact ⟨⟨hhll, hffl, by omega⟩, ⟨hffr, hhrr, by omega⟩, by omega⟩
        · simp only [bh_mk', bh]
          try omega
        · simp only [invc2_mk', invc2_node, invc_mk', invc_node]
          exact ⟨⟨fun _ => ⟨hll_nr, hfl_nr⟩, hcll, hfcl⟩,
            fun _ => ⟨hfr_nr, hrr_nr⟩, hfcr, hcrr⟩
        · intro hx _
          simp [RBTree.isRed] at hx
      · refine ⟨?_, ?_, ?_, ?_⟩
        · simp only [invh_mk', invh_node, bh_mk', bh]
          exact ⟨hhll, ⟨hf1, hhrr, by omega⟩, by omega⟩
        · simp only [bh_mk', bh]
          try omega
        · simp only [invc2_mk', invc2_node, invc_mk', invc_node]
          exact ⟨hcll, fun _ => ⟨by simpa using hred, hrr_nr⟩, hfc, hcrr⟩
        · intro hx _
          simp [RBTree.isRed] at hx
    · -- (Black, Black)
      have hlb : ∃ ll dl lr, l = RBTree.node Color.Black ll dl lr := by
        refine rootColor_black_shape ?_ (by simpa using he1)
        cases hcol : l.rootColor with
        | Black => rfl
        | DoubleBlack => exact absurd hcol (noDB_rootColor hdbl)
        | Red =>
          cases hcor : r.rootColor with
          | Red => exact absurd ⟨hcol, hcor⟩ hc3
          | Black => exact absurd ⟨hcol, hcor⟩ hc2
          | DoubleBlack => exact absurd hcor (noDB_rootColor hdbr)
      obtain ⟨ll, dl, lr, rfl⟩ := hlb
      have hrb : ∃ rl dr rr, r = RBTree.node Color.Black rl dr rr := by
        refine rootColor_black_shape ?_ (by simpa using he2)
        cases hcor : r.rootColor with
        | Black => rfl
        | DoubleBlack => exact absurd hcor (noDB_rootColor hdbr)
        | Red => exact absurd ⟨rfl, hcor⟩ hc1
      obtain ⟨rl, dr, rr, rfl⟩ := hrb
      obtain ⟨hhll, hhlr, hbll⟩ := (invh_node _ _ _ _).1 hhl
      obtain ⟨hhrl, hhrr, hbrr⟩ := (invh_node _ _ _ _).1 hhr
      obtain ⟨-, hcll, hclr⟩ := (invc_node _ _ _ _).1 hcl
      obtain ⟨-, hcrl, hcrr⟩ := (invc_node _ _ _ _).1 hcr
      obtain ⟨-, hdbll, hdblr⟩ := (noDB_node _ _ _ _).1 hdbl
      obtain ⟨-, hdbrl, hdbrr⟩ := (noDB_node _ _ _ _).1 hdbr
      simp only [RBTree.size] at hsz
      simp only [bh] at hbh
      obtain ⟨hf1, hf2, hf3, hf4⟩ := ih lr rl (by omega) hhlr hhrl (by omega) hclr hcrl
        hdblr hdbrl
      simp only [RBTree.left, RBTree.right, RBTree.rootData]
      try dsimp only
      split_ifs with hred
      · obtain ⟨fl, fd, fr, hfeq⟩ := isRed_iff.1 hred
        rw [hfeq] at hf1 hf2 hf3
        obtain ⟨hffl, hffr, hfbb⟩ := (invh_node _ _ _ _).1 hf1
        obtain ⟨hfcl, hfcr⟩ := (invc2_node _ _ _ _).1 hf3
        simp only [bh] at hf2
        rw [hfeq]
        simp only [RBTree.left, RBTree.right, RBTree.rootData]
        refine ⟨?_, ?_, ?_, ?_⟩
        · simp only [invh_mk', invh_node, bh_mk', bh]
          exact ⟨⟨hhll, hffl, by omega⟩, ⟨hffr, hhrr, by omega⟩, by omega⟩
        · simp only [bh_mk', bh]
          try omega
        · simp only [invc2_mk', invc2_node, invc_mk', invc_node]
          exact ⟨⟨fun h => Color.noConfusion h, hcll, hfcl⟩,
            fun h => Color.noConfusion h, hfcr, hcrr⟩
        · intro _ _
          simp only [invc_mk', invc_node]
          refine ⟨fun _ => ⟨?_, ?_⟩,
            ⟨fun h => Color.noConfusion h, hcll, hfcl⟩,
            fun h => Color.noConfusion h, hfcr, hcrr⟩
          · simp [RBTree.mk', RBTree.isRed]
          · simp [RBTree.mk', RBTree.isRed]
      · have hfc : invc (RBTree.fuseAux n lr rl) = true :=
          invc2_not_red_invc hf3 (by simpa using hred)
        obtain ⟨hbl1, hbl2, hbl3, hbl4⟩ := balance_left_contract ll
          (RBTree.mk' Color.Black (RBTree.fuseAux n lr rl) dr rr) dl
          hhll
          (by rw [invh_mk', invh_node]; exact ⟨hf1, hhrr, by omega⟩)
          (by rw [bh_mk']; simp only [bh]; omega)
          (invc_invc2 hcll)
          (by rw [invc_mk', invc_node]
              exact ⟨fun h => Color.noConfusion h, hfc, hcrr⟩)
          (noDB_mk'B dr (noDB_fuseAux n hdblr hdbrl) hdbrr)
        refine ⟨hbl1, ?_, hbl3, fun _ _ => hbl4 (by simp [RBTree.mk', RBTree.isRed])⟩
        rw [bh_mk'] at hbl2
        simp only [bh] at hbl2 ⊢
        try omega

/-- The full contract of `RedBlackTree::fuse` on well-formed inputs of equal
black height: the result preserves `invh`, keeps the black height, satisfies
the weak colour invariant, and satisfies the strong one when neither input
root is red. -/
theorem fuse_contract (l r : RBTree)
    (hhl : invh l = true) (hhr : invh r = true) (hbh : bh l = bh r)
    (hcl : invc l = true) (hcr : invc r = true)
    (hdbl : noDB l = true) (hdbr : noDB r = true) :
    invh (RBTree.fuse l r) = true ∧ bh (RBTree.fuse l r) = bh l ∧
      invc2 (RBTree.fuse l r) = true ∧
      (l.isRed = false → r.isRed = false → invc (RBTree.fuse l r) = true) :=
  fuseAux_contract _ l r (by omega) hhl hhr hbh hcl hcr hdbl hdbr


/-- The deletion contract of the static `RedBlackTree::rem`: the result
keeps `invh`; a red root keeps `invc` and its black height; a black root
keeps the weak colour invariant and loses exactly one unit of black
height. -/
theorem remS_contract (t : RBTree) (a tot : Nat)
    (hc : invc t = true) (hh : invh t = true) (hdb : noDB t = true) :
    invh (RBTree.remS t a tot) = true ∧
      (t.isRed = true →
        invc (RBTree.remS t a tot) = true ∧ bh (RBTree.remS t a tot) = bh t) ∧
      (t.isBlackNode = true →
        invc2 (RBTree.remS t a tot) = true ∧
          bh (RBTree.remS t a tot) + 1 = bh t) := by
  induction t generalizing tot with
  | nil =>
    exact ⟨rfl, fun h => by simp [RBTree.isRed] at h,
      fun h => by simp [RBTree.isBlackNode] at h⟩
  | node c l y r ihl ihr =>
    obtain ⟨hcch, hcl, hcr⟩ := (invc_node _ _ _ _).1 hc
    obtain ⟨hhl, hhr, hbhe⟩ := (invh_node _ _ _ _).1 hh
    obtain ⟨hdbc, hdbl, hdbr⟩ := (noDB_node _ _ _ _).1 hdb
    cases c with
    | DoubleBlack => exact absurd rfl hdbc
    | Red =>
      obtain ⟨hlnr, hrnr⟩ := hcch rfl
      rw [RBTree.remS]
      split_ifs with h1 h2
      · rw [RBTree.remove_left]
        simp only [RBTree.left, RBTree.right, RBTree.rootData]
        try dsimp only
        split_ifs with hbl
        · obtain ⟨la, ld, lb, rfl⟩ := isBlackNode_iff.1 hbl
          obtain ⟨hI1, -, hI3⟩ := ihl tot hcl hhl hdbl
          obtain ⟨hI2c, hI2b⟩ := hI3 rfl
          simp only [bh] at hbhe hI2b
          obtain ⟨hb1, hb2, hb3, hb4⟩ := balance_left_contract
            (RBTree.remS (RBTree.node Color.Black la ld lb) a tot) r y
            hI1 hhr (by omega) hI2c hcr hdbr
          refine ⟨hb1, fun _ => ⟨hb4 hrnr, ?_⟩,
            fun hblk => by simp [RBTree.isBlackNode] at hblk⟩
          simp only [bh]
          omega
        · have hlnil : l = RBTree.nil := by
            cases l with
            | nil => rfl
            | node lc la ld lb =>
              cases lc with
              | Red => simp [RBTree.isRed] at hlnr
              | Black => simp [RBTree.isBlackNode] at hbl
              | DoubleBlack =>
                rw [noDB_node] at hdbl
                exact absurd rfl hdbl.1
          subst hlnil
          simp only [RBTree.remS]
          refine ⟨?_, fun _ => ⟨?_, ?_⟩,
            fun hblk => by simp [RBTree.isBlackNode] at hblk⟩
          · rw [invh_mk', invh_node]
            exact ⟨rfl, hhr, hbhe⟩
          · rw [invc_mk', invc_node]
            exact ⟨fun _ => ⟨rfl, hrnr⟩, rfl, hcr⟩
          · exact bh_mk' _ _ _ _
      · obtain ⟨fc1, fc2, fc3, fc4⟩ := fuse_contract l r hhl hhr hbhe hcl hcr hdbl hdbr
        refine ⟨fc1, fun _ => ⟨fc4 hlnr hrnr, ?_⟩,
          fun hblk => by simp [RBTree.isBlackNode] at hblk⟩
        simp only [bh]
        omega
      · rw [RBTree.remove_right]
        simp only [RBTree.left, RBTree.right, RBTree.rootData]
        try dsimp only
        split_ifs with hbr
        · obtain ⟨ra, rd, rb, rfl⟩ := isBlackNode_iff.1 hbr
          obtain ⟨hI1, -, hI3⟩ := ihr (tot + y.left_subtree_length + y.piece.length)
            hcr hhr hdbr
          obtain ⟨hI2c, hI2b⟩ := hI3 rfl
          simp only [bh] at hbhe hI2b
          obtain ⟨hb1, hb2, hb3, hb4⟩ := balance_right_contract l
            (RBTree.remS (RBTree.node Color.Black ra rd rb) a
              (tot + y.left_subtree_length + y.piece.length)) y
            hhl hI1 (by omega) hcl hI2c hdbl
          refine ⟨hb1, fun _ => ⟨hb4 hlnr, ?_⟩,
            fun hblk => by simp [RBTree.isBlackNode] at hblk⟩
          simp only [bh]
          omega
        · have hrnil : r = RBTree.nil := by
            cases r with
            | nil => rfl
            | node rc ra rd rb =>
              cases rc with
              | Red => simp [RBTree.isRed] at hrnr
              | Black => simp [RBTree.isBlackNode] at hbr
              | DoubleBlack =>
                rw [noDB_node] at hdbr
                exact absurd rfl hdbr.1
          subst hrnil
          simp only [RBTree.remS]
          refine ⟨?_, fun _ => ⟨?_, ?_⟩,
            fun hblk => by simp [RBTree.isBlackNode] at hblk⟩
          · rw [invh_mk', invh_node]
            exact ⟨hhl, rfl, hbhe⟩
          · rw [invc_mk', invc_node]
            exact ⟨fun _ => ⟨hlnr, rfl⟩, hcl, rfl⟩
          · exact bh_mk' _ _ _ _
    | Black =>
      rw [RBTree.remS]
      split_ifs with h1 h2
      · rw [RBTree.remove_left]
        simp only [RBTree.left, RBTree.right, RBTree.rootData]
        try dsimp only
        split_ifs with hbl
        · obtain ⟨la, ld, lb, rfl⟩ := isBlackNode_iff.1 hbl
          obtain ⟨hI1, -, hI3⟩ := ihl tot hcl hhl hdbl
          obtain ⟨hI2c, hI2b⟩ := hI3 rfl
          simp only [bh] at hbhe hI2b
          obtain ⟨hb1, hb2, hb3, hb4⟩ := balance_left_contract
            (RBTree.remS (RBTree.node Color.Black la ld lb) a tot) r y
            hI1 hhr (by omega) hI2c hcr hdbr
          refine ⟨hb1, fun hred => by simp [RBTree.isRed] at hred,
            fun _ => ⟨hb3, ?_⟩⟩
          simp only [bh]
          omega
        · cases l with
          | nil =>
            simp only [RBTree.remS]
            refine ⟨?_, fun hred => by simp [RBTree.isRed] at hred,
              fun _ => ⟨?_, ?_⟩⟩
            · rw [invh_mk', invh_node]
              exact ⟨rfl, hhr, hbhe⟩
            · rw [invc2_mk', invc2_node]
              exact ⟨rfl, hcr⟩
            · rw [bh_mk']
              simp only [bh]
              try omega
          | node lc la ld lb =>
            cases lc with
            | Black => simp [RBTree.isBlackNode] at hbl
            | DoubleBlack =>
              rw [noDB_node] at hdbl
              exact absurd rfl hdbl.1
            | Red =>
              obtain ⟨hI1, hI2, -⟩ := ihl tot hcl hhl hdbl
              obtain ⟨hI2c, hI2b⟩ := hI2 rfl
              simp only [bh] at hbhe hI2b
              refine ⟨?_, fun hred => by simp [RBTree.isRed] at hred,
                fun _ => ⟨?_, ?_⟩⟩
              · rw [invh_mk', invh_node]
                exact ⟨hI1, hhr, by omega⟩
              · rw [invc2_mk', invc2_node]
                exact ⟨hI2c, hcr⟩
              · rw [bh_mk']
                simp only [bh]
                omega
      · obtain ⟨fc1, fc2, fc3, fc4⟩ := fuse_contract l r hhl hhr hbhe hcl hcr hdbl hdbr
        refine ⟨fc1, fun hred => by simp [RBTree.isRed] at hred,
          fun _ => ⟨fc3, ?_⟩⟩
        simp only [bh]
        omega
      · rw [RBTree.remove_right]
        simp only [RBTree.left, RBTree.right, RBTree.rootData]
        try dsimp only
        split_ifs with hbr
        · obtain ⟨ra, rd, rb, rfl⟩ := isBlackNode_iff.1 hbr
          obtain ⟨hI1, -, hI3⟩ := ihr (tot + y.left_subtree_length + y.piece.length)
            hcr hhr hdbr
          obtain ⟨hI2c, hI2b⟩ := hI3 rfl
          simp only [bh] at hbhe hI2b
          obtain ⟨hb1, hb2, hb3, hb4⟩ := balance_right_contract l
            (RBTree.remS (RBTree.node Color.Black ra rd rb) a
              (tot + y.left_subtree_length + y.piece.length)) y
            hhl hI1 (by omega) hcl hI2c hdbl
          refine ⟨hb1, fun hred => by simp [RBTree.isRed] at hred,
            fun _ => ⟨hb3, ?_⟩⟩
          simp only [bh]
          omega
        · cases r with
          | nil =>
            simp only [RBTree.remS]
            refine ⟨?_, fun hred => by simp [RBTree.isRed] at hred,
              fun _ => ⟨?_, ?_⟩⟩
            · rw [invh_mk', invh_node]
              exact ⟨hhl, rfl, hbhe⟩
            · rw [invc2_mk', invc2_node]
              exact ⟨hcl, rfl⟩
            · rw [bh_mk']
              simp only [bh]
              try omega
          | node rc ra rd rb =>
            cases rc with
            | Black => simp [RBTree.isBlackNode] at hbr
            | DoubleBlack =>
              rw [noDB_node] at hdbr
              exact absurd rfl hdbr.1
            | Red =>
              obtain ⟨hI1, hI2, -⟩ := ihr (tot + y.left_subtree_length + y.piece.length)
                hcr hhr hdbr
              obtain ⟨hI2c, hI2b⟩ := hI2 rfl
              simp only [bh] at hbhe hI2b
              refine ⟨?_, fun hred => by simp [RBTree.isRed] at hred,
                fun _ => ⟨?_, ?_⟩⟩
              · rw [invh_mk', invh_node]
                exact ⟨hhl, hI1, by omega⟩
              · rw [invc2_mk', invc2_node]
                exact ⟨hcl, hI2c⟩
              · rw [bh_mk']
                simp only [bh]
                try omega


theorem balance_red (l : RBTree) (x : NodeData) (r : RBTree) :
    RBTree.balance Color.Red l x r = RBTree.mk' Color.Red l x r := by
  simp [RBTree.balance]

theorem ins_contract (t : RBTree) (x : NodeData) (a tot : Nat)
    (hc : invc t = true) (hh : invh t = true) (hdb : noDB t = true) :
    invh (RBTree.ins t x a tot) = true ∧
      bh (RBTree.ins t x a tot) = bh t ∧
      invc2 (RBTree.ins t x a tot) = true ∧
      (t.isRed = false → invc (RBTree.ins t x a tot) = true) := by
  induction t generalizing tot with
  | nil =>
    rw [RBTree.ins]
    refine ⟨?_, ?_, ?_, fun _ => ?_⟩
    · rw [invh_mk', invh_node]
      exact ⟨rfl, rfl, rfl⟩
    · exact bh_mk' _ _ _ _
    · rw [invc2_mk', invc2_node]
      exact ⟨rfl, rfl⟩
    · rw [invc_mk', invc_node]
      exact ⟨fun _ => ⟨rfl, rfl⟩, rfl, rfl⟩
  | node c l y r ihl ihr =>
    obtain ⟨hcch, hcl, hcr⟩ := (invc_node _ _ _ _).1 hc
    obtain ⟨hhl, hhr, hbhe⟩ := (invh_node _ _ _ _).1 hh
    obtain ⟨hdbc, hdbl, hdbr⟩ := (noDB_node _ _ _ _).1 hdb
    cases c with
    | DoubleBlack => exact absurd rfl hdbc
    | Red =>
      obtain ⟨hlnr, hrnr⟩ := hcch rfl
      rw [RBTree.ins]
      split_ifs with h1
      · obtain ⟨hI1, hI2, hI3, hI4⟩ := ihl tot hcl hhl hdbl
        have hIc := hI4 hlnr
        rw [balance_red]
        refine ⟨?_, ?_, ?_, fun hx => by simp [RBTree.isRed] at hx⟩
        · rw [invh_mk', invh_node]
          exact ⟨hI1, hhr, by omega⟩
        · rw [bh_mk']
          simp only [bh]
          omega
        · rw [invc2_mk', invc2_node]
          exact ⟨hIc, hcr⟩
      · obtain ⟨hI1, hI2, hI3, hI4⟩ := ihr (tot + y.left_subtree_length + y.piece.length)
          hcr hhr hdbr
        have hIc := hI4 hrnr
        rw [balance_red]
        refine ⟨?_, ?_, ?_, fun hx => by simp [RBTree.isRed] at hx⟩
        · rw [invh_mk', invh_node]
          exact ⟨hhl, hI1, by omega⟩
        · rw [bh_mk']
          simp only [bh]
          try omega
        · rw [invc2_mk', invc2_node]
          exact ⟨hcl, hIc⟩
    | Black =>
      rw [RBTree.ins]
      split_ifs with h1
      · obtain ⟨hI1, hI2, hI3, hI4⟩ := ihl tot hcl hhl hdbl
        obtain ⟨hb1, hb2, hb3⟩ := balance_black_contract
          (RBTree.ins l x a tot) r y hI1 hhr (by omega) (Or.inr ⟨hI3, hcr⟩)
        refine ⟨hb1, ?_, invc_invc2 hb3, fun _ => hb3⟩
        simp only [bh]
        omega
      · obtain ⟨hI1, hI2, hI3, hI4⟩ := ihr (tot + y.left_subtree_length + y.piece.length)
          hcr hhr hdbr
        obtain ⟨hb1, hb2, hb3⟩ := balance_black_contract
          l (RBTree.ins r x a (tot + y.left_subtree_length + y.piece.length)) y
          hhl hI1 (by omega) (Or.inl ⟨hcl, hI3⟩)
        refine ⟨hb1, ?_, invc_invc2 hb3, fun _ => hb3⟩
        simp only [bh]
        omega

theorem insert_rb (t : RBTree) (x : NodeData) (a : Nat)
    (hc : invc t = true) (hh : invh t = true) (hdb : noDB t = true) :
    invc (t.insert x a) = true ∧ invh (t.insert x a) = true ∧
      (t.insert x a).isRed = false := by
  obtain ⟨hI1, hI2, hI3, hI4⟩ := ins_contract t x a 0 hc hh hdb
  unfold RBTree.insert
  match hm : RBTree.ins t x a 0 with
  | RBTree.nil => exact ⟨rfl, rfl, rfl⟩
  | RBTree.node c' l d r =>
    rw [hm] at hI1 hI3
    obtain ⟨hl2, hr2⟩ := (invc2_node _ _ _ _).1 hI3
    obtain ⟨hhl, hhr, hbe⟩ := (invh_node _ _ _ _).1 hI1
    refine ⟨?_, ?_, ?_⟩
    · rw [invc_mk', invc_node]
      exact ⟨fun h => Color.noConfusion h, hl2, hr2⟩
    · rw [invh_mk', invh_node]
      exact ⟨hhl, hhr, hbe⟩
    · simp [RBTree.mk', RBTree.isRed]

theorem remove_rb (t : RBTree) (a : Nat)
    (hc : invc t = true) (hh : invh t = true) (hdb : noDB t = true) :
    invc (t.remove a) = true ∧ invh (t.remove a) = true ∧
      (t.remove a).isRed = false := by
  have H := remS_contract t a 0 hc hh hdb
  have h2 : invc2 (RBTree.remS t a 0) = true := by
    cases t with
    | nil => rfl
    | node c l y r =>
      cases c with
      | Red => exact invc_invc2 (H.2.1 rfl).1
      | Black => exact (H.2.2 rfl).1
      | DoubleBlack =>
        rw [noDB_node] at hdb
        exact absurd rfl hdb.1
  unfold RBTree.remove
  match hm : RBTree.remS t a 0 with
  | RBTree.nil => exact ⟨rfl, rfl, rfl⟩
  | RBTree.node c' l d r =>
    rw [hm] at H h2
    obtain ⟨hl2, hr2⟩ := (invc2_node _ _ _ _).1 h2
    obtain ⟨hhl, hhr, hbe⟩ := (invh_node _ _ _ _).1 H.1
    refine ⟨?_, ?_, ?_⟩
    · rw [invc_mk', invc_node]
      exact ⟨fun h => Color.noConfusion h, hl2, hr2⟩
    · rw [invh_mk', invh_node]
      exact ⟨hhl, hhr, hbe⟩
    · simp [RBTree.mk', RBTree.isRed]


theorem build_piece_root (st : Tree) (txt : List Nat) :
    (st.build_piece txt).2.root = st.root := rfl

theorem compute_buffer_meta_root (st : Tree) :
    st.compute_buffer_meta.root = st.root := rfl

theorem augOk_rnrLoop (dao len : Nat) (fuel : Nat) (st : Tree)
    (dl : Nat) (first : NodePosition) (h : augOk st.root = true) :
    augOk (Tree.rnrLoop dao len fuel st dl first).root = true := by
  induction fuel generalizing st dl first with
  | zero => exact h
  | succ n ih =>
    rw [Tree.rnrLoop]
    match first.node with
    | none => exact h
    | some nd =>
      dsimp only
      split_ifs
      · exact ih _ _ _ (augOk_remove _ h)
      · exact h

theorem augOk_remove_node_range (st : Tree) (first : NodePosition) (len : Nat)
    (h : augOk st.root = true) :
    augOk (st.remove_node_range first len).root = true := by
  rw [Tree.remove_node_range]
  match first.node with
  | none => exact h
  | some nd => exact augOk_rnrLoop _ _ _ _ _ _ h

theorem augOk_engine_insert (st : Tree) (offset : Nat) (txt : List Nat)
    (h : augOk st.root = true) : augOk (st.insert offset txt).root = true := by
  rw [Tree.insert]
  repeat' first
    | split
    | dsimp only
  all_goals try simp only [Tree.compute_buffer_meta]
  all_goals repeat' first
    | exact h
    | apply augOk_insert
    | apply augOk_remove

theorem augOk_engine_remove (st : Tree) (offset count : Nat)
    (h : augOk st.root = true) : augOk (st.remove offset count).root = true := by
  rw [Tree.remove]
  repeat' first
    | split
    | dsimp only
  all_goals try simp only [Tree.compute_buffer_meta]
  all_goals repeat' first
    | exact h
    | apply augOk_insert
    | apply augOk_remove
    | apply augOk_remove_node_range

theorem augOk_btGo (bufs : List CharBuffer) (i offset : Nat) (root : RBTree)
    (h : augOk root = true) : augOk (btGo bufs i offset root) = true := by
  induction bufs generalizing i offset root with
  | nil => exact h
  | cons b rest ih =>
    rw [btGo]
    split_ifs
    · exact ih _ _ _ h
    · exact ih _ _ _ (augOk_insert _ _ h)

theorem augOk_create (bufs : List (List Nat)) :
    augOk (create bufs).root = true :=
  augOk_btGo _ _ _ _ rfl

/-- Walker states reachable for a given engine state: freshly constructed
(at any starting offset), or obtained from a reachable walker by `next`. -/
inductive WalkerReach (st : Tree) : TreeWalker → Prop where
  | init (offset : Nat) : WalkerReach st (TreeWalker.init st offset)
  | step (w : TreeWalker) : WalkerReach st w → WalkerReach st (w.next st).2

namespace TreeWalker

/-- An exhausted walker is left untouched by `populate_ptrs`. -/
theorem populate_ptrs_exhausted (st : Tree) (fuel : Nat) (w : TreeWalker)
    (h : w.exhausted = true) : populate_ptrs st fuel w = w := by
  cases fuel with
  | zero => rfl
  | succ n => simp [populate_ptrs, h]

/-- The walker invariant: whenever the byte slice is non-empty, the stack is
non-empty (the slice points into the piece of the top stack entry). -/
def wInv (w : TreeWalker) : Prop := w.firstPtr ≠ w.lastPtr → w.stack ≠ []

/-- The fast-forward loop never returns an empty stack. -/
theorem ffGo_stack_ne (st : Tree) (t : RBTree) :
    ∀ (offset : Nat) (below : List StackEntry), (ffGo st t offset below).1 ≠ [] := by
  induction t with
  | nil => intro offset below; simp [ffGo]
  | node c l y r ihl ihr =>
    intro offset below
    simp only [ffGo]
    split
    · exact ihl offset _
    · split
      · simp
      · exact ihr _ _

/-- A freshly constructed walker has a non-empty stack. -/
theorem init_stack_ne (st : Tree) (offset : Nat) : (init st offset).stack ≠ [] := by
  unfold init
  split
  · simp
  · exact ffGo_stack_ne st st.root offset []

/-- When called with an empty slice, `populate_ptrs` establishes the walker
invariant. -/
theorem populate_ptrs_wInv (st : Tree) (fuel : Nat) (w : TreeWalker)
    (h : w.firstPtr = w.lastPtr) : wInv (populate_ptrs st fuel w) := by
  induction fuel generalizing w with
  | zero => intro hne; exact absurd h hne
  | succ n ih =>
    rw [populate_ptrs]
    split
    · intro hne; exact absurd h hne
    · match hs : w.stack with
      | [] => intro hne; exact absurd h hne
      | e :: rest =>
        dsimp only
        split
        · exact ih _ (by simpa using h)
        · match e.dir with
          | WDir.Left =>
            dsimp only
            split
            · exact ih _ (by simpa using h)
            · intro _; simp
          | WDir.Center => intro _; simp
          | WDir.Right => exact ih _ (by simpa using h)

/-- `nextAux` preserves the walker invariant. -/
theorem nextAux_wInv (st : Tree) (fuel : Nat) (w : TreeWalker)
    (h : wInv w) : wInv (nextAux st fuel w).2 := by
  induction fuel generalizing w with
  | zero => exact h
  | succ n ih =>
    rw [nextAux]
    split
    · dsimp only
      have h' := populate_ptrs_wInv st (wFuel w) w (by assumption)
      split
      · exact h'
      · split
        · exact ih _ h'
        · intro _
          simp only
          exact h' (by assumption)
    · intro _
      simp only
      exact h (by assumption)

/-- `next` preserves the walker invariant. -/
theorem next_wInv (st : Tree) (w : TreeWalker) (h : wInv w) :
    wInv (w.next st).2 :=
  nextAux_wInv st _ w h

/-- Every reachable walker satisfies the invariant. -/
theorem reach_wInv {st : Tree} {w : TreeWalker} (h : WalkerReach st w) : wInv w := by
  induction h with
  | init offset => intro _; exact init_stack_ne st offset
  | step w _ ih => exact next_wInv st w ih

/-- An exhausted walker with a non-empty stack has an empty byte slice. -/
theorem exhausted_ptr_eq (w : TreeWalker) (h : w.exhausted = true)
    (hw : wInv w) : w.firstPtr = w.lastPtr := by
  by_contra hne
  have hs := hw hne
  unfold exhausted at h
  match hst : w.stack, hs with
  | e :: rest, _ =>
    rw [hst] at h
    simp [hne] at h

end TreeWalker



def rbOk (t : RBTree) : Bool := invc t && invh t && noDB t && !t.isRed

theorem rbOk_unpack {t : RBTree} (h : rbOk t = true) :
    invc t = true ∧ invh t = true ∧ noDB t = true ∧ t.isRed = false := by
  simp only [rbOk, Bool.and_eq_true, Bool.not_eq_true'] at h
  exact ⟨h.1.1.1, h.1.1.2, h.1.2, h.2⟩

theorem rbOk_insert {t : RBTree} (x : NodeData) (a : Nat)
    (h : rbOk t = true) : rbOk (t.insert x a) = true := by
  obtain ⟨hc, hh, hdb, -⟩ := rbOk_unpack h
  obtain ⟨h1, h2, h3⟩ := insert_rb t x a hc hh hdb
  simp only [rbOk, Bool.and_eq_true, Bool.not_eq_true']
  exact ⟨⟨⟨h1, h2⟩, noDB_insert x a hdb⟩, h3⟩

theorem rbOk_remove {t : RBTree} (a : Nat)
    (h : rbOk t = true) : rbOk (t.remove a) = true := by
  obtain ⟨hc, hh, hdb, -⟩ := rbOk_unpack h
  obtain ⟨h1, h2, h3⟩ := remove_rb t a hc hh hdb
  simp only [rbOk, Bool.and_eq_true, Bool.not_eq_true']
  exact ⟨⟨⟨h1, h2⟩, noDB_remove a hdb⟩, h3⟩

theorem rbOk_rnrLoop (dao len : Nat) (fuel : Nat) (st : Tree)
    (dl : Nat) (first : NodePosition) (h : rbOk st.root = true) :
    rbOk (Tree.rnrLoop dao len fuel st dl first).root = true := by
  induction fuel generalizing st dl first with
  | zero => exact h
  | succ n ih =>
    rw [Tree.rnrLoop]
    match first.node with
    | none => exact h
    | some nd =>
      dsimp only
      split_ifs
      · exact ih _ _ _ (rbOk_remove _ h)
      · exact h

theorem rbOk_remove_node_range (st : Tree) (first : NodePosition) (len : Nat)
    (h : rbOk st.root = true) :
    rbOk (st.remove_node_range first len).root = true := by
  rw [Tree.remove_node_range]
  match first.node with
  | none => exact h
  | some nd => exact rbOk_rnrLoop _ _ _ _ _ _ h

theorem rbOk_engine_insert (st : Tree) (offset : Nat) (txt : List Nat)
    (h : rbOk st.root = true) : rbOk (st.insert offset txt).root = true := by
  rw [Tree.insert]
  repeat' first
    | split
    | dsimp only
  all_goals try simp only [Tree.compute_buffer_meta]
  all_goals repeat' first
    | exact h
    | apply rbOk_insert
    | apply rbOk_remove

theorem rbOk_engine_remove (st : Tree) (offset count : Nat)
    (h : rbOk st.root = true) : rbOk (st.remove offset count).root = true := by
  rw [Tree.remove]
  repeat' first
    | split
    | dsimp only
  all_goals try simp only [Tree.compute_buffer_meta]
  all_goals repeat' first
    | exact h
    | apply rbOk_insert
    | apply rbOk_remove
    | apply rbOk_remove_node_range

theorem rbOk_btGo (bufs : List CharBuffer) (i offset : Nat) (root : RBTree)
    (h : rbOk root = true) : rbOk (btGo bufs i offset root) = true := by
  induction bufs generalizing i offset root with
  | nil => exact h
  | cons b rest ih =>
    rw [btGo]
    split_ifs
    · exact ih _ _ _ h
    · exact ih _ _ _ (rbOk_insert _ _ h)

theorem rbOk_create (bufs : List (List Nat)) :
    rbOk (create bufs).root = true :=
  rbOk_btGo _ _ _ _ rfl

theorem rbOk_reachable (st : Tree) (h : Reachable st) : rbOk st.root = true := by
  induction h with
  | created bufs => exact rbOk_create bufs
  | inserted st offset txt _ ih => exact rbOk_engine_insert st offset txt ih
  | removed st offset count _ ih => exact rbOk_engine_remove st offset count ih


theorem attributeData_piece (d : NodeData) (l : RBTree) :
    (attributeData d l).piece = d.piece := rfl

theorem inorder_mk' (c : Color) (l : RBTree) (d : NodeData) (r : RBTree) :
    inorderP (RBTree.mk' c l d r) = inorderP l ++ d.piece :: inorderP r := rfl

theorem inorder_paint (t : RBTree) (c : Color) :
    inorderP (t.paint c) = inorderP t := by
  cases t <;> rfl

theorem inorder_balance (c : Color) (lft : RBTree) (x : NodeData) (rgt : RBTree) :
    inorderP (RBTree.balance c lft x rgt) = inorderP lft ++ x.piece :: inorderP rgt := by
  unfold RBTree.balance
  split_ifs with h1 h2 h3 h4 h5
  · rfl
  · obtain ⟨a, da, b, dl, rl, rfl⟩ := doubled_left_iff.1 h2
    simp [inorderP, RBTree.mk', RBTree.paint, RBTree.left, RBTree.right,
      RBTree.rootData, attributeData]
  · obtain ⟨a, da, b1, d1, b, rfl⟩ := doubled_right_iff.1 h3
    simp [inorderP, RBTree.mk', RBTree.paint, RBTree.left, RBTree.right,
      RBTree.rootData, attributeData]
  · obtain ⟨a, da, b, dl, rl, rfl⟩ := doubled_left_iff.1 h4
    simp [inorderP, RBTree.mk', RBTree.paint, RBTree.left, RBTree.right,
      RBTree.rootData, attributeData]
  · obtain ⟨a, da, b1, d1, b, rfl⟩ := doubled_right_iff.1 h5
    simp [inorderP, RBTree.mk', RBTree.paint, RBTree.left, RBTree.right,
      RBTree.rootData, attributeData]
  · rfl

theorem list_refold {a : Type} (A B C D E : List a) (p q : a)
    (h : A ++ p :: B = C ++ D) :
    A ++ p :: (B ++ q :: E) = C ++ (D ++ q :: E) := by
  have h2 : A ++ p :: (B ++ q :: E) = (A ++ p :: B) ++ q :: E := by simp
  rw [h2, h, List.append_assoc]

theorem inorder_balanceNode (c : Color) (l : RBTree) (d : NodeData) (r : RBTree) :
    inorderP (RBTree.balanceNode (RBTree.mk' c l d r)) =
      inorderP l ++ d.piece :: inorderP r := by
  unfold RBTree.balanceNode
  rw [mk'_left, mk'_right]
  have hrd : (RBTree.mk' c l d r).rootData = attributeData d l := rfl
  have hrc : (RBTree.mk' c l d r).rootColor = c := rfl
  rw [hrd, hrc]
  split_ifs with h1
  · rw [inorder_mk', inorder_paint, inorder_paint, attributeData_piece]
  · rw [inorder_balance, attributeData_piece]

theorem inorder_balance_left (c : Color) (l : RBTree) (d : NodeData) (r : RBTree) :
    inorderP (RBTree.balance_left (RBTree.mk' c l d r)) =
      inorderP l ++ d.piece :: inorderP r := by
  unfold RBTree.balance_left
  rw [mk'_left, mk'_right]
  have hrd : (RBTree.mk' c l d r).rootData = attributeData d l := rfl
  split_ifs with h1 h2 h3
  · rw [hrd, inorder_mk', inorder_paint, attributeData_piece]
  · rw [hrd, inorder_balanceNode, inorder_paint, attributeData_piece]
  · rw [Bool.and_eq_true] at h3
    obtain ⟨rla, rld, rlb, hrl⟩ := isBlackNode_iff.1 h3.2
    obtain ⟨ra, rd, rb, rfl⟩ := isRed_iff.1 h3.1
    simp only [RBTree.left] at hrl
    subst hrl
    rw [hrd]
    simp [inorderP, inorder_mk', inorder_balanceNode, inorder_paint,
      RBTree.left, RBTree.right, RBTree.rootData, attributeData]
  · exact inorder_mk' c l d r

theorem inorder_balance_right (c : Color) (l : RBTree) (d : NodeData) (r : RBTree) :
    inorderP (RBTree.balance_right (RBTree.mk' c l d r)) =
      inorderP l ++ d.piece :: inorderP r := by
  unfold RBTree.balance_right
  rw [mk'_left, mk'_right]
  have hrd : (RBTree.mk' c l d r).rootData = attributeData d l := rfl
  split_ifs with h1 h2 h3
  · rw [hrd, inorder_mk', inorder_paint, attributeData_piece]
  · rw [hrd, inorder_balanceNode, inorder_paint, attributeData_piece]
  · rw [Bool.and_eq_true] at h3
    obtain ⟨lra, lrd, lrb, hlr⟩ := isBlackNode_iff.1 h3.2
    obtain ⟨la, ld, lb, rfl⟩ := isRed_iff.1 h3.1
    simp only [RBTree.right] at hlr
    subst hlr
    rw [hrd]
    simp [inorderP, inorder_mk', inorder_balanceNode, inorder_paint,
      RBTree.left, RBTree.right, RBTree.rootData, attributeData]
  · exact inorder_mk' c l d r

theorem inorder_fuseAux (fuel : Nat) (l r : RBTree)
    (hsz : l.size + r.size < fuel) :
    inorderP (RBTree.fuseAux fuel l r) = inorderP l ++ inorderP r := by
  induction fuel generalizing l r with
  | zero => omega
  | succ n ih =>
    rw [RBTree.fuseAux]
    split_ifs with he1 he2 hc1 hc2 hc3
    · cases l with
      | node c ll dl lr => simp [RBTree.is_empty] at he1
      | nil => simp [inorderP]
    · cases r with
      | node c rl dr rr => simp [RBTree.is_empty] at he2
      | nil => simp [inorderP]
    · cases r with
      | nil => simp [RBTree.is_empty] at he2
      | node cr rl dr rr =>
        simp only [RBTree.left, RBTree.right, RBTree.rootData, RBTree.size] at *
        rw [inorder_mk', ih l rl (by omega)]
        simp [inorderP]
    · cases l with
      | nil => simp [RBTree.is_empty] at he1
      | node cl ll dl lr =>
        simp only [RBTree.left, RBTree.right, RBTree.rootData, RBTree.size] at *
        rw [inorder_mk', ih lr r (by omega)]
        simp [inorderP]
    · cases l with
      | nil => simp [RBTree.is_empty] at he1
      | node cl ll dl lr =>
        cases r with
        | nil => simp [RBTree.is_empty] at he2
        | node cr rl dr rr =>
          simp only [RBTree.left, RBTree.right, RBTree.rootData, RBTree.size] at *
          try dsimp only
          have hf := ih lr rl (by omega)
          split_ifs with hred
          · obtain ⟨fl, fd, fr, hfeq⟩ := isRed_iff.1 hred
            rw [hfeq] at hf
            rw [hfeq]
            simp only [RBTree.left, RBTree.right, RBTree.rootData]
            simp only [inorderP] at hf
            have hkey := list_refold (inorderP fl) (inorderP fr) (inorderP lr)
              (inorderP rl) (inorderP rr) fd.piece dr.piece hf
            simp only [inorder_mk', inorderP, attributeData_piece,
              List.append_assoc, List.cons_append]
            rw [hkey]
          · simp only [inorder_mk', hf, inorderP]
            simp [attributeData_piece]
    · cases l with
      | nil => simp [RBTree.is_empty] at he1
      | node cl ll dl lr =>
        cases r with
        | nil => simp [RBTree.is_empty] at he2
        | node cr rl dr rr =>
          simp only [RBTree.left, RBTree.right, RBTree.rootData, RBTree.size] at *
          try dsimp only
          have hf := ih lr rl (by omega)
          split_ifs with hred
          · obtain ⟨fl, fd, fr, hfeq⟩ := isRed_iff.1 hred
            rw [hfeq] at hf
            rw [hfeq]
            simp only [RBTree.left, RBTree.right, RBTree.rootData]
            simp only [inorderP] at hf
            have hkey := list_refold (inorderP fl) (inorderP fr) (inorderP lr)
              (inorderP rl) (inorderP rr) fd.piece dr.piece hf
            simp only [inorder_mk', inorderP, attributeData_piece,
              List.append_assoc, List.cons_append]
            rw [hkey]
          · rw [inorder_balance_left]
            simp only [inorder_mk', hf, inorderP]
            simp [attributeData_piece]
    
theorem inorder_fuse (l r : RBTree) :
    inorderP (RBTree.fuse l r) = inorderP l ++ inorderP r :=
  inorder_fuseAux _ l r (by omega)

theorem inorder_remove_left (c : Color) (l : RBTree) (y : NodeData) (r : RBTree)
    (nl : RBTree) :
    inorderP (RBTree.remove_left (RBTree.node c l y r) nl) =
      inorderP nl ++ y.piece :: inorderP r := by
  unfold RBTree.remove_left
  simp only [RBTree.left, RBTree.right, RBTree.rootData]
  try dsimp only
  split_ifs with h1
  · exact inorder_balance_left _ _ _ _
  · exact inorder_mk' _ _ _ _

theorem inorder_remove_right (c : Color) (l : RBTree) (y : NodeData) (r : RBTree)
    (nr : RBTree) :
    inorderP (RBTree.remove_right (RBTree.node c l y r) nr) =
      inorderP l ++ y.piece :: inorderP nr := by
  unfold RBTree.remove_right
  simp only [RBTree.left, RBTree.right, RBTree.rootData]
  try dsimp only
  split_ifs with h1
  · exact inorder_balance_right _ _ _ _
  · exact inorder_mk' _ _ _ _

theorem inorder_insert_ins (t : RBTree) (x : NodeData) (a : Nat) :
    inorderP (t.insert x a) = inorderP (RBTree.ins t x a 0) := by
  unfold RBTree.insert
  match hm : RBTree.ins t x a 0 with
  | RBTree.nil => rfl
  | RBTree.node c l d r => rw [inorder_mk']; rfl

theorem inorder_remove_remS (t : RBTree) (a : Nat) :
    inorderP (t.remove a) = inorderP (RBTree.remS t a 0) := by
  unfold RBTree.remove
  match hm : RBTree.remS t a 0 with
  | RBTree.nil => rfl
  | RBTree.node c l d r => rw [inorder_mk']; rfl




theorem ins_append (t : RBTree) (x : NodeData) (a tot : Nat)
    (haug : augOk t = true) (hge : tot + sumLen (inorderP t) ≤ a) :
    inorderP (RBTree.ins t x a tot) = inorderP t ++ [x.piece] := by
  induction t generalizing tot with
  | nil =>
    rw [RBTree.ins, inorder_mk']
    rfl
  | node c l y r ihl ihr =>
    obtain ⟨hal, har, hlen, hlf⟩ := (augOk_node_iff _ _ _ _).1 haug
    rw [inorderP, sumLen_append, sumLen_cons] at hge
    rw [RBTree.ins, if_neg (by omega), inorder_balance,
      ihr (tot + y.left_subtree_length + y.piece.length) har (by omega)]
    simp [inorderP]

/-- The piece list built by the loop of `Tree::build_tree`: one piece per
non-empty buffer, spanning the whole buffer, in order. -/
def btPieces : List CharBuffer → Nat → List Piece
  | [], _ => []
  | buf :: rest, i =>
    if buf.buffer = [] then btPieces rest (i + 1)
    else
      let last_line := sub64 buf.line_starts.length 1
      ⟨i, ⟨0, 0⟩,
        ⟨last_line, sub64 buf.buffer.length (buf.line_starts.getD last_line 0)⟩,
        buf.buffer.length, last_line⟩ :: btPieces rest (i + 1)

theorem btGo_inorder (bufs : List CharBuffer) (i offset : Nat) (root : RBTree)
    (haug : augOk root = true) (hoff : sumLen (inorderP root) ≤ offset) :
    inorderP (btGo bufs i offset root) = inorderP root ++ btPieces bufs i := by
  induction bufs generalizing i offset root with
  | nil => simp [btGo, btPieces]
  | cons b rest ih =>
    rw [btGo, btPieces]
    split_ifs with hb
    · exact ih _ _ _ haug hoff
    · try dsimp only
      rw [ih _ _ _ (augOk_insert _ _ haug)
          (by rw [inorder_insert_ins, ins_append _ _ _ _ haug (by omega),
                sumLen_append, sumLen_cons, sumLen_nil]
              dsimp only
              omega),
        inorder_insert_ins, ins_append _ _ _ _ haug (by omega)]
      simp

theorem lineStartsTail_getD_le (l : List Nat) (i k : Nat) :
    (lineStartsTail l i).getD k 0 ≤ i + l.length := by
  induction l generalizing i k with
  | nil => simp [lineStartsTail, List.getD]
  | cons c rest ih =>
    rw [lineStartsTail]
    split_ifs with hc
    · cases k with
      | zero =>
        simp [List.getD]
        try omega
      | succ m =>
        have := ih (i + 1) m
        simp only [List.getD_cons_succ]
        calc (lineStartsTail rest (i + 1)).getD m 0 ≤ i + 1 + rest.length := this
          _ ≤ i + (c :: rest).length := by simp [List.length_cons]; try omega
    · have := ih (i + 1) k
      calc (lineStartsTail rest (i + 1)).getD k 0 ≤ i + 1 + rest.length := this
        _ ≤ i + (c :: rest).length := by simp [List.length_cons]; try omega

theorem populate_line_starts_getD_le (b : List Nat) (k : Nat) :
    (populate_line_starts b).getD k 0 ≤ b.length := by
  rw [populate_line_starts]
  cases k with
  | zero => simp [List.getD]
  | succ m =>
    simp only [List.getD_cons_succ]
    have := lineStartsTail_getD_le b 0 m
    omega

theorem pieceBytes_whole (st : Tree) (b : List Nat) (i ll nl : Nat)
    (hb : st.buffer_at i = ⟨b, populate_line_starts b⟩) :
    pieceBytes st
      ⟨i, ⟨0, 0⟩, ⟨ll, sub64 b.length ((populate_line_starts b).getD ll 0)⟩,
        b.length, nl⟩ = b := by
  rw [pieceBytes]
  dsimp only
  rw [hb]
  have hle := populate_line_starts_getD_le b ll
  have h0 : (populate_line_starts b).getD 0 0 = 0 := by
    rw [populate_line_starts]
    simp [List.getD]
  dsimp only
  rw [h0, sub64, if_pos hle]
  have heq : (populate_line_starts b).getD ll 0 +
      (b.length - (populate_line_starts b).getD ll 0) = b.length := by omega
  rw [heq]
  simp

theorem btPieces_bytes (st : Tree) (bufs : List CharBuffer) (i : Nat)
    (hb : ∀ k, k < bufs.length → st.buffer_at (i + k) = bufs.getD k ⟨[], []⟩)
    (hwf : ∀ k, k < bufs.length → bufWF (bufs.getD k ⟨[], []⟩)) :
    (btPieces bufs i).map (pieceBytes st) =
      (bufs.map CharBuffer.buffer).filter (fun b => decide (b ≠ [])) := by
  induction bufs generalizing i with
  | nil => rfl
  | cons b rest ih =>
    have hbr : ∀ k, k < rest.length →
        st.buffer_at (i + 1 + k) = rest.getD k ⟨[], []⟩ := by
      intro k hk
      have h := hb (k + 1) (by simp only [List.length_cons]; omega)
      simp only [List.getD_cons_succ] at h
      rw [← h]
      ring_nf
    have hwfr : ∀ k, k < rest.length → bufWF (rest.getD k ⟨[], []⟩) := by
      intro k hk
      have h := hwf (k + 1) (by simp only [List.length_cons]; omega)
      simpa using h
    have hb0 := hb 0 (by simp only [List.length_cons]; omega)
    have hwf0 := hwf 0 (by simp only [List.length_cons]; omega)
    rw [Nat.add_zero] at hb0
    simp only [List.getD_cons_zero] at hb0 hwf0
    cases b with
    | mk bb ls =>
      rw [bufWF] at hwf0
      dsimp only at hwf0
      subst hwf0
      rw [btPieces]
      dsimp only
      split_ifs with hempty
      · rw [ih (i + 1) hbr hwfr]
        simp [hempty]
      · rw [List.map_cons, ih (i + 1) hbr hwfr,
          pieceBytes_whole st bb i _ _ hb0]
        simp [hempty]

theorem flatten_filter_ne_nil (l : List (List Nat)) :
    (l.filter (fun b => decide (b ≠ []))).flatten = l.flatten := by
  induction l with
  | nil => rfl
  | cons b rest ih =>
    by_cases hb : b = []
    · subst hb
      rw [List.filter_cons, if_neg (by simp)]
      rw [ih, List.flatten_cons]
      simp
    · rw [List.filter_cons, if_pos (by simp [hb]), List.flatten_cons, ih,
        List.flatten_cons]




theorem line_start_out_of_range (st : Tree) (acc : Tree → Piece → Nat → Nat)
    (t : RBTree) (offset line : Nat) (haug : augOk t = true)
    (hline : sumNl (inorderP t) + 1 < line) :
    st.line_start acc t offset line = offset + sumLen (inorderP t) := by
  induction t generalizing offset line with
  | nil =>
    rw [Tree.line_start]
    simp [inorderP, sumLen]
  | node c l y r ihl ihr =>
    obtain ⟨hal, har, hlen, hlf⟩ := (augOk_node_iff _ _ _ _).1 haug
    rw [inorderP, sumNl_append, sumNl_cons] at hline
    rw [Tree.line_start]
    try dsimp only
    have hsub : sub64 line 1 = line - 1 := by rw [sub64, if_pos (by omega)]
    rw [hsub, if_neg (by omega), if_neg (by omega)]
    have hsub2 : sub64 (line - 1) (y.left_subtree_lf_count + y.piece.newline_count)
        = line - 1 - (y.left_subtree_lf_count + y.piece.newline_count) := by
      rw [sub64, if_pos (by omega)]
    rw [hsub2, ihr _ _ har (by omega)]
    rw [inorderP, sumLen_append, sumLen_cons, hlen]
    omega

theorem ffGo_at_end (st : Tree) (t : RBTree) (below : List StackEntry)
    (haug : augOk t = true) :
    TreeWalker.ffGo st t (sumLen (inorderP t)) below =
      (⟨RBTree.nil, WDir.Left⟩ :: below, none, 0, 0) := by
  induction t generalizing below with
  | nil => rw [TreeWalker.ffGo]
  | node c l y r ihl ihr =>
    obtain ⟨hal, har, hlen, hlf⟩ := (augOk_node_iff _ _ _ _).1 haug
    rw [TreeWalker.ffGo]
    try dsimp only
    rw [inorderP, sumLen_append, sumLen_cons]
    rw [if_neg (by omega), if_neg (by omega)]
    have hs : sub64 (sumLen (inorderP l) + (y.piece.length + sumLen (inorderP r)))
        (y.left_subtree_length + y.piece.length) = sumLen (inorderP r) := by
      rw [sub64, if_pos (by omega), hlen]
      omega
    rw [hs]
    exact ihr below har

theorem walkLoop_exhausted (st : Tree) (fuel : Nat) (w : TreeWalker)
    (acc : List Nat) (h : w.exhausted = true) :
    Tree.walkLoop st fuel w acc = acc.reverse := by
  cases fuel with
  | zero => rfl
  | succ n => rw [Tree.walkLoop, if_pos h]




/-- The byte range a piece denotes lies inside its buffer, and its cursors
index the buffer's line-starts table. -/
def pieceFits (st : Tree) (p : Piece) : Prop :=
  p.first.line < (st.buffer_at p.index).line_starts.length ∧
  p.last.line < (st.buffer_at p.index).line_starts.length ∧
  (st.buffer_at p.index).line_starts.getD p.last.line 0 + p.last.column ≤
    (st.buffer_at p.index).buffer.length

theorem lineStartsTail_mem_le (l : List Nat) (i : Nat) (x : Nat)
    (hx : x ∈ lineStartsTail l i) : x ≤ i + l.length := by
  induction l generalizing i with
  | nil => simp [lineStartsTail] at hx
  | cons c rest ih =>
    rw [lineStartsTail] at hx
    split_ifs at hx with hc
    · rcases List.mem_cons.1 hx with h | h
      · subst h
        simp [List.length_cons]
        try omega
      · have := ih (i + 1) h
        simp [List.length_cons]
        try omega
    · have := ih (i + 1) hx
      simp [List.length_cons]
      try omega

theorem populate_mem_le (b : List Nat) (x : Nat)
    (hx : x ∈ populate_line_starts b) : x ≤ b.length := by
  rw [populate_line_starts] at hx
  rcases List.mem_cons.1 hx with h | h
  · omega
  · have := lineStartsTail_mem_le b 0 x h
    omega

theorem build_piece_buffers (st : Tree) (txt : List Nat) :
    (st.build_piece txt).2.buffers = st.buffers := rfl

theorem build_piece_mod_buffer (st : Tree) (txt : List Nat) :
    (st.build_piece txt).2.mod_buffer =
      ⟨st.mod_buffer.buffer ++ txt,
        st.mod_buffer.line_starts ++
          ((populate_line_starts txt).map
            (fun s => s + st.mod_buffer.buffer.length)).drop 1⟩ := rfl

theorem build_piece_fst_index (st : Tree) (txt : List Nat) :
    (st.build_piece txt).1.index = modBufIdx := rfl

theorem build_piece_fst_first (st : Tree) (txt : List Nat) :
    (st.build_piece txt).1.first = st.last_insert := rfl

theorem build_piece_fst_last_col (st : Tree) (txt : List Nat) :
    (st.build_piece txt).1.last.column =
      sub64 (st.build_piece txt).2.mod_buffer.buffer.length
        ((st.build_piece txt).2.mod_buffer.line_starts.getD
          (st.build_piece txt).1.last.line 0) := rfl

theorem pieceBytes_build_piece (st : Tree) (txt : List Nat) (p : Piece)
    (hfit : pieceFits st p) :
    pieceBytes (st.build_piece txt).2 p = pieceBytes st p := by
  obtain ⟨hf1, hf2, hf3⟩ := hfit
  by_cases hidx : p.index = modBufIdx
  · rw [pieceBytes, pieceBytes]
    rw [Tree.buffer_at, if_pos hidx] at hf1 hf2 hf3
    have hba : (st.build_piece txt).2.buffer_at p.index =
        (st.build_piece txt).2.mod_buffer := by
      rw [Tree.buffer_at, if_pos hidx]
    have hba2 : st.buffer_at p.index = st.mod_buffer := by
      rw [Tree.buffer_at, if_pos hidx]
    rw [hba, hba2, build_piece_mod_buffer]
    dsimp only
    rw [List.getD_append _ _ _ _ hf1, List.getD_append _ _ _ _ hf2,
      List.take_append_of_le_length (by omega)]
  · rw [pieceBytes, pieceBytes]
    have hba : (st.build_piece txt).2.buffer_at p.index = st.buffer_at p.index := by
      rw [Tree.buffer_at, Tree.buffer_at, if_neg hidx, if_neg hidx,
        build_piece_buffers]
    rw [hba]

theorem build_piece_ls_le (st : Tree) (txt : List Nat)
    (hwf : bufWF st.mod_buffer) (k : Nat) :
    (st.build_piece txt).2.mod_buffer.line_starts.getD k 0 ≤
      (st.build_piece txt).2.mod_buffer.buffer.length := by
  rw [build_piece_mod_buffer]
  dsimp only
  rw [List.length_append]
  by_cases hk : k < (st.mod_buffer.line_starts ++
      ((populate_line_starts txt).map
        (fun s => s + st.mod_buffer.buffer.length)).drop 1).length
  · rw [List.getD_eq_getElem _ 0 hk]
    have hmem := List.getElem_mem hk
    have hbound : ∀ x, x ∈ st.mod_buffer.line_starts →
        x ≤ st.mod_buffer.buffer.length := by
      intro x hx
      rw [bufWF] at hwf
      rw [hwf] at hx
      exact populate_mem_le _ _ hx
    have hbound2 : ∀ x, x ∈ ((populate_line_starts txt).map
        (fun s => s + st.mod_buffer.buffer.length)).drop 1 →
        x ≤ st.mod_buffer.buffer.length + txt.length := by
      intro x hx
      have h2 := List.drop_subset _ _ hx
      obtain ⟨y, hy, hyx⟩ := List.mem_map.1 h2
      have := populate_mem_le _ _ hy
      omega
    rcases List.mem_append.1 hmem with h | h
    · have := hbound _ h
      omega
    · have := hbound2 _ h
      omega
  · rw [List.getD_eq_default _ _ (by omega)]
    omega

theorem build_piece_new_bytes (st : Tree) (txt : List Nat)
    (hwf : bufWF st.mod_buffer)
    (hli : st.mod_buffer.line_starts.getD st.last_insert.line 0 +
      st.last_insert.column = st.mod_buffer.buffer.length)
    (hlil : st.last_insert.line < st.mod_buffer.line_starts.length) :
    pieceBytes (st.build_piece txt).2 (st.build_piece txt).1 = txt := by
  rw [pieceBytes]
  try dsimp only
  have hba : (st.build_piece txt).2.buffer_at (st.build_piece txt).1.index =
      (st.build_piece txt).2.mod_buffer := by
    rw [build_piece_fst_index, Tree.buffer_at, if_pos rfl]
  rw [hba]
  have ha : (st.build_piece txt).2.mod_buffer.line_starts.getD
      (st.build_piece txt).1.first.line 0 + (st.build_piece txt).1.first.column =
      st.mod_buffer.buffer.length := by
    rw [build_piece_fst_first, build_piece_mod_buffer]
    dsimp only
    rw [List.getD_append _ _ _ _ hlil]
    exact hli
  have hb : (st.build_piece txt).2.mod_buffer.line_starts.getD
      (st.build_piece txt).1.last.line 0 + (st.build_piece txt).1.last.column =
      (st.build_piece txt).2.mod_buffer.buffer.length := by
    rw [build_piece_fst_last_col, sub64,
      if_pos (build_piece_ls_le st txt hwf _)]
    have := build_piece_ls_le st txt hwf (st.build_piece txt).1.last.line
    omega
  rw [ha, hb, List.take_length]
  rw [show (st.build_piece txt).2.mod_buffer.buffer =
    st.mod_buffer.buffer ++ txt from by rw [build_piece_mod_buffer]]
  exact List.drop_left _ _

theorem node_at_go_end (st : Tree) (t : RBTree) (off nso nl : Nat)
    (path : List Bool) (haug : augOk t = true) (hne : t.is_empty = false)
    (hoff : sumLen (inorderP t) ≤ off) :
    ∃ nd, (Tree.node_at_go st t off nso nl path).node = some nd ∧
      (Tree.node_at_go st t off nso nl path).start_offset + nd.piece.length =
        nso + sumLen (inorderP t) := by
  induction t generalizing off nso nl path with
  | nil => simp [RBTree.is_empty] at hne
  | node c l y r ihl ihr =>
    obtain ⟨hal, har, hlen, hlf⟩ := (augOk_node_iff _ _ _ _).1 haug
    rw [inorderP, sumLen_append, sumLen_cons] at hoff ⊢
    rw [Tree.node_at_go]
    try dsimp only
    rw [if_neg (by omega), if_neg (by omega)]
    split_ifs with hre
    · have hrnil : r = RBTree.nil := by
        cases r with
        | nil => rfl
        | node cr rl dr rr => simp [RBTree.is_empty] at hre
      subst hrnil
      refine ⟨y, rfl, ?_⟩
      dsimp only
      simp only [inorderP, sumLen_nil] at *
      omega
    · have hsub : sub64 off (y.left_subtree_length + y.piece.length) =
          off - (y.left_subtree_length + y.piece.length) := by
        rw [sub64, if_pos (by omega)]
      rw [hsub]
      obtain ⟨nd, h1, h2⟩ := ihr (off - (y.left_subtree_length + y.piece.length))
        (nso + (y.left_subtree_length + y.piece.length)) _ _ har
        (by simpa using hre) (by omega)
      exact ⟨nd, h1, by omega⟩


theorem bpAux_correct (starts : List Nat) (offset : Nat) :
    ∀ (fuel low high mid mid_start : Nat),
    high - low + 1 < fuel → low ≤ high →
    starts.getD low 0 ≤ offset →
    (Tree.bpAux starts offset fuel low high mid mid_start).2 =
      starts.getD (Tree.bpAux starts offset fuel low high mid mid_start).1 0 ∧
    (Tree.bpAux starts offset fuel low high mid mid_start).2 ≤ offset ∧
    low ≤ (Tree.bpAux starts offset fuel low high mid mid_start).1 ∧
    (Tree.bpAux starts offset fuel low high mid mid_start).1 ≤ high := by
  intro fuel
  induction fuel with
  | zero => intro low high mid mid_start hf; omega
  | succ n ih =>
    intro low high mid mid_start hf hlh hfl
    rw [Tree.bpAux, if_pos hlh]
    try dsimp only
    have hsub : sub64 high low = high - low := by rw [sub64, if_pos hlh]
    rw [hsub]
    have hmidrange : low ≤ low + (high - low) / 2 ∧ low + (high - low) / 2 ≤ high := by
      omega
    split_ifs with hmh hlt hstop
    · -- mid' = high: only possible when low = high
      have hle : low = high := by omega
      subst hle
      refine ⟨rfl, ?_, by omega, by omega⟩
      have : low + (low - low) / 2 = low := by omega
      rw [this]
      exact hfl
    · -- offset < starts[mid']: go left; mid' > low since starts[low] ≤ offset
      have hmgt : low < low + (high - low) / 2 := by
        rcases Nat.lt_or_ge low (low + (high - low) / 2) with h | h
        · exact h
        · have : low + (high - low) / 2 = low := by omega
          rw [this] at hlt
          omega
      have hs2 : sub64 (low + (high - low) / 2) 1 = low + (high - low) / 2 - 1 := by
        rw [sub64, if_pos (by omega)]
      rw [hs2]
      have := ih low (low + (high - low) / 2 - 1) (low + (high - low) / 2)
        (starts.getD (low + (high - low) / 2) 0) (by omega) (by omega) hfl
      exact ⟨this.1, this.2.1, this.2.2.1, by omega⟩
    · -- starts[mid'+1] ≤ offset: go right
      have hmlt : low + (high - low) / 2 < high := by omega
      have := ih (low + (high - low) / 2 + 1) high (low + (high - low) / 2)
        (starts.getD (low + (high - low) / 2) 0) (by omega) (by omega) hstop
      exact ⟨this.1, this.2.1, by omega, this.2.2.2⟩
    · exact ⟨rfl, by omega, by omega, by omega⟩

theorem buffer_position_offset (st : Tree) (piece : Piece) (remainder : Nat)
    (h0 : (st.buffer_at piece.index).line_starts.getD 0 0 = 0) :
    st.buffer_offset piece.index (st.buffer_position piece remainder) =
      (st.buffer_at piece.index).line_starts.getD piece.first.line 0 +
        piece.first.column + remainder ∧
    (st.buffer_position piece remainder).line ≤
      max piece.first.line piece.last.line := by
  rw [Tree.buffer_position]
  try dsimp only
  by_cases hlh : piece.first.line ≤ piece.last.line
  · have hsub : sub64 piece.last.line piece.first.line =
        piece.last.line - piece.first.line := by
      rw [sub64, if_pos hlh]
    rw [hsub]
    have hc := bpAux_correct (st.buffer_at piece.index).line_starts
      ((st.buffer_at piece.index).line_starts.getD piece.first.line 0 +
        piece.first.column + remainder)
      (piece.last.line - piece.first.line + 2) piece.first.line piece.last.line 0 0
      (by omega) hlh (by omega)
    constructor
    · rw [Tree.buffer_offset]
      try dsimp only
      rw [← hc.1, sub64, if_pos hc.2.1]
      omega
    · try dsimp only
      omega
  · -- degenerate: first.line > last.line: the loop exits immediately
    have h1 : sub64 piece.last.line piece.first.line + 2 =
        (sub64 piece.last.line piece.first.line + 1) + 1 := rfl
    rw [h1, Tree.bpAux, if_neg (by omega)]
    constructor
    · rw [Tree.buffer_offset]
      try dsimp only
      rw [h0, sub64, if_pos (by omega)]
      omega
    · try dsimp only
      omega


/-- Full piece validity: the piece fits its buffer and its stored length is
exactly the byte distance between its two cursors. -/
def pieceVal (st : Tree) (p : Piece) : Prop :=
  pieceFits st p ∧
  st.buffer_offset p.index p.last = st.buffer_offset p.index p.first + p.length

theorem pieceBytes_off (st : Tree) (p : Piece) :
    pieceBytes st p = ((st.buffer_at p.index).buffer.take
      (st.buffer_offset p.index p.last)).drop
      (st.buffer_offset p.index p.first) := rfl

theorem pieceBytes_length (st : Tree) (p : Piece) (hval : pieceVal st p) :
    (pieceBytes st p).length = p.length := by
  obtain ⟨⟨h1, h2, h3⟩, hv⟩ := hval
  rw [pieceBytes_off, List.length_drop, List.length_take]
  rw [Tree.buffer_offset] at hv ⊢
  omega

theorem take_between (l : List Nat) (a r len : Nat) (hr : r ≤ len) :
    (l.take (a + r)).drop a = (((l.take (a + len)).drop a).take r) := by
  rw [List.drop_take, List.drop_take]
  rw [List.take_take]
  have h1 : a + r - a = r := by omega
  have h2 : a + len - a = len := by omega
  rw [h1, h2, Nat.min_eq_left hr]

theorem drop_between (l : List Nat) (a r len : Nat) :
    (l.take (a + len)).drop (a + r) = ((l.take (a + len)).drop a).drop r := by
  rw [List.drop_drop]
  try rw [Nat.add_comm r a]

/-- The byte slice of any piece whose `last` cursor was moved to the split
position `buffer_position p r` is the first `r` bytes of `p`'s slice. -/
theorem bytes_split_right (st : Tree) (p q : Piece) (r : Nat)
    (hval : pieceVal st p)
    (h0 : (st.buffer_at p.index).line_starts.getD 0 0 = 0)
    (hr : r ≤ p.length)
    (hqi : q.index = p.index) (hqf : q.first = p.first)
    (hql : q.last = st.buffer_position p r) :
    pieceBytes st q = (pieceBytes st p).take r := by
  have hoff : st.buffer_offset p.index (st.buffer_position p r) =
      st.buffer_offset p.index p.first + r := (buffer_position_offset st p r h0).1
  rw [pieceBytes_off, pieceBytes_off, hqi, hqf, hql, hoff, hval.2]
  exact take_between _ _ _ _ hr

/-- The byte slice of any piece whose `first` cursor was moved to the split
position `buffer_position p r` is `p`'s slice with the first `r` bytes
dropped. -/
theorem bytes_split_left (st : Tree) (p q : Piece) (r : Nat)
    (hval : pieceVal st p)
    (h0 : (st.buffer_at p.index).line_starts.getD 0 0 = 0)
    (hqi : q.index = p.index) (hqf : q.first = st.buffer_position p r)
    (hql : q.last = p.last) :
    pieceBytes st q = (pieceBytes st p).drop r := by
  have hoff : st.buffer_offset p.index (st.buffer_position p r) =
      st.buffer_offset p.index p.first + r := (buffer_position_offset st p r h0).1
  rw [pieceBytes_off, pieceBytes_off, hqi, hqf, hql, hoff, hval.2]
  exact drop_between _ _ _ _

theorem trim_right_length (st : Tree) (p : Piece) (r : Nat)
    (hval : pieceVal st p)
    (h0 : (st.buffer_at p.index).line_starts.getD 0 0 = 0)
    (hr : r ≤ p.length) :
    (st.trim_piece_right p (st.buffer_position p r)).length = r := by
  have hoff : st.buffer_offset p.index (st.buffer_position p r) =
      st.buffer_offset p.index p.first + r := (buffer_position_offset st p r h0).1
  have hdelta : sub64 (st.buffer_offset p.index p.first + p.length)
      (st.buffer_offset p.index p.first + r) = p.length - r := by
    rw [sub64, if_pos (by omega)]
    omega
  rw [Tree.trim_piece_right]
  try dsimp only
  rw [hoff, hval.2, hdelta, sub64, if_pos (by omega)]
  omega

theorem trim_left_length (st : Tree) (p : Piece) (r : Nat)
    (hval : pieceVal st p)
    (h0 : (st.buffer_at p.index).line_starts.getD 0 0 = 0)
    (hr : r ≤ p.length) :
    (st.trim_piece_left p (st.buffer_position p r)).length = p.length - r := by
  have hoff : st.buffer_offset p.index (st.buffer_position p r) =
      st.buffer_offset p.index p.first + r := (buffer_position_offset st p r h0).1
  have hdelta : sub64 (st.buffer_offset p.index p.first + r)
      (st.buffer_offset p.index p.first) = r := by
    rw [sub64, if_pos (by omega)]
    omega
  rw [Tree.trim_piece_left]
  try dsimp only
  rw [hoff, hdelta, sub64, if_pos (by omega)]

theorem trim_right_bytes (st : Tree) (p : Piece) (r : Nat)
    (hval : pieceVal st p)
    (h0 : (st.buffer_at p.index).line_starts.getD 0 0 = 0)
    (hr : r ≤ p.length) :
    pieceBytes st (st.trim_piece_right p (st.buffer_position p r)) =
      (pieceBytes st p).take r :=
  bytes_split_right st p _ r hval h0 hr rfl rfl rfl

theorem trim_left_bytes (st : Tree) (p : Piece) (r : Nat)
    (hval : pieceVal st p)
    (h0 : (st.buffer_at p.index).line_starts.getD 0 0 = 0) :
    pieceBytes st (st.trim_piece_left p (st.buffer_position p r)) =
      (pieceBytes st p).drop r :=
  bytes_split_left st p _ r hval h0 rfl rfl rfl


/-- The list-level meaning of `RedBlackTree::ins` guided by cumulative stored
lengths: walk the pieces, skipping any whose span ends at or before the
target, and place the new piece at the first position whose piece extends
strictly beyond it. -/
def listIns : List Piece → Piece → Nat → List Piece
  | [], x, _v => [x]
  | p :: rest, x, v =>
    if v < p.length then x :: p :: rest
    else p :: listIns rest x (v - p.length)

theorem listIns_nil (x : Piece) (v : Nat) : listIns [] x v = [x] := rfl

theorem listIns_cons (p : Piece) (rest : List Piece) (x : Piece) (v : Nat) :
    listIns (p :: rest) x v =
      if v < p.length then x :: p :: rest
      else p :: listIns rest x (v - p.length) := rfl

theorem listIns_append_left (pl : List Piece) (q : Piece) (pr : List Piece)
    (x : Piece) (v : Nat) (h : v < sumLen pl + q.length) :
    listIns (pl ++ q :: pr) x v = listIns pl x v ++ q :: pr := by
  induction pl generalizing v with
  | nil =>
    rw [sumLen_nil] at h
    rw [List.nil_append, listIns_cons, if_pos (show v < q.length by omega)]
    rfl
  | cons p pl' ih =>
    rw [sumLen_cons] at h
    rw [List.cons_append, listIns_cons, listIns_cons]
    split_ifs with hv
    · rfl
    · rw [ih _ (by omega), List.cons_append]

theorem listIns_append_right (pl : List Piece) (q : Piece) (pr : List Piece)
    (x : Piece) (v : Nat) (h : sumLen pl + q.length ≤ v) :
    listIns (pl ++ q :: pr) x v =
      pl ++ q :: listIns pr x (v - sumLen pl - q.length) := by
  induction pl generalizing v with
  | nil =>
    rw [sumLen_nil] at h
    rw [List.nil_append, listIns_cons, if_neg (show ¬ v < q.length by omega),
      sumLen_nil, Nat.sub_zero]
    rfl
  | cons p pl' ih =>
    rw [sumLen_cons] at h
    rw [List.cons_append, listIns_cons, if_neg (by omega), ih _ (by omega),
      List.cons_append, sumLen_cons]
    have : v - p.length - sumLen pl' - q.length =
        v - (p.length + sumLen pl') - q.length := by omega
    rw [this]

/-- `ins` inserts its piece at the list position determined by the offset. -/
theorem ins_sem (t : RBTree) (x : NodeData) (a tot : Nat)
    (haug : augOk t = true) (hta : tot ≤ a) :
    inorderP (RBTree.ins t x a tot) = listIns (inorderP t) x.piece (a - tot) := by
  induction t generalizing tot with
  | nil =>
    rw [RBTree.ins, inorder_mk']
    simp [inorderP, listIns_nil, listIns_cons]
  | node c l y r ihl ihr =>
    obtain ⟨hal, har, hlen, hlf⟩ := (augOk_node_iff _ _ _ _).1 haug
    rw [RBTree.ins]
    rw [inorderP]
    split_ifs with hv
    · rw [inorder_balance, ihl tot hal hta,
        listIns_append_left _ _ _ _ _ (by omega)]
    · rw [inorder_balance, ihr (tot + y.left_subtree_length + y.piece.length)
        har (by omega),
        listIns_append_right _ _ _ _ _ (by omega)]
      have : a - (tot + y.left_subtree_length + y.piece.length) =
          a - tot - sumLen (inorderP l) - y.piece.length := by omega
      rw [this]

/-- `RBTree.insert` at the list level. -/
theorem insert_sem (t : RBTree) (x : NodeData) (a : Nat)
    (haug : augOk t = true) :
    inorderP (t.insert x a) = listIns (inorderP t) x.piece a := by
  rw [inorder_insert_ins, ins_sem t x a 0 haug (by omega), Nat.sub_zero]

/-- The list-level meaning of the static `RedBlackTree::rem`: drop the piece
whose cumulative start is exactly the target offset, leaving the list
unchanged when the offset falls strictly inside or beyond every piece. -/
def listRem : List Piece → Nat → List Piece
  | [], _v => []
  | p :: rest, v =>
    if v = 0 then rest
    else if v < p.length then p :: rest
    else p :: listRem rest (v - p.length)

theorem listRem_nil (v : Nat) : listRem [] v = [] := rfl

theorem listRem_cons (p : Piece) (rest : List Piece) (v : Nat) :
    listRem (p :: rest) v =
      if v = 0 then rest
      else if v < p.length then p :: rest
      else p :: listRem rest (v - p.length) := rfl

theorem remS_noop (t : RBTree) (a tot : Nat) (h : a < tot) :
    inorderP (RBTree.remS t a tot) = inorderP t := by
  induction t generalizing tot with
  | nil => rfl
  | node c l y r ihl ihr =>
    rw [RBTree.remS, if_pos (by omega), inorder_remove_left, ihl tot h, inorderP]

theorem listRem_append_left (pl : List Piece) (q : Piece) (pr : List Piece)
    (v : Nat) (h : v < sumLen pl) :
    listRem (pl ++ q :: pr) v = listRem pl v ++ q :: pr := by
  induction pl generalizing v with
  | nil => rw [sumLen_nil] at h; omega
  | cons p pl' ih =>
    rw [sumLen_cons] at h
    rw [List.cons_append, listRem_cons, listRem_cons]
    split_ifs with h0 hv
    · rfl
    · rfl
    · rw [ih _ (by omega), List.cons_append]

theorem listRem_at_boundary (pl : List Piece) (q : Piece) (pr : List Piece)
    (hpos : ∀ p ∈ pl, 0 < p.length) :
    listRem (pl ++ q :: pr) (sumLen pl) = pl ++ pr := by
  induction pl with
  | nil => rw [sumLen_nil, List.nil_append, listRem_cons, if_pos rfl, List.nil_append]
  | cons p pl' ih =>
    have hp := hpos p (by simp)
    rw [sumLen_cons, List.cons_append, listRem_cons,
      if_neg (by have := hpos p (by simp); omega),
      if_neg (by
        have h2 : ∀ x ∈ pl', 0 < x.length := fun x hx => hpos x (by simp [hx])
        omega),
      show p.length + sumLen pl' - p.length = sumLen pl' from by omega,
      ih (fun x hx => hpos x (by simp [hx]))]
    rfl

theorem listRem_append_right (pl : List Piece) (rest : List Piece) (v : Nat)
    (h : sumLen pl < v) :
    listRem (pl ++ rest) v = pl ++ listRem rest (v - sumLen pl) := by
  induction pl generalizing v with
  | nil => rw [sumLen_nil, List.nil_append, List.nil_append, Nat.sub_zero]
  | cons p pl' ih =>
    rw [sumLen_cons] at h
    rw [List.cons_append, listRem_cons, if_neg (by omega), if_neg (by omega),
      ih _ (by omega), List.cons_append, sumLen_cons]
    have : v - p.length - sumLen pl' = v - (p.length + sumLen pl') := by omega
    rw [this]

/-- The deletion `rem` at the list level, on trees whose pieces all have
positive length. -/
theorem remS_sem (t : RBTree) (a tot : Nat)
    (haug : augOk t = true) (hta : tot ≤ a)
    (hpos : ∀ p ∈ inorderP t, 0 < p.length) :
    inorderP (RBTree.remS t a tot) = listRem (inorderP t) (a - tot) := by
  induction t generalizing tot with
  | nil => rfl
  | node c l y r ihl ihr =>
    obtain ⟨hal, har, hlen, hlf⟩ := (augOk_node_iff _ _ _ _).1 haug
    have hposl : ∀ p ∈ inorderP l, 0 < p.length := by
      intro p hp
      exact hpos p (by rw [inorderP]; simp [hp])
    have hposr : ∀ p ∈ inorderP r, 0 < p.length := by
      intro p hp
      exact hpos p (by rw [inorderP]; simp [hp])
    rw [RBTree.remS]
    rw [inorderP]
    split_ifs with h1 h2
    · rw [inorder_remove_left, ihl tot hal hta hposl,
        listRem_append_left _ _ _ _ (by omega)]
    · rw [inorder_fuse]
      have hv : a - tot = sumLen (inorderP l) := by omega
      rw [hv, listRem_at_boundary _ _ _ hposl]
    · have hyp : 0 < y.piece.length := hpos y.piece (by rw [inorderP]; simp)
      by_cases hge : tot + y.left_subtree_length + y.piece.length ≤ a
      · rw [inorder_remove_right,
          ihr (tot + y.left_subtree_length + y.piece.length) har (by omega) hposr]
        rw [listRem_append_right (inorderP l) (y.piece :: inorderP r) _ (by omega)]
        rw [listRem_cons, if_neg (by omega), if_neg (by omega)]
        have : a - tot - sumLen (inorderP l) - y.piece.length =
            a - (tot + y.left_subtree_length + y.piece.length) := by omega
        rw [this]
      · -- offset strictly inside the current piece: nothing is removed
        rw [inorder_remove_right,
          remS_noop r a (tot + y.left_subtree_length + y.piece.length) (by omega)]
        rw [listRem_append_right (inorderP l) (y.piece :: inorderP r) _ (by omega)]
        rw [listRem_cons, if_neg (by omega), if_pos (by omega)]


/-- `RBTree.remove` at the list level. -/
theorem remove_sem (t : RBTree) (a : Nat)
    (haug : augOk t = true) (hpos : ∀ p ∈ inorderP t, 0 < p.length) :
    inorderP (t.remove a) = listRem (inorderP t) a := by
  rw [inorder_remove_remS, remS_sem t a 0 haug (by omega) hpos, Nat.sub_zero]

/-- The in-range specification of the `node_at` descent: it finds the unique
piece whose stored span contains the offset, and reports its cumulative
start, the remainder into it, and the descent path. -/
theorem node_at_go_spec (st : Tree) (t : RBTree) (off nso nl : Nat)
    (path : List Bool) (haug : augOk t = true)
    (hoff : off < sumLen (inorderP t)) :
    ∃ (nd : NodeData) (pre post : List Piece) (d : List Bool),
      inorderP t = pre ++ nd.piece :: post ∧
      sumLen pre ≤ off ∧ off < sumLen pre + nd.piece.length ∧
      (Tree.node_at_go st t off nso nl path).node = some nd ∧
      (Tree.node_at_go st t off nso nl path).remainder = off - sumLen pre ∧
      (Tree.node_at_go st t off nso nl path).start_offset = nso + sumLen pre ∧
      (Tree.node_at_go st t off nso nl path).path = some (path ++ d) := by
  induction t generalizing off nso nl path with
  | nil => rw [inorderP, sumLen_nil] at hoff; omega
  | node c l y r ihl ihr =>
    obtain ⟨hal, har, hlen, hlf⟩ := (augOk_node_iff _ _ _ _).1 haug
    rw [inorderP, sumLen_append, sumLen_cons] at hoff
    rw [Tree.node_at_go]
    try dsimp only
    split_ifs with h1 h2 hre
    · obtain ⟨nd, pre, post, d, hdec, hb1, hb2, hn, hr, hs, hp⟩ :=
        ihl off nso nl (path ++ [false]) hal (by omega)
      refine ⟨nd, pre, post ++ y.piece :: inorderP r, [false] ++ d, ?_,
        hb1, hb2, hn, hr, hs, ?_⟩
      · rw [inorderP, hdec]
        simp
      · rw [hp]
        simp
    · refine ⟨y, inorderP l, inorderP r, [], ?_, by omega, by omega, rfl, ?_, ?_, ?_⟩
      · rw [inorderP]
      · try dsimp only
        rw [sub64, if_pos (by omega), hlen]
      · try dsimp only
        rw [hlen]
      · try dsimp only
        simp
    · -- the right subtree cannot be empty when the offset is in range
      exfalso
      cases r with
      | nil =>
        rw [inorderP, sumLen_nil] at hoff
        omega
      | node cr rl dr rr => simp [RBTree.is_empty] at hre
    · have hsub : sub64 off (y.left_subtree_length + y.piece.length) =
          off - (y.left_subtree_length + y.piece.length) := by
        rw [sub64, if_pos (by omega)]
      rw [hsub]
      obtain ⟨nd, pre, post, d, hdec, hb1, hb2, hn, hr, hs, hp⟩ :=
        ihr (off - (y.left_subtree_length + y.piece.length))
          (nso + (y.left_subtree_length + y.piece.length))
          (nl + (y.left_subtree_lf_count + y.piece.newline_count))
          (path ++ [true]) har (by omega)
      refine ⟨nd, inorderP l ++ y.piece :: pre, post, [true] ++ d, ?_, ?_, ?_,
        hn, ?_, ?_, ?_⟩
      · rw [inorderP, hdec]
        simp
      · rw [sumLen_append, sumLen_cons]
        omega
      · rw [sumLen_append, sumLen_cons]
        omega
      · rw [hr, sumLen_append, sumLen_cons]
        omega
      · rw [hs, sumLen_append, sumLen_cons]
        omega
      · rw [hp]
        simp

/-- The right spine path: where the `node_at` descent anchors for an offset
at or beyond the end of the subtree. -/
def rspine : RBTree → List Bool
  | RBTree.nil => []
  | RBTree.node _ _ _ r => if r.is_empty then [] else true :: rspine r

/-- The end-anchor specification of `node_at`: for an offset at or beyond
the subtree's stored length the descent lands on the rightmost node, with
the full piece length as remainder. -/
theorem node_at_go_end_full (st : Tree) (t : RBTree) (off nso nl : Nat)
    (path : List Bool) (haug : augOk t = true) (hne : t.is_empty = false)
    (hoff : sumLen (inorderP t) ≤ off) :
    ∃ (nd : NodeData) (pre : List Piece),
      inorderP t = pre ++ [nd.piece] ∧
      (Tree.node_at_go st t off nso nl path).node = some nd ∧
      (Tree.node_at_go st t off nso nl path).remainder = nd.piece.length ∧
      (Tree.node_at_go st t off nso nl path).start_offset = nso + sumLen pre ∧
      (Tree.node_at_go st t off nso nl path).path = some (path ++ rspine t) := by
  induction t generalizing off nso nl path with
  | nil => simp [RBTree.is_empty] at hne
  | node c l y r ihl ihr =>
    obtain ⟨hal, har, hlen, hlf⟩ := (augOk_node_iff _ _ _ _).1 haug
    rw [inorderP, sumLen_append, sumLen_cons] at hoff
    rw [Tree.node_at_go]
    try dsimp only
    rw [if_neg (by omega), if_neg (by omega)]
    rw [rspine]
    split_ifs with hre
    · have hrnil : r = RBTree.nil := by
        cases r with
        | nil => rfl
        | node cr rl dr rr => simp [RBTree.is_empty] at hre
      subst hrnil
      refine ⟨y, inorderP l, ?_, rfl, rfl, ?_, ?_⟩
      · rw [inorderP]
        rfl
      · try dsimp only
        rw [hlen]
      · try dsimp only
        simp
    · have hsub : sub64 off (y.left_subtree_length + y.piece.length) =
          off - (y.left_subtree_length + y.piece.length) := by
        rw [sub64, if_pos (by omega)]
      rw [hsub]
      have hrne : r.is_empty = false := by simpa using hre
      have hsr : sumLen (inorderP r) ≤ off - (y.left_subtree_length + y.piece.length) := by
        omega
      obtain ⟨nd, pre, hdec, hn, hr, hs, hp⟩ :=
        ihr (off - (y.left_subtree_length + y.piece.length))
          (nso + (y.left_subtree_length + y.piece.length))
          (nl + (y.left_subtree_lf_count + y.piece.newline_count))
          (path ++ [true]) har hrne hsr
      refine ⟨nd, inorderP l ++ y.piece :: pre, ?_, hn, hr, ?_, ?_⟩
      · rw [inorderP, hdec]
        simp
      · rw [hs, sumLen_append, sumLen_cons]
        omega
      · rw [hp]
        simp


theorem ne_path_grow (path d : List Bool) (b : Bool) :
    (some (path ++ b :: d) : Option (List Bool)) ≠ some path := by
  intro h
  injection h with h2
  have h3 := congrArg List.length h2
  simp at h3

theorem ne_path_branch (path d1 d2 : List Bool) :
    (some (path ++ false :: d1) : Option (List Bool)) ≠
      some (path ++ true :: d2) := by
  intro h
  injection h with h2
  have h3 := List.append_cancel_left h2
  simp at h3

theorem inorderP_ne_nil {t : RBTree} (h : t.is_empty = false) :
    inorderP t ≠ [] := by
  cases t with
  | nil => simp [RBTree.is_empty] at h
  | node c l y r =>
    rw [inorderP]
    simp

/-- The fields of `node_at_go` when the offset falls inside the root piece. -/
theorem node_at_go_here (st : Tree) (c : Color) (l : RBTree) (y : NodeData)
    (r : RBTree) (off nso nl : Nat) (path : List Bool)
    (h1 : ¬ y.left_subtree_length > off)
    (h2 : y.left_subtree_length + y.piece.length > off) :
    (Tree.node_at_go st (RBTree.node c l y r) off nso nl path).node = some y ∧
    (Tree.node_at_go st (RBTree.node c l y r) off nso nl path).remainder =
      sub64 off y.left_subtree_length ∧
    (Tree.node_at_go st (RBTree.node c l y r) off nso nl path).start_offset =
      nso + y.left_subtree_length ∧
    (Tree.node_at_go st (RBTree.node c l y r) off nso nl path).path =
      some path := by
  rw [Tree.node_at_go, if_neg h1, if_pos h2]
  exact ⟨rfl, rfl, rfl, rfl⟩

theorem node_at_go_left (st : Tree) (c : Color) (l : RBTree) (y : NodeData)
    (r : RBTree) (off nso nl : Nat) (path : List Bool)
    (h1 : y.left_subtree_length > off) :
    Tree.node_at_go st (RBTree.node c l y r) off nso nl path =
      Tree.node_at_go st l off nso nl (path ++ [false]) := by
  rw [Tree.node_at_go, if_pos h1]

theorem node_at_go_right (st : Tree) (c : Color) (l : RBTree) (y : NodeData)
    (r : RBTree) (off nso nl : Nat) (path : List Bool)
    (h1 : ¬ y.left_subtree_length > off)
    (h2 : ¬ y.left_subtree_length + y.piece.length > off)
    (hrne : r.is_empty = false) :
    Tree.node_at_go st (RBTree.node c l y r) off nso nl path =
      Tree.node_at_go st r (off - (y.left_subtree_length + y.piece.length))
        (nso + (y.left_subtree_length + y.piece.length))
        (nl + (y.left_subtree_lf_count + y.piece.newline_count))
        (path ++ [true]) := by
  rw [Tree.node_at_go, if_neg h1, if_neg h2, if_neg (by rw [hrne]; simp)]
  dsimp only
  rw [show sub64 off (y.left_subtree_length + y.piece.length) =
      off - (y.left_subtree_length + y.piece.length) from by
        rw [sub64, if_pos (by omega)]]

theorem nonempty_of_sumLen_pos {t : RBTree} (h : 0 < sumLen (inorderP t)) :
    t.is_empty = false := by
  cases t with
  | nil => rw [inorderP, sumLen_nil] at h; omega
  | node c l y r => rfl


/-- Two in-range `node_at` descents on the same tree, with the respective
piece decompositions; the descent paths agree exactly when both offsets fall
in the same piece slot. -/
theorem node_at_go_pair (st : Tree) (t : RBTree) (off1 off2 nso nl1 nl2 : Nat)
    (path : List Bool) (haug : augOk t = true)
    (h1 : off1 < sumLen (inorderP t)) (h2 : off2 < sumLen (inorderP t))
    (hle : off1 ≤ off2) :
    ∃ (nd1 : NodeData) (pre1 post1 : List Piece)
      (nd2 : NodeData) (pre2 post2 : List Piece),
      inorderP t = pre1 ++ nd1.piece :: post1 ∧
      sumLen pre1 ≤ off1 ∧ off1 < sumLen pre1 + nd1.piece.length ∧
      (Tree.node_at_go st t off1 nso nl1 path).node = some nd1 ∧
      (Tree.node_at_go st t off1 nso nl1 path).remainder = off1 - sumLen pre1 ∧
      (Tree.node_at_go st t off1 nso nl1 path).start_offset = nso + sumLen pre1 ∧
      inorderP t = pre2 ++ nd2.piece :: post2 ∧
      sumLen pre2 ≤ off2 ∧ off2 < sumLen pre2 + nd2.piece.length ∧
      (Tree.node_at_go st t off2 nso nl2 path).node = some nd2 ∧
      (Tree.node_at_go st t off2 nso nl2 path).remainder = off2 - sumLen pre2 ∧
      (Tree.node_at_go st t off2 nso nl2 path).start_offset = nso + sumLen pre2 ∧
      ((Tree.node_at_go st t off1 nso nl1 path).path =
          (Tree.node_at_go st t off2 nso nl2 path).path ↔
        pre1.length = pre2.length) := by
  induction t generalizing off1 off2 nso nl1 nl2 path with
  | nil => rw [inorderP, sumLen_nil] at h1; omega
  | node c l y r ihl ihr =>
    obtain ⟨hal, har, hlen, hlf⟩ := (augOk_node_iff _ _ _ _).1 haug
    rw [inorderP, sumLen_append, sumLen_cons] at h1 h2
    by_cases hB2 : off2 < y.left_subtree_length
    · rw [node_at_go_left st c l y r off1 nso nl1 path (by omega),
          node_at_go_left st c l y r off2 nso nl2 path (by omega)]
      obtain ⟨nd1, pre1, post1, nd2, pre2, post2, hd1, ha1, hb1, hn1, hr1, hs1,
        hd2, ha2, hb2x, hn2, hr2, hs2, hiff⟩ :=
        ihl off1 off2 nso nl1 nl2 (path ++ [false]) hal (by omega) (by omega) hle
      refine ⟨nd1, pre1, post1 ++ y.piece :: inorderP r,
        nd2, pre2, post2 ++ y.piece :: inorderP r, ?_, ha1, hb1, hn1, hr1, hs1,
        ?_, ha2, hb2x, hn2, hr2, hs2, hiff⟩
      · rw [inorderP, hd1]
        simp
      · rw [inorderP, hd2]
        simp
    · by_cases hC2 : off2 < y.left_subtree_length + y.piece.length
      · obtain ⟨hn2, hr2, hs2, hp2⟩ :=
          node_at_go_here st c l y r off2 nso nl2 path (by omega) (by omega)
        by_cases hB1 : off1 < y.left_subtree_length
        · rw [node_at_go_left st c l y r off1 nso nl1 path (by omega)]
          obtain ⟨nd1, pre1, post1, d1, hd1, ha1, hb1, hn1, hr1, hs1, hp1⟩ :=
            node_at_go_spec st l off1 nso nl1 (path ++ [false]) hal (by omega)
          refine ⟨nd1, pre1, post1 ++ y.piece :: inorderP r, y, inorderP l,
            inorderP r, ?_, ha1, hb1, hn1, hr1, hs1, ?_, by omega, by omega,
            hn2, ?_, ?_, ?_⟩
          · rw [inorderP, hd1]
            simp
          · rw [inorderP]
          · rw [hr2, sub64, if_pos (by omega), hlen]
          · rw [hs2, hlen]
          · rw [hp1, hp2]
            refine iff_of_false ?_ ?_
            · rw [show (path ++ [false]) ++ d1 = path ++ false :: d1 from by simp]
              exact ne_path_grow path d1 false
            · have hlenl := congrArg List.length hd1
              rw [List.length_append, List.length_cons] at hlenl
              omega
        · obtain ⟨hn1, hr1, hs1, hp1⟩ :=
            node_at_go_here st c l y r off1 nso nl1 path (by omega) (by omega)
          refine ⟨y, inorderP l, inorderP r, y, inorderP l, inorderP r,
            ?_, by omega, by omega, hn1, ?_, ?_, ?_, by omega, by omega,
            hn2, ?_, ?_, ?_⟩
          · rw [inorderP]
          · rw [hr1, sub64, if_pos (by omega), hlen]
          · rw [hs1, hlen]
          · rw [inorderP]
          · rw [hr2, sub64, if_pos (by omega), hlen]
          · rw [hs2, hlen]
          · rw [hp1, hp2]
            exact iff_of_true rfl rfl
      · have hrne : r.is_empty = false := nonempty_of_sumLen_pos (by omega)
        rw [node_at_go_right st c l y r off2 nso nl2 path (by omega) (by omega)
          hrne]
        obtain ⟨nd2, pre2, post2, d2, hd2, ha2, hb2x, hn2, hr2, hs2, hp2⟩ :=
          node_at_go_spec st r
            (off2 - (y.left_subtree_length + y.piece.length))
            (nso + (y.left_subtree_length + y.piece.length))
            (nl2 + (y.left_subtree_lf_count + y.piece.newline_count))
            (path ++ [true]) har (by omega)
        by_cases hB1 : off1 < y.left_subtree_length
        · rw [node_at_go_left st c l y r off1 nso nl1 path (by omega)]
          obtain ⟨nd1, pre1, post1, d1, hd1, ha1, hb1, hn1, hr1, hs1, hp1⟩ :=
            node_at_go_spec st l off1 nso nl1 (path ++ [false]) hal (by omega)
          refine ⟨nd1, pre1, post1 ++ y.piece :: inorderP r,
            nd2, inorderP l ++ y.piece :: pre2, post2, ?_, ha1, hb1, hn1, hr1,
            hs1, ?_, ?_, ?_, hn2, ?_, ?_, ?_⟩
          · rw [inorderP, hd1]
            simp
          · rw [inorderP, hd2]
            simp
          · rw [sumLen_append, sumLen_cons]
            omega
          · rw [sumLen_append, sumLen_cons]
            omega
          · rw [hr2, sumLen_append, sumLen_cons]
            omega
          · rw [hs2, sumLen_append, sumLen_cons]
            omega
          · rw [hp1, hp2]
            refine iff_of_false ?_ ?_
            · rw [show (path ++ [false]) ++ d1 = path ++ false :: d1 from by simp,
                show (path ++ [true]) ++ d2 = path ++ true :: d2 from by simp]
              exact ne_path_branch path d1 d2
            · have hlenl := congrArg List.length hd1
              rw [List.length_append, List.length_cons] at hlenl
              rw [List.length_append, List.length_cons]
              omega
        · by_cases hC1 : off1 < y.left_subtree_length + y.piece.length
          · obtain ⟨hn1, hr1, hs1, hp1⟩ :=
              node_at_go_here st c l y r off1 nso nl1 path (by omega) (by omega)
            refine ⟨y, inorderP l, inorderP r,
              nd2, inorderP l ++ y.piece :: pre2, post2, ?_, by omega, by omega,
              hn1, ?_, ?_, ?_, ?_, ?_, hn2, ?_, ?_, ?_⟩
            · rw [inorderP]
            · rw [hr1, sub64, if_pos (by omega), hlen]
            · rw [hs1, hlen]
            · rw [inorderP, hd2]
              simp
            · rw [sumLen_append, sumLen_cons]
              omega
            · rw [sumLen_append, sumLen_cons]
              omega
            · rw [hr2, sumLen_append, sumLen_cons]
              omega
            · rw [hs2, sumLen_append, sumLen_cons]
              omega
            · rw [hp1, hp2]
              refine iff_of_false ?_ ?_
              · rw [show (path ++ [true]) ++ d2 = path ++ true :: d2 from by simp]
                exact Ne.symm (ne_path_grow path d2 true)
              · rw [List.length_append, List.length_cons]
                omega
          · rw [node_at_go_right st c l y r off1 nso nl1 path (by omega)
              (by omega) hrne]
            obtain ⟨nd1, pre1, post1, nd2x, pre2x, post2x, hd1, ha1, hb1, hn1,
              hr1, hs1, hd2x, ha2x, hb2y, hn2x, hr2x, hs2x, hiff⟩ :=
              ihr (off1 - (y.left_subtree_length + y.piece.length))
                (off2 - (y.left_subtree_length + y.piece.length))
                (nso + (y.left_subtree_length + y.piece.length))
                (nl1 + (y.left_subtree_lf_count + y.piece.newline_count))
                (nl2 + (y.left_subtree_lf_count + y.piece.newline_count))
                (path ++ [true]) har (by omega) (by omega) (by omega)
            refine ⟨nd1, inorderP l ++ y.piece :: pre1, post1,
              nd2x, inorderP l ++ y.piece :: pre2x, post2x, ?_, ?_, ?_, hn1,
              ?_, ?_, ?_, ?_, ?_, hn2x, ?_, ?_, ?_⟩
            · rw [inorderP, hd1]
              simp
            · rw [sumLen_append, sumLen_cons]
              omega
            · rw [sumLen_append, sumLen_cons]
              omega
            · rw [hr1, sumLen_append, sumLen_cons]
              omega
            · rw [hs1, sumLen_append, sumLen_cons]
              omega
            · rw [inorderP, hd2x]
              simp
            · rw [sumLen_append, sumLen_cons]
              omega
            · rw [sumLen_append, sumLen_cons]
              omega
            · rw [hr2x, sumLen_append, sumLen_cons]
              omega
            · rw [hs2x, sumLen_append, sumLen_cons]
              omega
            · rw [hiff, List.length_append, List.length_cons,
                List.length_append, List.length_cons]
              omega


/-- The fields of `node_at_go` when the offset runs past a subtree whose
right child is empty (the end anchor). -/
theorem node_at_go_anchor (st : Tree) (c : Color) (l : RBTree) (y : NodeData)
    (r : RBTree) (off nso nl : Nat) (path : List Bool)
    (h1 : ¬ y.left_subtree_length > off)
    (h2 : ¬ y.left_subtree_length + y.piece.length > off)
    (hre : r.is_empty = true) :
    (Tree.node_at_go st (RBTree.node c l y r) off nso nl path).node = some y ∧
    (Tree.node_at_go st (RBTree.node c l y r) off nso nl path).remainder =
      y.piece.length ∧
    (Tree.node_at_go st (RBTree.node c l y r) off nso nl path).start_offset =
      nso + y.left_subtree_length ∧
    (Tree.node_at_go st (RBTree.node c l y r) off nso nl path).path =
      some path := by
  rw [Tree.node_at_go, if_neg h1, if_neg h2, if_pos hre]
  exact ⟨rfl, rfl, rfl, rfl⟩

/-- An in-range and an end-of-document `node_at` descent on the same tree:
the paths agree exactly when the in-range offset falls in the last piece. -/
theorem node_at_go_pair_end (st : Tree) (t : RBTree) (off1 off2 nso nl1 nl2 : Nat)
    (path : List Bool) (haug : augOk t = true)
    (h1 : off1 < sumLen (inorderP t)) (h2 : sumLen (inorderP t) ≤ off2) :
    ∃ (nd1 : NodeData) (pre1 post1 : List Piece) (nd2 : NodeData)
      (pre2 : List Piece),
      inorderP t = pre1 ++ nd1.piece :: post1 ∧
      sumLen pre1 ≤ off1 ∧ off1 < sumLen pre1 + nd1.piece.length ∧
      (Tree.node_at_go st t off1 nso nl1 path).node = some nd1 ∧
      (Tree.node_at_go st t off1 nso nl1 path).remainder = off1 - sumLen pre1 ∧
      (Tree.node_at_go st t off1 nso nl1 path).start_offset = nso + sumLen pre1 ∧
      inorderP t = pre2 ++ [nd2.piece] ∧
      (Tree.node_at_go st t off2 nso nl2 path).node = some nd2 ∧
      (Tree.node_at_go st t off2 nso nl2 path).remainder = nd2.piece.length ∧
      (Tree.node_at_go st t off2 nso nl2 path).start_offset = nso + sumLen pre2 ∧
      ((Tree.node_at_go st t off1 nso nl1 path).path =
          (Tree.node_at_go st t off2 nso nl2 path).path ↔ post1 = []) := by
  induction t generalizing off1 off2 nso nl1 nl2 path with
  | nil => rw [inorderP, sumLen_nil] at h1; omega
  | node c l y r ihl ihr =>
    obtain ⟨hal, har, hlen, hlf⟩ := (augOk_node_iff _ _ _ _).1 haug
    rw [inorderP, sumLen_append, sumLen_cons] at h1 h2
    by_cases hre : r.is_empty = true
    · have hrnil : r = RBTree.nil := by
        cases r with
        | nil => rfl
        | node cr rl dr rr => simp [RBTree.is_empty] at hre
      subst hrnil
      rw [inorderP, sumLen_nil] at h1 h2
      obtain ⟨hn2, hr2, hs2, hp2⟩ := node_at_go_anchor st c l y RBTree.nil off2
        nso nl2 path (by omega) (by omega) rfl
      by_cases hB1 : off1 < y.left_subtree_length
      · rw [node_at_go_left st c l y RBTree.nil off1 nso nl1 path (by omega)]
        obtain ⟨nd1, pre1, post1, d1, hd1, ha1, hb1, hn1, hr1, hs1, hp1⟩ :=
          node_at_go_spec st l off1 nso nl1 (path ++ [false]) hal (by omega)
        refine ⟨nd1, pre1, post1 ++ [y.piece], y, inorderP l,
          ?_, ha1, hb1, hn1, hr1, hs1, ?_, hn2, hr2, ?_, ?_⟩
        · rw [inorderP, hd1, inorderP]
          simp
        · rw [inorderP, inorderP]
        · rw [hs2, hlen]
        · rw [hp1, hp2]
          refine iff_of_false ?_ (by simp)
          rw [show (path ++ [false]) ++ d1 = path ++ false :: d1 from by simp]
          exact ne_path_grow path d1 false
      · obtain ⟨hn1, hr1, hs1, hp1⟩ := node_at_go_here st c l y RBTree.nil off1
          nso nl1 path (by omega) (by omega)
        refine ⟨y, inorderP l, [], y, inorderP l,
          ?_, by omega, by omega, hn1, ?_, ?_, ?_, hn2, hr2, ?_, ?_⟩
        · rw [inorderP, inorderP]
        · rw [hr1, sub64, if_pos (by omega), hlen]
        · rw [hs1, hlen]
        · rw [inorderP, inorderP]
        · rw [hs2, hlen]
        · rw [hp1, hp2]
          exact iff_of_true rfl rfl
    · have hrne : r.is_empty = false := by simpa using hre
      have hRne := inorderP_ne_nil hrne
      have hRpos : 0 < sumLen (inorderP r) ∨ True := Or.inr trivial
      rw [node_at_go_right st c l y r off2 nso nl2 path (by omega) (by omega)
        hrne]
      obtain ⟨nd2, pre2, hd2, hn2, hr2, hs2, hp2⟩ :=
        node_at_go_end_full st r
          (off2 - (y.left_subtree_length + y.piece.length))
          (nso + (y.left_subtree_length + y.piece.length))
          (nl2 + (y.left_subtree_lf_count + y.piece.newline_count))
          (path ++ [true]) har hrne (by omega)
      by_cases hB1 : off1 < y.left_subtree_length
      · rw [node_at_go_left st c l y r off1 nso nl1 path (by omega)]
        obtain ⟨nd1, pre1, post1, d1, hd1, ha1, hb1, hn1, hr1, hs1, hp1⟩ :=
          node_at_go_spec st l off1 nso nl1 (path ++ [false]) hal (by omega)
        refine ⟨nd1, pre1, post1 ++ y.piece :: inorderP r, nd2,
          inorderP l ++ y.piece :: pre2, ?_, ha1, hb1, hn1, hr1, hs1,
          ?_, hn2, hr2, ?_, ?_⟩
        · rw [inorderP, hd1]
          simp
        · rw [inorderP, hd2]
          simp
        · rw [hs2, sumLen_append, sumLen_cons]
          omega
        · rw [hp1, hp2]
          refine iff_of_false ?_ (by simp)
          rw [show (path ++ [false]) ++ d1 = path ++ false :: d1 from by simp,
            show (path ++ [true]) ++ rspine r = path ++ true :: rspine r from
              by simp]
          exact ne_path_branch path d1 (rspine r)
      · by_cases hC1 : off1 < y.left_subtree_length + y.piece.length
        · obtain ⟨hn1, hr1, hs1, hp1⟩ := node_at_go_here st c l y r off1 nso nl1
            path (by omega) (by omega)
          refine ⟨y, inorderP l, inorderP r, nd2,
            inorderP l ++ y.piece :: pre2, ?_, by omega, by omega, hn1, ?_, ?_,
            ?_, hn2, hr2, ?_, ?_⟩
          · rw [inorderP]
          · rw [hr1, sub64, if_pos (by omega), hlen]
          · rw [hs1, hlen]
          · rw [inorderP, hd2]
            simp
          · rw [hs2, sumLen_append, sumLen_cons]
            omega
          · rw [hp1, hp2]
            refine iff_of_false ?_ hRne
            rw [show (path ++ [true]) ++ rspine r = path ++ true :: rspine r
              from by simp]
            exact Ne.symm (ne_path_grow path (rspine r) true)
        · rw [node_at_go_right st c l y r off1 nso nl1 path (by omega)
            (by omega) hrne]
          obtain ⟨nd1, pre1, post1, nd2x, pre2x, hd1, ha1, hb1, hn1, hr1, hs1,
            hd2x, hn2x, hr2x, hs2x, hiff⟩ :=
            ihr (off1 - (y.left_subtree_length + y.piece.length))
              (off2 - (y.left_subtree_length + y.piece.length))
              (nso + (y.left_subtree_length + y.piece.length))
              (nl1 + (y.left_subtree_lf_count + y.piece.newline_count))
              (nl2 + (y.left_subtree_lf_count + y.piece.newline_count))
              (path ++ [true]) har (by omega) (by omega)
          refine ⟨nd1, inorderP l ++ y.piece :: pre1, post1, nd2x,
            inorderP l ++ y.piece :: pre2x, ?_, ?_, ?_, hn1, ?_, ?_,
            ?_, hn2x, hr2x, ?_, hiff⟩
          · rw [inorderP, hd1]
            simp
          · rw [sumLen_append, sumLen_cons]
            omega
          · rw [sumLen_append, sumLen_cons]
            omega
          · rw [hr1, sumLen_append, sumLen_cons]
            omega
          · rw [hs1, sumLen_append, sumLen_cons]
            omega
          · rw [inorderP, hd2x]
            simp
          · rw [hs2x, sumLen_append, sumLen_cons]
            omega


/-- A piece decomposition whose slot spans a given offset is unique. -/
theorem piece_decomp_unique : ∀ (pre1 : List Piece) (p1 : Piece)
    (post1 pre2 : List Piece) (p2 : Piece) (post2 : List Piece) (v : Nat),
    pre1 ++ p1 :: post1 = pre2 ++ p2 :: post2 →
    sumLen pre1 ≤ v → v < sumLen pre1 + p1.length →
    sumLen pre2 ≤ v → v < sumLen pre2 + p2.length →
    pre1 = pre2 ∧ p1 = p2 ∧ post1 = post2 := by
  intro pre1
  induction pre1 with
  | nil =>
    intro p1 post1 pre2 p2 post2 v heq h1 h2 h3 h4
    rw [List.nil_append] at heq
    cases pre2 with
    | nil =>
      rw [List.nil_append] at heq
      injection heq with hp hpost
      exact ⟨rfl, hp, hpost⟩
    | cons q pre2' =>
      exfalso
      rw [List.cons_append] at heq
      injection heq with hp hpost
      rw [sumLen_nil] at h2
      rw [sumLen_cons] at h3
      rw [hp] at h2
      omega
  | cons a pre1' ih =>
    intro p1 post1 pre2 p2 post2 v heq h1 h2 h3 h4
    cases pre2 with
    | nil =>
      exfalso
      rw [List.nil_append] at heq
      rw [List.cons_append] at heq
      injection heq with hp hpost
      rw [sumLen_nil] at h4
      rw [sumLen_cons] at h1
      rw [hp] at h1
      omega
    | cons b pre2' =>
      rw [List.cons_append, List.cons_append] at heq
      injection heq with hab htail
      rw [sumLen_cons] at h1 h2
      rw [sumLen_cons] at h3 h4
      rw [← hab] at h3 h4
      obtain ⟨e1, e2, e3⟩ := ih p1 post1 pre2' p2 post2 (v - a.length) htail
        (by omega) (by omega) (by omega) (by omega)
      refine ⟨?_, e2, e3⟩
      rw [hab, e1]

/-- Splitting a list around two marked occurrences, the first strictly
earlier than the second. -/
theorem split_between : ∀ (pre1 : List Piece) (p1 : Piece)
    (post1 pre2 : List Piece) (p2 : Piece) (post2 : List Piece),
    pre1 ++ p1 :: post1 = pre2 ++ p2 :: post2 → pre1.length < pre2.length →
    ∃ mid, pre2 = pre1 ++ p1 :: mid ∧ post1 = mid ++ p2 :: post2 := by
  intro pre1
  induction pre1 with
  | nil =>
    intro p1 post1 pre2 p2 post2 heq hlen
    cases pre2 with
    | nil => simp at hlen
    | cons b pre2' =>
      rw [List.nil_append, List.cons_append] at heq
      injection heq with hp hpost
      refine ⟨pre2', ?_, hpost⟩
      rw [List.nil_append, hp]
  | cons a pre1' ih =>
    intro p1 post1 pre2 p2 post2 heq hlen
    cases pre2 with
    | nil => simp at hlen
    | cons b pre2' =>
      rw [List.cons_append, List.cons_append] at heq
      injection heq with hab htail
      rw [List.length_cons, List.length_cons] at hlen
      obtain ⟨mid, e1, e2⟩ := ih p1 post1 pre2' p2 post2 htail (by omega)
      refine ⟨mid, ?_, e2⟩
      rw [List.cons_append, ← hab, e1]

/-- The list-level meaning of the `remove_node_range` loop: drop pieces from
the front while the accumulated deleted length is below the target. -/
def rnrList : List Piece → Nat → Nat → List Piece
  | [], _dl, _len => []
  | p :: rest, dl, len =>
    if dl < len then rnrList rest (dl + p.length) len else p :: rest

theorem rnrList_nil (dl len : Nat) : rnrList [] dl len = [] := rfl

theorem rnrList_cons (p : Piece) (rest : List Piece) (dl len : Nat) :
    rnrList (p :: rest) dl len =
      if dl < len then rnrList rest (dl + p.length) len else p :: rest := rfl

theorem rnrList_done (l : List Piece) (dl len : Nat) (h : ¬ dl < len) :
    rnrList l dl len = l := by
  cases l with
  | nil => rfl
  | cons p rest => rw [rnrList_cons, if_neg h]

theorem rnrList_all : ∀ (l : List Piece) (dl len : Nat),
    dl + sumLen l ≤ len → (∀ p ∈ l, 0 < p.length) →
    rnrList l dl len = [] := by
  intro l
  induction l with
  | nil => intro dl len _ _; rfl
  | cons p rest ih =>
    intro dl len hle hpos
    rw [sumLen_cons] at hle
    have hp := hpos p (by simp)
    rw [rnrList_cons, if_pos (by omega)]
    exact ih (dl + p.length) len (by omega) (fun x hx => hpos x (by simp [hx]))

theorem rnrList_cross : ∀ (mid : List Piece) (m : Piece) (rest2 : List Piece)
    (dl len : Nat), dl + sumLen mid < len → len ≤ dl + sumLen mid + m.length →
    rnrList (mid ++ m :: rest2) dl len = rest2 := by
  intro mid
  induction mid with
  | nil =>
    intro m rest2 dl len h1 h2
    rw [sumLen_nil] at h1 h2
    rw [List.nil_append, rnrList_cons, if_pos (by omega)]
    exact rnrList_done _ _ _ (by omega)
  | cons p mid' ih =>
    intro m rest2 dl len h1 h2
    rw [sumLen_cons] at h1 h2
    rw [List.cons_append, rnrList_cons, if_pos (by omega)]
    exact ih m rest2 (dl + p.length) len (by omega) (by omega)

theorem rnrList_boundary : ∀ (mid rest2 : List Piece) (dl len : Nat),
    dl + sumLen mid = len → (∀ p ∈ mid, 0 < p.length) →
    rnrList (mid ++ rest2) dl len = rest2 := by
  intro mid
  induction mid with
  | nil =>
    intro rest2 dl len he _
    rw [sumLen_nil] at he
    rw [List.nil_append]
    exact rnrList_done _ _ _ (by omega)
  | cons p mid' ih =>
    intro rest2 dl len he hpos
    rw [sumLen_cons] at he
    have hp := hpos p (by simp)
    rw [List.cons_append, rnrList_cons, if_pos (by omega)]
    exact ih rest2 (dl + p.length) len (by omega)
      (fun x hx => hpos x (by simp [hx]))

/-- Removing at an offset equal to the total stored length keeps every
piece. -/
theorem listRem_total : ∀ (l : List Piece), (∀ p ∈ l, 0 < p.length) →
    listRem l (sumLen l) = l := by
  intro l
  induction l with
  | nil => intro _; rfl
  | cons p rest ih =>
    intro hpos
    have hp := hpos p (by simp)
    rw [sumLen_cons, listRem_cons, if_neg (by omega),
      if_neg (by omega),
      show p.length + sumLen rest - p.length = sumLen rest from by omega,
      ih (fun x hx => hpos x (by simp [hx]))]

theorem rnrLoop_zero (dao len : Nat) (st : Tree) (dl : Nat)
    (first : NodePosition) : Tree.rnrLoop dao len 0 st dl first = st := rfl

theorem rnrLoop_succ_none (dao len fuel : Nat) (st : Tree) (dl : Nat)
    (first : NodePosition) (h : first.node = none) :
    Tree.rnrLoop dao len (fuel + 1) st dl first = st := by
  rw [Tree.rnrLoop, h]

theorem rnrLoop_succ_some (dao len fuel : Nat) (st : Tree) (dl : Nat)
    (first : NodePosition) (nd : NodeData) (h : first.node = some nd) :
    Tree.rnrLoop dao len (fuel + 1) st dl first =
      if dl < len then
        Tree.rnrLoop dao len fuel { st with root := st.root.remove dao }
          (dl + nd.piece.length)
          (Tree.node_at { st with root := st.root.remove dao } dao)
      else st := by
  rw [Tree.rnrLoop, h]

/-- The `remove_node_range` loop never touches the buffers, the last-insert
cursor or the cached meta data. -/
theorem rnrLoop_fields (dao len : Nat) : ∀ (fuel : Nat) (st : Tree) (dl : Nat)
    (first : NodePosition),
    (Tree.rnrLoop dao len fuel st dl first).buffers = st.buffers ∧
    (Tree.rnrLoop dao len fuel st dl first).mod_buffer = st.mod_buffer ∧
    (Tree.rnrLoop dao len fuel st dl first).last_insert = st.last_insert ∧
    (Tree.rnrLoop dao len fuel st dl first).meta = st.meta := by
  intro fuel
  induction fuel with
  | zero =>
    intro st dl first
    rw [rnrLoop_zero]
    exact ⟨rfl, rfl, rfl, rfl⟩
  | succ fuel ih =>
    intro st dl first
    cases hfn : first.node with
    | none =>
      rw [rnrLoop_succ_none dao len fuel st dl first hfn]
      exact ⟨rfl, rfl, rfl, rfl⟩
    | some nd =>
      rw [rnrLoop_succ_some dao len fuel st dl first nd hfn]
      split_ifs with hdl
      · exact ih _ _ _
      · exact ⟨rfl, rfl, rfl, rfl⟩

/-- Once the delete offset sits at the end of the document, further loop
iterations leave the pieces unchanged. -/
theorem rnrLoop_pieces_end (len : Nat) : ∀ (fuel : Nat) (st : Tree) (dl : Nat)
    (first : NodePosition) (pre : List Piece),
    augOk st.root = true → (∀ p ∈ pre, 0 < p.length) →
    inorderP st.root = pre →
    inorderP (Tree.rnrLoop (sumLen pre) len fuel st dl first).root = pre := by
  intro fuel
  induction fuel with
  | zero =>
    intro st dl first pre _ _ hdec
    rw [rnrLoop_zero]
    exact hdec
  | succ fuel ih =>
    intro st dl first pre haug hpos hdec
    cases hfn : first.node with
    | none =>
      rw [rnrLoop_succ_none _ _ fuel st dl first hfn]
      exact hdec
    | some nd =>
      rw [rnrLoop_succ_some _ _ fuel st dl first nd hfn]
      split_ifs with hdl
      · have hdec' :
            inorderP ({ st with root := st.root.remove (sumLen pre) } : Tree).root
              = pre := by
          show inorderP (st.root.remove (sumLen pre)) = pre
          rw [remove_sem st.root (sumLen pre) haug
            (by rw [hdec]; exact hpos), hdec, listRem_total pre hpos]
        exact ih _ _ _ pre (augOk_remove (sumLen pre) haug) hpos hdec'
      · exact hdec

/-- The loop of `remove_node_range` at the list level: it deletes whole
pieces from the delete offset onwards while the accumulated deleted length
stays below the target. -/
theorem rnrLoop_pieces (len : Nat) : ∀ (fuel : Nat) (st : Tree) (dl : Nat)
    (first : NodePosition) (pre rest : List Piece),
    augOk st.root = true →
    (∀ p ∈ inorderP st.root, 0 < p.length) →
    inorderP st.root = pre ++ rest →
    (∀ p rest2, rest = p :: rest2 →
      ∃ nd, first.node = some nd ∧ nd.piece = p) →
    len ≤ dl + fuel →
    inorderP (Tree.rnrLoop (sumLen pre) len fuel st dl first).root =
      pre ++ rnrList rest dl len := by
  intro fuel
  induction fuel with
  | zero =>
    intro st dl first pre rest _ _ hdec _ hfuel
    rw [rnrLoop_zero, rnrList_done rest dl len (by omega)]
    exact hdec
  | succ fuel ih =>
    intro st dl first pre rest haug hpos hdec hfirst hfuel
    cases rest with
    | nil =>
      rw [rnrList_nil, List.append_nil]
      rw [List.append_nil] at hdec
      exact rnrLoop_pieces_end len (fuel + 1) st dl first pre haug
        (fun p hp => hpos p (by rw [hdec]; exact hp)) hdec
    | cons p rest2 =>
      obtain ⟨nd, hfn, hndp⟩ := hfirst p rest2 rfl
      rw [rnrLoop_succ_some _ _ fuel st dl first nd hfn]
      rw [rnrList_cons]
      split_ifs with hdl
      · have hppos : 0 < p.length := hpos p (by rw [hdec]; simp)
        have hprepos : ∀ x ∈ pre, 0 < x.length := fun x hx =>
          hpos x (by rw [hdec]; simp [hx])
        have hpos2 : ∀ x ∈ pre ++ rest2, 0 < x.length := by
          intro x hx
          apply hpos x
          rw [hdec]
          simp only [List.mem_append, List.mem_cons] at hx ⊢
          tauto
        have hdec' :
            inorderP ({ st with root := st.root.remove (sumLen pre) } : Tree).root
              = pre ++ rest2 := by
          show inorderP (st.root.remove (sumLen pre)) = pre ++ rest2
          rw [remove_sem st.root (sumLen pre) haug hpos, hdec,
            listRem_at_boundary pre p rest2 hprepos]
        have haug' :
            augOk ({ st with root := st.root.remove (sumLen pre) } : Tree).root
              = true := augOk_remove (sumLen pre) haug
        have hpos' :
            ∀ x ∈ inorderP
              ({ st with root := st.root.remove (sumLen pre) } : Tree).root,
              0 < x.length := by
          rw [hdec']
          exact hpos2
        have hfirst' : ∀ q rest3, rest2 = q :: rest3 →
            ∃ nd2, (Tree.node_at { st with root := st.root.remove (sumLen pre) }
              (sumLen pre)).node = some nd2 ∧ nd2.piece = q := by
          intro q rest3 hr2
          have hqpos : 0 < q.length := by
            apply hpos2 q
            rw [hr2]
            simp
          have hoffb : sumLen pre <
              sumLen (inorderP
                ({ st with root := st.root.remove (sumLen pre) } : Tree).root) := by
            rw [hdec', hr2, sumLen_append, sumLen_cons]
            omega
          obtain ⟨nd2, pre2, post2, d, hd2, hlb, hub, hn, _, _, _⟩ :=
            node_at_go_spec { st with root := st.root.remove (sumLen pre) }
              ({ st with root := st.root.remove (sumLen pre) } : Tree).root
              (sumLen pre) 0 0 [] haug' hoffb
          have heq : pre2 ++ nd2.piece :: post2 = pre ++ q :: rest3 := by
            rw [← hd2, hdec', hr2]
          obtain ⟨hpe, hpq, _⟩ := piece_decomp_unique pre2 nd2.piece post2
            pre q rest3 (sumLen pre) heq hlb hub (Nat.le_refl _) (by omega)
          refine ⟨nd2, ?_, hpq⟩
          rw [Tree.node_at]
          exact hn
        have hres := ih ({ st with root := st.root.remove (sumLen pre) })
          (dl + nd.piece.length)
          (Tree.node_at { st with root := st.root.remove (sumLen pre) }
            (sumLen pre)) pre rest2 haug' hpos' hdec' hfirst'
          (by rw [hndp]; omega)
        rw [hres, hndp]
      · exact hdec

theorem sub64_le (a b : Nat) (h : b ≤ a) : sub64 a b = a - b := by
  rw [sub64, if_pos h]

theorem add64_eq (a b : Nat) (h : a + b < w64) : add64 a b = a + b := by
  rw [add64, Nat.mod_eq_of_lt h]

/-- `remove_node_range` at the list level, for a first position whose node is
the piece right at the start of `rest` and whose remainder does not exceed
that piece (no wrap in the length adjustment). -/
theorem remove_node_range_pieces (st : Tree) (first : NodePosition)
    (count : Nat) (nd : NodeData) (pre rest : List Piece)
    (hfn : first.node = some nd)
    (haug : augOk st.root = true)
    (hpos : ∀ p ∈ inorderP st.root, 0 < p.length)
    (hdec : inorderP st.root = pre ++ rest)
    (hfirst : ∀ p rest2, rest = p :: rest2 →
      ∃ nd2, first.node = some nd2 ∧ nd2.piece = p)
    (hso : first.start_offset = sumLen pre)
    (hrem : first.remainder ≤ nd.piece.length)
    (hcnt : nd.piece.length - first.remainder ≤ count) :
    inorderP (st.remove_node_range first count).root =
      pre ++ rnrList rest 0 (count + first.remainder) := by
  rw [Tree.remove_node_range, hfn]
  dsimp only
  have hlen : sub64 count (sub64 nd.piece.length first.remainder) +
      nd.piece.length = count + first.remainder := by
    rw [sub64_le nd.piece.length first.remainder hrem,
      sub64_le count (nd.piece.length - first.remainder) hcnt]
    omega
  rw [hlen, hso]
  exact rnrLoop_pieces (count + first.remainder)
    (count + first.remainder + 1) st 0 first pre rest haug hpos hdec hfirst
    (by omega)

/-- `remove_node_range` never touches the buffers, the last-insert cursor or
the cached meta data. -/
theorem remove_node_range_fields (st : Tree) (first : NodePosition)
    (count : Nat) :
    (st.remove_node_range first count).buffers = st.buffers ∧
    (st.remove_node_range first count).mod_buffer = st.mod_buffer ∧
    (st.remove_node_range first count).last_insert = st.last_insert ∧
    (st.remove_node_range first count).meta = st.meta := by
  rw [Tree.remove_node_range]
  cases hfn : first.node with
  | none => exact ⟨rfl, rfl, rfl, rfl⟩
  | some nd =>
    dsimp only
    exact rnrLoop_fields _ _ _ _ _ _

theorem buffer_at_congr (st st' : Tree) (hb : st'.buffers = st.buffers)
    (hm : st'.mod_buffer = st.mod_buffer) (i : Nat) :
    st'.buffer_at i = st.buffer_at i := by
  rw [Tree.buffer_at, Tree.buffer_at, hb, hm]

theorem buffer_offset_congr (st st' : Tree) (hb : st'.buffers = st.buffers)
    (hm : st'.mod_buffer = st.mod_buffer) (i : Nat) (cur : BufferCursor) :
    st'.buffer_offset i cur = st.buffer_offset i cur := by
  rw [Tree.buffer_offset, Tree.buffer_offset,
    buffer_at_congr st st' hb hm i]

/-- Piece bytes only depend on the buffers, not on the tree or cursors. -/
theorem pieceBytes_congr (st st' : Tree) (hb : st'.buffers = st.buffers)
    (hm : st'.mod_buffer = st.mod_buffer) (p : Piece) :
    pieceBytes st' p = pieceBytes st p := by
  rw [pieceBytes_off, pieceBytes_off, buffer_at_congr st st' hb hm,
    buffer_offset_congr st st' hb hm, buffer_offset_congr st st' hb hm]


/-- Inserting at the total stored length appends the new piece. -/
theorem listIns_total : ∀ (l : List Piece) (x : Piece),
    listIns l x (sumLen l) = l ++ [x] := by
  intro l
  induction l with
  | nil => intro x; rfl
  | cons p rest ih =>
    intro x
    rw [sumLen_cons, listIns_cons, if_neg (by omega),
      show p.length + sumLen rest - p.length = sumLen rest from by omega, ih]
    rfl

/-- Inserting exactly at the boundary before `post` (whose pieces all have
positive length) places the new piece between `pre` and `post`. -/
theorem listIns_boundary (pre post : List Piece) (x : Piece)
    (hpos : ∀ p ∈ post, 0 < p.length) :
    listIns (pre ++ post) x (sumLen pre) = pre ++ x :: post := by
  cases post with
  | nil =>
    rw [List.append_nil, listIns_total]
  | cons p' post' =>
    have hp' := hpos p' (by simp)
    rw [listIns_append_left pre p' post' x (sumLen pre) (by omega),
      listIns_total]
    simp

/-- Two decompositions of the same list around slots at the same position
coincide. -/
theorem decomp_eq_of_len (pre1 : List Piece) (p1 : Piece)
    (post1 pre2 : List Piece) (p2 : Piece) (post2 : List Piece)
    (heq : pre1 ++ p1 :: post1 = pre2 ++ p2 :: post2)
    (hl : pre1.length = pre2.length) :
    pre1 = pre2 ∧ p1 = p2 ∧ post1 = post2 := by
  obtain ⟨h1, h2⟩ := List.append_inj heq hl
  injection h2 with h3 h4
  exact ⟨h1, h3, h4⟩

/-- The bytes denoted by a piece list. -/
def bytesOf (st : Tree) (l : List Piece) : List Nat :=
  (l.map (pieceBytes st)).flatten

theorem bytesOf_nil (st : Tree) : bytesOf st [] = [] := rfl

theorem bytesOf_cons (st : Tree) (p : Piece) (l : List Piece) :
    bytesOf st (p :: l) = pieceBytes st p ++ bytesOf st l := by
  simp [bytesOf]

theorem bytesOf_append (st : Tree) (a b : List Piece) :
    bytesOf st (a ++ b) = bytesOf st a ++ bytesOf st b := by
  simp [bytesOf]

theorem contentOf_bytesOf (st : Tree) :
    contentOf st = bytesOf st (inorderP st.root) := rfl

/-- On valid pieces, the byte count is the sum of the stored lengths. -/
theorem bytesOf_length (st : Tree) : ∀ (l : List Piece),
    (∀ x ∈ l, pieceVal st x) → (bytesOf st l).length = sumLen l := by
  intro l
  induction l with
  | nil => intro _; rfl
  | cons p rest ih =>
    intro hval
    rw [bytesOf_cons, List.length_append, sumLen_cons,
      pieceBytes_length st p (hval p (by simp)),
      ih (fun x hx => hval x (by simp [hx]))]

theorem bytesOf_congr (st st' : Tree) (hb : st'.buffers = st.buffers)
    (hm : st'.mod_buffer = st.mod_buffer) (l : List Piece) :
    bytesOf st' l = bytesOf st l := by
  induction l with
  | nil => rfl
  | cons p rest ih =>
    rw [bytesOf_cons, bytesOf_cons, ih, pieceBytes_congr st st' hb hm]

/-- `compute_buffer_meta` does not change the content. -/
theorem contentOf_meta (x : Tree) :
    contentOf (Tree.compute_buffer_meta x) = bytesOf x (inorderP x.root) := rfl

theorem contentOf_meta_root (st : Tree) (r : RBTree) :
    contentOf (Tree.compute_buffer_meta { st with root := r }) =
      bytesOf st (inorderP r) := rfl

/-- Taking up to an offset inside the slot of `p`. -/
theorem bytesOf_take_at (st : Tree) (pre : List Piece) (p : Piece)
    (post : List Piece) (v : Nat)
    (hval : ∀ x ∈ pre, pieceVal st x) (hvp : pieceVal st p)
    (h1 : sumLen pre ≤ v) (h2 : v ≤ sumLen pre + p.length) :
    (bytesOf st (pre ++ p :: post)).take v =
      bytesOf st pre ++ (pieceBytes st p).take (v - sumLen pre) := by
  rw [bytesOf_append, bytesOf_cons]
  have hlpre : (bytesOf st pre).length = sumLen pre := bytesOf_length st pre hval
  have hlp : (pieceBytes st p).length = p.length := pieceBytes_length st p hvp
  rw [← List.append_assoc, List.take_append_eq_append_take,
    List.take_append_eq_append_take]
  rw [List.take_of_length_le (by rw [hlpre]; omega),
    List.length_append, hlpre, hlp,
    show v - (sumLen pre + p.length) = 0 from by omega, List.take_zero,
    List.append_nil]

/-- Dropping from an offset inside the slot of `p`. -/
theorem bytesOf_drop_at (st : Tree) (pre : List Piece) (p : Piece)
    (post : List Piece) (v : Nat)
    (hval : ∀ x ∈ pre, pieceVal st x) (hvp : pieceVal st p)
    (h1 : sumLen pre ≤ v) (h2 : v ≤ sumLen pre + p.length) :
    (bytesOf st (pre ++ p :: post)).drop v =
      (pieceBytes st p).drop (v - sumLen pre) ++ bytesOf st post := by
  rw [bytesOf_append, bytesOf_cons]
  have hlpre : (bytesOf st pre).length = sumLen pre := bytesOf_length st pre hval
  have hlp : (pieceBytes st p).length = p.length := pieceBytes_length st p hvp
  rw [← List.append_assoc, List.drop_append_eq_append_drop,
    List.drop_append_eq_append_drop]
  rw [List.drop_eq_nil_of_le (by rw [hlpre]; omega), List.nil_append,
    List.length_append, hlpre, hlp,
    show v - (sumLen pre + p.length) = 0 from by omega, List.drop_zero]


set_option maxHeartbeats 2000000

/-- `compute_buffer_meta` over a root update of a state whose buffers agree
with `st`. -/
theorem contentOf_meta_congr (st base : Tree) (r : RBTree)
    (hb : base.buffers = st.buffers) (hm : base.mod_buffer = st.mod_buffer) :
    contentOf (Tree.compute_buffer_meta { base with root := r }) =
      bytesOf st (inorderP r) := by
  rw [contentOf_meta_root]
  exact bytesOf_congr st base hb hm _

/-- Content semantics of `Tree::remove` on well-formed states: the bytes from
`offset` up to `offset + count` (clamped to the document end) disappear and
everything else is kept. -/
theorem remove_content (st : Tree) (o c : Nat)
    (haug : augOk st.root = true)
    (hpos : ∀ p ∈ inorderP st.root, 0 < p.length)
    (hval : ∀ p ∈ inorderP st.root, pieceVal st p)
    (h0 : ∀ p ∈ inorderP st.root,
      (st.buffer_at p.index).line_starts.getD 0 0 = 0)
    (ho : o < sumLen (inorderP st.root)) (hc : 1 ≤ c)
    (hoc : o + c < w64) (hL64 : sumLen (inorderP st.root) < w64) :
    contentOf (st.remove o c) =
      (contentOf st).take o ++
        (contentOf st).drop (min (o + c) (sumLen (inorderP st.root))) := by
  have hne : st.root.is_empty = false := nonempty_of_sumLen_pos (by omega)
  have hnotif : ¬ (c = 0 ∨ st.root.is_empty = true) := by
    intro h
    rcases h with h | h
    · omega
    · rw [hne] at h
      exact absurd h (by simp)
  rw [Tree.remove, if_neg hnotif]
  simp only [Tree.node_at]
  rw [show add64 o c = o + c from add64_eq o c hoc]
  by_cases hIN : o + c < sumLen (inorderP st.root)
  · -- the end of the removed range is still inside the document
    rw [Nat.min_eq_left (by omega)]
    obtain ⟨nd1, pre1, post1, nd2, pre2, post2, hd1, ha1, hb1, hn1, hr1, hs1,
      hd2, ha2, hb2, hn2, hr2, hs2, hiff⟩ :=
      node_at_go_pair st st.root o (o + c) 0 0 0 [] haug ho hIN (by omega)
    have hval1 : pieceVal st nd1.piece := hval _ (by rw [hd1]; simp)
    have h01 : (st.buffer_at nd1.piece.index).line_starts.getD 0 0 = 0 :=
      h0 _ (by rw [hd1]; simp)
    have hpos1 : 0 < nd1.piece.length := hpos _ (by rw [hd1]; simp)
    have hvalpre1 : ∀ x ∈ pre1, pieceVal st x := fun x hx =>
      hval x (by rw [hd1]; simp [hx])
    have hpospre1 : ∀ x ∈ pre1, 0 < x.length := fun x hx =>
      hpos x (by rw [hd1]; simp [hx])
    have hpospost1 : ∀ x ∈ post1, 0 < x.length := fun x hx =>
      hpos x (by rw [hd1]; simp [hx])
    rw [hn1]
    try dsimp only
    by_cases hpl : pre1.length = pre2.length
    · -- both offsets fall in the same piece slot
      have hpath := hiff.mpr hpl
      obtain ⟨hpre, hpp, hpost⟩ := decomp_eq_of_len pre1 nd1.piece post1 pre2
        nd2.piece post2 (by rw [← hd1, hd2]) hpl
      rw [← hpre] at ha2 hr2 hs2
      rw [← hpre, ← hpp] at hb2
      rw [if_pos hpath]
      try dsimp only
      simp only [hr1, hr2, hs1, Nat.zero_add]
      have hble : sumLen pre1 + nd1.piece.length ≤
          sumLen (inorderP st.root) := by
        rw [hd1, sumLen_append, sumLen_cons]
        omega
      rw [show add64 (sumLen pre1) nd1.piece.length =
        sumLen pre1 + nd1.piece.length from add64_eq _ _ (by omega)]
      by_cases hq : sumLen pre1 = o
      · rw [if_pos hq, if_neg (show ¬ c = nd1.piece.length from by omega)]
        have hrm : inorderP (st.root.remove (sumLen pre1)) = pre1 ++ post1 := by
          rw [remove_sem st.root (sumLen pre1) haug hpos, hd1,
            listRem_at_boundary pre1 nd1.piece post1 hpospre1]
        have hins : inorderP ((st.root.remove (sumLen pre1)).insert
            ⟨st.trim_piece_left nd1.piece
              (st.buffer_position nd1.piece (o + c - sumLen pre1)), 0, 0⟩
            (sumLen pre1)) =
            pre1 ++ (st.trim_piece_left nd1.piece
              (st.buffer_position nd1.piece (o + c - sumLen pre1))) :: post1 := by
          rw [insert_sem _ _ _ (augOk_remove _ haug), hrm]
          exact listIns_boundary pre1 post1 _ hpospost1
        rw [contentOf_meta_root, hins, contentOf_bytesOf, hd1,
          bytesOf_take_at st pre1 nd1.piece post1 o hvalpre1 hval1 (by omega)
            (by omega),
          bytesOf_drop_at st pre1 nd1.piece post1 (o + c) hvalpre1 hval1
            (by omega) (by omega),
          bytesOf_append, bytesOf_cons,
          trim_left_bytes st nd1.piece (o + c - sumLen pre1) hval1 h01,
          show o - sumLen pre1 = 0 from by omega, List.take_zero,
          List.append_nil]
      · rw [if_neg hq,
          if_neg (show ¬ sumLen pre1 + nd1.piece.length = o + c from by omega)]
        simp only [Tree.shrink_piece]
        try dsimp only
        have hrm : inorderP (st.root.remove (sumLen pre1)) = pre1 ++ post1 := by
          rw [remove_sem st.root (sumLen pre1) haug hpos, hd1,
            listRem_at_boundary pre1 nd1.piece post1 hpospre1]
        have htl : (st.trim_piece_left nd1.piece
            (st.buffer_position nd1.piece (o + c - sumLen pre1))).length =
            nd1.piece.length - (o + c - sumLen pre1) :=
          trim_left_length st nd1.piece (o + c - sumLen pre1) hval1 h01
            (by omega)
        have hins1 : inorderP ((st.root.remove (sumLen pre1)).insert
            ⟨st.trim_piece_left nd1.piece
              (st.buffer_position nd1.piece (o + c - sumLen pre1)), 0, 0⟩
            (sumLen pre1)) =
            pre1 ++ (st.trim_piece_left nd1.piece
              (st.buffer_position nd1.piece (o + c - sumLen pre1))) :: post1 := by
          rw [insert_sem _ _ _ (augOk_remove _ haug), hrm]
          exact listIns_boundary pre1 post1 _ hpospost1
        have hins2 : inorderP (((st.root.remove (sumLen pre1)).insert
            ⟨st.trim_piece_left nd1.piece
              (st.buffer_position nd1.piece (o + c - sumLen pre1)), 0, 0⟩
            (sumLen pre1)).insert
            ⟨st.trim_piece_right nd1.piece
              (st.buffer_position nd1.piece (o - sumLen pre1)), 0, 0⟩
            (sumLen pre1)) =
            pre1 ++ (st.trim_piece_right nd1.piece
              (st.buffer_position nd1.piece (o - sumLen pre1))) ::
              (st.trim_piece_left nd1.piece
              (st.buffer_position nd1.piece (o + c - sumLen pre1))) :: post1 := by
          rw [insert_sem _ _ _ (augOk_insert _ _ (augOk_remove _ haug)), hins1]
          refine listIns_boundary pre1 _ _ ?_
          intro x hx
          rcases List.mem_cons.1 hx with h | h
          · rw [h, htl]; omega
          · exact hpospost1 x h
        rw [contentOf_meta_root, hins2, contentOf_bytesOf, hd1,
          bytesOf_take_at st pre1 nd1.piece post1 o hvalpre1 hval1 (by omega)
            (by omega),
          bytesOf_drop_at st pre1 nd1.piece post1 (o + c) hvalpre1 hval1
            (by omega) (by omega),
          bytesOf_append, bytesOf_cons, bytesOf_cons,
          trim_right_bytes st nd1.piece (o - sumLen pre1) hval1 h01 (by omega),
          trim_left_bytes st nd1.piece (o + c - sumLen pre1) hval1 h01,
          List.append_assoc]
    · -- the offsets fall in different piece slots
      have hpath : ¬ (Tree.node_at_go st st.root o 0 0 []).path =
          (Tree.node_at_go st st.root (o + c) 0 0 []).path :=
        fun hh => hpl (hiff.mp hh)
      rw [if_neg hpath]
      try dsimp only
      rw [hn2]
      try dsimp only
      have hlt : pre1.length < pre2.length := by
        rcases Nat.lt_or_ge pre1.length pre2.length with h | h
        · exact h
        · exfalso
          have h' : pre2.length < pre1.length := by omega
          obtain ⟨mid, hm1, _⟩ := split_between pre2 nd2.piece post2 pre1
            nd1.piece post1 (by rw [← hd2, hd1]) h'
          have : sumLen pre1 = sumLen pre2 + nd2.piece.length + sumLen mid := by
            rw [hm1, sumLen_append, sumLen_cons]
            omega
          omega
      obtain ⟨mid, hm1, hm2⟩ := split_between pre1 nd1.piece post1 pre2
        nd2.piece post2 (by rw [← hd1, hd2]) hlt
      have hS2 : sumLen pre2 = sumLen pre1 + nd1.piece.length + sumLen mid := by
        rw [hm1, sumLen_append, sumLen_cons]
        omega
      have hposmid : ∀ x ∈ mid, 0 < x.length := fun x hx =>
        hpospost1 x (by rw [hm2]; simp [hx])
      have hpos2 : 0 < nd2.piece.length := hpos _ (by rw [hd2]; simp)
      have hval2 : pieceVal st nd2.piece := hval _ (by rw [hd2]; simp)
      have h02 : (st.buffer_at nd2.piece.index).line_starts.getD 0 0 = 0 :=
        h0 _ (by rw [hd2]; simp)
      have hvalpre2 : ∀ x ∈ pre2, pieceVal st x := fun x hx =>
        hval x (by rw [hd2]; simp [hx])
      have hpospost2 : ∀ x ∈ post2, 0 < x.length := fun x hx =>
        hpos x (by rw [hd2]; simp [hx])
      obtain ⟨hfb, hfm, hfl, hfmeta⟩ :=
        remove_node_range_fields st (Tree.node_at_go st st.root o 0 0 []) c
      have hrnr := remove_node_range_pieces st
        (Tree.node_at_go st st.root o 0 0 []) c nd1 pre1 (nd1.piece :: post1)
        hn1 haug hpos hd1
        (by
          intro p rest2 h
          injection h with h1 h2
          exact ⟨nd1, hn1, h1⟩)
        (by rw [hs1, Nat.zero_add])
        (by rw [hr1]; omega)
        (by rw [hr1]; omega)
      rw [hr1] at hrnr
      simp only [hr1, hr2, hs1, hs2, Nat.zero_add]
      have haug1 : augOk (st.remove_node_range
          (Tree.node_at_go st st.root o 0 0 []) c).root = true :=
        augOk_remove_node_range st _ c haug
      by_cases hrz : o + c - sumLen pre2 = 0
      · -- the removal ends exactly at the start of the last piece
        rw [if_neg (show ¬ o + c - sumLen pre2 ≠ 0 from by omega)]
        have hrnr0 : inorderP (st.remove_node_range
            (Tree.node_at_go st st.root o 0 0 []) c).root =
            pre1 ++ nd2.piece :: post2 := by
          rw [hrnr, hm2,
            show nd1.piece :: (mid ++ nd2.piece :: post2) =
              (nd1.piece :: mid) ++ nd2.piece :: post2 from rfl,
            rnrList_boundary (nd1.piece :: mid) (nd2.piece :: post2) 0
              (c + (o - sumLen pre1))
              (by rw [sumLen_cons]; omega)
              (by
                intro x hx
                rcases List.mem_cons.1 hx with h | h
                · rw [h]; exact hpos1
                · exact hposmid x h)]
        rw [trim_right_length st nd1.piece (o - sumLen pre1) hval1 h01
          (by omega)]
        by_cases hq : o - sumLen pre1 = 0
        · rw [if_neg (show ¬ o - sumLen pre1 ≠ 0 from by omega)]
          rw [contentOf_meta, hrnr0,
            bytesOf_congr st _ hfb hfm,
            contentOf_bytesOf]
          nth_rewrite 2 [hd2]
          rw [hd1, bytesOf_take_at st pre1 nd1.piece post1 o hvalpre1 hval1
              (by omega) (by omega),
            bytesOf_drop_at st pre2 nd2.piece post2 (o + c) hvalpre2 hval2
              (by omega) (by omega),
            bytesOf_append, bytesOf_cons,
            show o - sumLen pre1 = 0 from hq, List.take_zero, List.append_nil,
            show o + c - sumLen pre2 = 0 from hrz, List.drop_zero]
        · rw [if_pos (show o - sumLen pre1 ≠ 0 from hq)]
          have hins : inorderP ((st.remove_node_range
              (Tree.node_at_go st st.root o 0 0 []) c).root.insert
              ⟨st.trim_piece_right nd1.piece
                (st.buffer_position nd1.piece (o - sumLen pre1)), 0, 0⟩
              (sumLen pre1)) =
              pre1 ++ (st.trim_piece_right nd1.piece
                (st.buffer_position nd1.piece (o - sumLen pre1))) ::
                nd2.piece :: post2 := by
            rw [insert_sem _ _ _ haug1, hrnr0]
            refine listIns_boundary pre1 _ _ ?_
            intro x hx
            rcases List.mem_cons.1 hx with h | h
            · rw [h]; exact hpos2
            · exact hpospost2 x h
          rw [contentOf_meta_congr st _ _ hfb hfm, hins,
            contentOf_bytesOf]
          nth_rewrite 2 [hd2]
          rw [hd1, bytesOf_take_at st pre1 nd1.piece post1 o hvalpre1 hval1
              (by omega) (by omega),
            bytesOf_drop_at st pre2 nd2.piece post2 (o + c) hvalpre2 hval2
              (by omega) (by omega),
            bytesOf_append, bytesOf_cons, bytesOf_cons,
            trim_right_bytes st nd1.piece (o - sumLen pre1) hval1 h01
              (by omega),
            show o + c - sumLen pre2 = 0 from hrz, List.drop_zero,
            List.append_assoc]
      · -- the removal ends strictly inside the last piece
        rw [if_pos (show o + c - sumLen pre2 ≠ 0 from hrz)]
        rw [trim_left_length st nd2.piece (o + c - sumLen pre2) hval2 h02
          (by omega)]
        rw [if_pos (show nd2.piece.length - (o + c - sumLen pre2) ≠ 0 from
          by omega)]
        have hrnr1 : inorderP (st.remove_node_range
            (Tree.node_at_go st st.root o 0 0 []) c).root = pre1 ++ post2 := by
          rw [hrnr, hm2,
            show nd1.piece :: (mid ++ nd2.piece :: post2) =
              (nd1.piece :: mid) ++ nd2.piece :: post2 from rfl,
            rnrList_cross (nd1.piece :: mid) nd2.piece post2 0
              (c + (o - sumLen pre1))
              (by rw [sumLen_cons]; omega)
              (by rw [sumLen_cons]; omega)]
        have hins1 : inorderP ((st.remove_node_range
            (Tree.node_at_go st st.root o 0 0 []) c).root.insert
            ⟨st.trim_piece_left nd2.piece
              (st.buffer_position nd2.piece (o + c - sumLen pre2)), 0, 0⟩
            (sumLen pre1)) =
            pre1 ++ (st.trim_piece_left nd2.piece
              (st.buffer_position nd2.piece (o + c - sumLen pre2))) ::
              post2 := by
          rw [insert_sem _ _ _ haug1, hrnr1]
          exact listIns_boundary pre1 post2 _ hpospost2
        rw [trim_right_length st nd1.piece (o - sumLen pre1) hval1 h01
          (by omega)]
        by_cases hq : o - sumLen pre1 = 0
        · rw [if_neg (show ¬ o - sumLen pre1 ≠ 0 from by omega)]
          rw [contentOf_meta_congr st _ _ hfb hfm, hins1,
            contentOf_bytesOf]
          nth_rewrite 2 [hd2]
          rw [hd1, bytesOf_take_at st pre1 nd1.piece post1 o hvalpre1 hval1
              (by omega) (by omega),
            bytesOf_drop_at st pre2 nd2.piece post2 (o + c) hvalpre2 hval2
              (by omega) (by omega),
            bytesOf_append, bytesOf_cons,
            trim_left_bytes st nd2.piece (o + c - sumLen pre2) hval2 h02,
            show o - sumLen pre1 = 0 from hq, List.take_zero, List.append_nil]
        · rw [if_pos (show o - sumLen pre1 ≠ 0 from hq)]
          have hins2 : inorderP (((st.remove_node_range
              (Tree.node_at_go st st.root o 0 0 []) c).root.insert
              ⟨st.trim_piece_left nd2.piece
                (st.buffer_position nd2.piece (o + c - sumLen pre2)), 0, 0⟩
              (sumLen pre1)).insert
              ⟨st.trim_piece_right nd1.piece
                (st.buffer_position nd1.piece (o - sumLen pre1)), 0, 0⟩
              (sumLen pre1)) =
              pre1 ++ (st.trim_piece_right nd1.piece
                (st.buffer_position nd1.piece (o - sumLen pre1))) ::
                (st.trim_piece_left nd2.piece
                (st.buffer_position nd2.piece (o + c - sumLen pre2))) ::
                post2 := by
            rw [insert_sem _ _ _ (augOk_insert _ _ haug1), hins1]
            refine listIns_boundary pre1 _ _ ?_
            intro x hx
            rcases List.mem_cons.1 hx with h | h
            · rw [h, trim_left_length st nd2.piece (o + c - sumLen pre2) hval2
                h02 (by omega)]
              omega
            · exact hpospost2 x h
          rw [contentOf_meta_congr st _ _ hfb hfm, hins2,
            contentOf_bytesOf]
          nth_rewrite 2 [hd2]
          rw [hd1, bytesOf_take_at st pre1 nd1.piece post1 o hvalpre1 hval1
              (by omega) (by omega),
            bytesOf_drop_at st pre2 nd2.piece post2 (o + c) hvalpre2 hval2
              (by omega) (by omega),
            bytesOf_append, bytesOf_cons, bytesOf_cons,
            trim_right_bytes st nd1.piece (o - sumLen pre1) hval1 h01
              (by omega),
            trim_left_bytes st nd2.piece (o + c - sumLen pre2) hval2 h02,
            List.append_assoc]
  · -- the removed range reaches or passes the end of the document
    rw [Nat.min_eq_right (by omega)]
    obtain ⟨nd1, pre1, post1, nd2, pre2, hd1, ha1, hb1, hn1, hr1, hs1,
      hd2, hn2, hr2, hs2, hiff⟩ :=
      node_at_go_pair_end st st.root o (o + c) 0 0 0 [] haug ho (by omega)
    have hval1 : pieceVal st nd1.piece := hval _ (by rw [hd1]; simp)
    have h01 : (st.buffer_at nd1.piece.index).line_starts.getD 0 0 = 0 :=
      h0 _ (by rw [hd1]; simp)
    have hpos1 : 0 < nd1.piece.length := hpos _ (by rw [hd1]; simp)
    have hvalpre1 : ∀ x ∈ pre1, pieceVal st x := fun x hx =>
      hval x (by rw [hd1]; simp [hx])
    have hpospre1 : ∀ x ∈ pre1, 0 < x.length := fun x hx =>
      hpos x (by rw [hd1]; simp [hx])
    have hpospost1 : ∀ x ∈ post1, 0 < x.length := fun x hx =>
      hpos x (by rw [hd1]; simp [hx])
    have hLbytes : (bytesOf st (inorderP st.root)).length =
        sumLen (inorderP st.root) := bytesOf_length st _ hval
    have hdropL : (bytesOf st (inorderP st.root)).drop
        (sumLen (inorderP st.root)) = [] :=
      List.drop_eq_nil_of_le (by omega)
    have hL1 : sumLen (inorderP st.root) = sumLen pre1 + nd1.piece.length +
        sumLen post1 := by
      rw [hd1, sumLen_append, sumLen_cons]
      omega
    rw [hn1]
    try dsimp only
    by_cases hpe : post1 = []
    · -- the first piece is the rightmost piece
      have hpath := hiff.mpr hpe
      rw [hpe] at hd1 hL1
      have hlen12 : pre1.length = pre2.length := by
        have := congrArg List.length (hd1 ▸ hd2 :
          pre1 ++ [nd1.piece] = pre2 ++ [nd2.piece])
        simp at this
        exact this
      obtain ⟨hpre, hpp, _⟩ := decomp_eq_of_len pre1 nd1.piece [] pre2
        nd2.piece [] (by rw [← hd1, hd2]) hlen12
      rw [← hpp] at hr2
      rw [if_pos hpath]
      try dsimp only
      simp only [hr1, hr2, hs1, Nat.zero_add]
      have hble : sumLen pre1 + nd1.piece.length ≤
          sumLen (inorderP st.root) := by
        rw [hL1]
        omega
      rw [show add64 (sumLen pre1) nd1.piece.length =
        sumLen pre1 + nd1.piece.length from add64_eq _ _ (by omega)]
      have hb1len : (pieceBytes st nd1.piece).length = nd1.piece.length :=
        pieceBytes_length st nd1.piece hval1
      by_cases hq : sumLen pre1 = o
      · rw [if_pos hq]
        by_cases hcl : c = nd1.piece.length
        · rw [if_pos hcl]
          have hrm : inorderP (st.root.remove (sumLen pre1)) = pre1 := by
            rw [remove_sem st.root (sumLen pre1) haug hpos, hd1,
              listRem_at_boundary pre1 nd1.piece [] hpospre1, List.append_nil]
          rw [contentOf_meta_root, hrm, contentOf_bytesOf, hdropL,
            List.append_nil, hd1,
            bytesOf_take_at st pre1 nd1.piece [] o hvalpre1 hval1 (by omega)
              (by omega),
            show o - sumLen pre1 = 0 from by omega, List.take_zero,
            List.append_nil]
        · rw [if_neg hcl]
          have hrm : inorderP (st.root.remove (sumLen pre1)) = pre1 := by
            rw [remove_sem st.root (sumLen pre1) haug hpos, hd1,
              listRem_at_boundary pre1 nd1.piece [] hpospre1, List.append_nil]
          have hins : inorderP ((st.root.remove (sumLen pre1)).insert
              ⟨st.trim_piece_left nd1.piece
                (st.buffer_position nd1.piece nd1.piece.length), 0, 0⟩
              (sumLen pre1)) =
              pre1 ++ [st.trim_piece_left nd1.piece
                (st.buffer_position nd1.piece nd1.piece.length)] := by
            rw [insert_sem _ _ _ (augOk_remove _ haug), hrm]
            exact listIns_total pre1 _
          rw [contentOf_meta_root, hins, contentOf_bytesOf, hdropL,
            List.append_nil, hd1,
            bytesOf_take_at st pre1 nd1.piece [] o hvalpre1 hval1 (by omega)
              (by omega),
            show o - sumLen pre1 = 0 from by omega, List.take_zero,
            List.append_nil, bytesOf_append, bytesOf_cons, bytesOf_nil,
            trim_left_bytes st nd1.piece nd1.piece.length hval1 h01,
            List.drop_eq_nil_of_le (by omega), List.append_nil,
            List.append_nil]
      · rw [if_neg hq]
        by_cases hend : sumLen pre1 + nd1.piece.length = o + c
        · rw [if_pos hend]
          have hrm : inorderP (st.root.remove (sumLen pre1)) = pre1 := by
            rw [remove_sem st.root (sumLen pre1) haug hpos, hd1,
              listRem_at_boundary pre1 nd1.piece [] hpospre1, List.append_nil]
          have hins : inorderP ((st.root.remove (sumLen pre1)).insert
              ⟨st.trim_piece_right nd1.piece
                (st.buffer_position nd1.piece (o - sumLen pre1)), 0, 0⟩
              (sumLen pre1)) =
              pre1 ++ [st.trim_piece_right nd1.piece
                (st.buffer_position nd1.piece (o - sumLen pre1))] := by
            rw [insert_sem _ _ _ (augOk_remove _ haug), hrm]
            exact listIns_total pre1 _
          rw [contentOf_meta_root, hins, contentOf_bytesOf, hdropL,
            List.append_nil, hd1,
            bytesOf_take_at st pre1 nd1.piece [] o hvalpre1 hval1 (by omega)
              (by omega),
            bytesOf_append, bytesOf_cons, bytesOf_nil,
            trim_right_bytes st nd1.piece (o - sumLen pre1) hval1 h01
              (by omega),
            List.append_nil]
        · rw [if_neg hend]
          simp only [Tree.shrink_piece]
          try dsimp only
          have hrm : inorderP (st.root.remove (sumLen pre1)) = pre1 := by
            rw [remove_sem st.root (sumLen pre1) haug hpos, hd1,
              listRem_at_boundary pre1 nd1.piece [] hpospre1, List.append_nil]
          have htl : (st.trim_piece_left nd1.piece
              (st.buffer_position nd1.piece nd1.piece.length)).length = 0 := by
            rw [trim_left_length st nd1.piece nd1.piece.length hval1 h01
              (by omega)]
            omega
          have hins1 : inorderP ((st.root.remove (sumLen pre1)).insert
              ⟨st.trim_piece_left nd1.piece
                (st.buffer_position nd1.piece nd1.piece.length), 0, 0⟩
              (sumLen pre1)) =
              pre1 ++ [st.trim_piece_left nd1.piece
                (st.buffer_position nd1.piece nd1.piece.length)] := by
            rw [insert_sem _ _ _ (augOk_remove _ haug), hrm]
            exact listIns_total pre1 _
          have hsum2 : sumLen (pre1 ++ [st.trim_piece_left nd1.piece
              (st.buffer_position nd1.piece nd1.piece.length)]) =
              sumLen pre1 := by
            rw [sumLen_append, sumLen_cons, sumLen_nil, htl]
            omega
          have hins2 : inorderP (((st.root.remove (sumLen pre1)).insert
              ⟨st.trim_piece_left nd1.piece
                (st.buffer_position nd1.piece nd1.piece.length), 0, 0⟩
              (sumLen pre1)).insert
              ⟨st.trim_piece_right nd1.piece
                (st.buffer_position nd1.piece (o - sumLen pre1)), 0, 0⟩
              (sumLen pre1)) =
              (pre1 ++ [st.trim_piece_left nd1.piece
                (st.buffer_position nd1.piece nd1.piece.length)]) ++
              [st.trim_piece_right nd1.piece
                (st.buffer_position nd1.piece (o - sumLen pre1))] := by
            rw [insert_sem _ _ _ (augOk_insert _ _ (augOk_remove _ haug)), hins1,
              ← hsum2]
            exact listIns_total _ _
          rw [contentOf_meta_root, hins2, contentOf_bytesOf, hdropL,
            List.append_nil, hd1,
            bytesOf_take_at st pre1 nd1.piece [] o hvalpre1 hval1 (by omega)
              (by omega),
            bytesOf_append, bytesOf_append, bytesOf_cons, bytesOf_cons,
            bytesOf_nil,
            trim_right_bytes st nd1.piece (o - sumLen pre1) hval1 h01
              (by omega),
            trim_left_bytes st nd1.piece nd1.piece.length hval1 h01,
            List.drop_eq_nil_of_le (by omega)]
          simp
    · -- pieces after the first one are removed entirely
      have hpath : ¬ (Tree.node_at_go st st.root o 0 0 []).path =
          (Tree.node_at_go st st.root (o + c) 0 0 []).path :=
        fun hh => hpe (hiff.mp hh)
      rw [if_neg hpath]
      try dsimp only
      rw [hn2]
      try dsimp only
      have hlt : pre1.length < pre2.length := by
        have := congrArg List.length (hd1 ▸ hd2 :
          pre1 ++ nd1.piece :: post1 = pre2 ++ [nd2.piece])
        simp at this
        have hp1 : 0 < post1.length := by
          cases post1 with
          | nil => exact absurd rfl hpe
          | cons a b => simp
        omega
      obtain ⟨mid, hm1, hm2⟩ := split_between pre1 nd1.piece post1 pre2
        nd2.piece [] (by rw [← hd1, hd2]) hlt
      have hS2 : sumLen pre2 = sumLen pre1 + nd1.piece.length + sumLen mid := by
        rw [hm1, sumLen_append, sumLen_cons]
        omega
      have hpos2 : 0 < nd2.piece.length := hpos _ (by rw [hd2]; simp)
      have hval2 : pieceVal st nd2.piece := hval _ (by rw [hd2]; simp)
      have h02 : (st.buffer_at nd2.piece.index).line_starts.getD 0 0 = 0 :=
        h0 _ (by rw [hd2]; simp)
      have hL2 : sumLen (inorderP st.root) = sumLen pre2 + nd2.piece.length := by
        rw [hd2, sumLen_append, sumLen_cons, sumLen_nil]
        omega
      obtain ⟨hfb, hfm, hfl, hfmeta⟩ :=
        remove_node_range_fields st (Tree.node_at_go st st.root o 0 0 []) c
      have hrnr := remove_node_range_pieces st
        (Tree.node_at_go st st.root o 0 0 []) c nd1 pre1 (nd1.piece :: post1)
        hn1 haug hpos hd1
        (by
          intro p rest2 h
          injection h with h1 h2
          exact ⟨nd1, hn1, h1⟩)
        (by rw [hs1, Nat.zero_add])
        (by rw [hr1]; omega)
        (by rw [hr1]; omega)
      rw [hr1] at hrnr
      have haug1 : augOk (st.remove_node_range
          (Tree.node_at_go st st.root o 0 0 []) c).root = true :=
        augOk_remove_node_range st _ c haug
      have hrnr1 : inorderP (st.remove_node_range
          (Tree.node_at_go st st.root o 0 0 []) c).root = pre1 := by
        rw [hrnr, rnrList_all (nd1.piece :: post1) 0 (c + (o - sumLen pre1))
          (by rw [sumLen_cons]; omega)
          (by
            intro x hx
            rcases List.mem_cons.1 hx with h | h
            · rw [h]; exact hpos1
            · exact hpospost1 x h), List.append_nil]
      simp only [hr1, hr2, hs1, hs2, Nat.zero_add]
      rw [if_pos (show nd2.piece.length ≠ 0 from by omega)]
      rw [trim_left_length st nd2.piece nd2.piece.length hval2 h02 (by omega)]
      rw [if_neg (show ¬ nd2.piece.length - nd2.piece.length ≠ 0 from
        by omega)]
      rw [trim_right_length st nd1.piece (o - sumLen pre1) hval1 h01
        (by omega)]
      by_cases hq : o - sumLen pre1 = 0
      · rw [if_neg (show ¬ o - sumLen pre1 ≠ 0 from by omega)]
        rw [contentOf_meta, hrnr1, bytesOf_congr st _ hfb hfm,
          contentOf_bytesOf, hdropL, List.append_nil, hd1,
          bytesOf_take_at st pre1 nd1.piece post1 o hvalpre1 hval1 (by omega)
            (by omega),
          show o - sumLen pre1 = 0 from hq, List.take_zero, List.append_nil]
      · rw [if_pos (show o - sumLen pre1 ≠ 0 from hq)]
        have hins : inorderP ((st.remove_node_range
            (Tree.node_at_go st st.root o 0 0 []) c).root.insert
            ⟨st.trim_piece_right nd1.piece
              (st.buffer_position nd1.piece (o - sumLen pre1)), 0, 0⟩
            (sumLen pre1)) =
            pre1 ++ [st.trim_piece_right nd1.piece
              (st.buffer_position nd1.piece (o - sumLen pre1))] := by
          rw [insert_sem _ _ _ haug1, hrnr1]
          exact listIns_total pre1 _
        rw [contentOf_meta_congr st _ _ hfb hfm, hins,
          contentOf_bytesOf, hdropL, List.append_nil, hd1,
          bytesOf_take_at st pre1 nd1.piece post1 o hvalpre1 hval1 (by omega)
            (by omega),
          bytesOf_append, bytesOf_cons, bytesOf_nil,
          trim_right_bytes st nd1.piece (o - sumLen pre1) hval1 h01
            (by omega),
          List.append_nil]


theorem build_piece_fst_length (st : Tree) (txt : List Nat) :
    (st.build_piece txt).1.length = txt.length := by
  have h : (st.build_piece txt).1.length =
      sub64 (st.mod_buffer.buffer ++ txt).length
        st.mod_buffer.buffer.length := rfl
  rw [h, List.length_append, sub64_le _ _ (by omega)]
  omega

theorem populate_head (buf : List Nat) :
    (populate_line_starts buf).getD 0 0 = 0 := rfl

theorem populate_length_pos (buf : List Nat) :
    0 < (populate_line_starts buf).length := by
  rw [populate_line_starts]
  simp

theorem buffer_at_build_piece_ne (st : Tree) (txt : List Nat) (i : Nat)
    (h : i ≠ modBufIdx) :
    (st.build_piece txt).2.buffer_at i = st.buffer_at i := by
  rw [Tree.buffer_at, Tree.buffer_at, if_neg h, if_neg h, build_piece_buffers]

theorem buffer_at_mod (st : Tree) :
    st.buffer_at modBufIdx = st.mod_buffer := by
  rw [Tree.buffer_at, if_pos rfl]

theorem build_piece_ls_getD (st : Tree) (txt : List Nat) (k : Nat)
    (hk : k < st.mod_buffer.line_starts.length) :
    (st.build_piece txt).2.mod_buffer.line_starts.getD k 0 =
      st.mod_buffer.line_starts.getD k 0 := by
  rw [build_piece_mod_buffer]
  exact List.getD_append _ _ _ _ hk

theorem build_piece_ls_len_ge (st : Tree) (txt : List Nat) :
    st.mod_buffer.line_starts.length ≤
      (st.build_piece txt).2.mod_buffer.line_starts.length := by
  rw [build_piece_mod_buffer]
  dsimp only
  rw [List.length_append]
  omega

theorem build_piece_buf_len (st : Tree) (txt : List Nat) :
    (st.build_piece txt).2.mod_buffer.buffer.length =
      st.mod_buffer.buffer.length + txt.length := by
  rw [build_piece_mod_buffer]
  dsimp only
  rw [List.length_append]

/-- `build_piece` preserves the fit of existing pieces. -/
theorem fits_build_piece (st : Tree) (txt : List Nat) (p : Piece)
    (h : pieceFits st p) : pieceFits (st.build_piece txt).2 p := by
  obtain ⟨h1, h2, h3⟩ := h
  rw [pieceFits] at *
  by_cases hidx : p.index = modBufIdx
  · rw [hidx, buffer_at_mod] at h1 h2 h3
    rw [hidx, buffer_at_mod]
    refine ⟨by have := build_piece_ls_len_ge st txt; omega,
      by have := build_piece_ls_len_ge st txt; omega, ?_⟩
    rw [build_piece_ls_getD st txt _ h2, build_piece_buf_len]
    omega
  · rw [buffer_at_build_piece_ne st txt _ hidx]
    exact ⟨h1, h2, h3⟩

/-- `build_piece` preserves the validity of existing pieces. -/
theorem pieceVal_build_piece (st : Tree) (txt : List Nat) (p : Piece)
    (h : pieceVal st p) : pieceVal (st.build_piece txt).2 p := by
  obtain ⟨hfit, hoff⟩ := h
  refine ⟨fits_build_piece st txt p hfit, ?_⟩
  obtain ⟨h1, h2, _⟩ := hfit
  by_cases hidx : p.index = modBufIdx
  · rw [hidx, buffer_at_mod] at h1 h2
    rw [Tree.buffer_offset, Tree.buffer_offset] at hoff ⊢
    rw [hidx, buffer_at_mod] at hoff ⊢
    rw [build_piece_ls_getD st txt _ h1, build_piece_ls_getD st txt _ h2]
    exact hoff
  · rw [Tree.buffer_offset, Tree.buffer_offset] at hoff ⊢
    rw [buffer_at_build_piece_ne st txt _ hidx]
    exact hoff

/-- `build_piece` preserves zero-based line-starts tables. -/
theorem h0_build_piece (st : Tree) (txt : List Nat) (i : Nat)
    (hwfm : bufWF st.mod_buffer)
    (h0 : (st.buffer_at i).line_starts.getD 0 0 = 0) :
    (((st.build_piece txt).2.buffer_at i).line_starts).getD 0 0 = 0 := by
  by_cases hidx : i = modBufIdx
  · rw [hidx, buffer_at_mod, build_piece_mod_buffer]
    dsimp only
    rw [List.getD_append _ _ _ _
      (by rw [hwfm]; exact populate_length_pos _)]
    rw [hidx, buffer_at_mod] at h0
    exact h0
  · rw [buffer_at_build_piece_ne st txt _ hidx]
    exact h0

/-- The freshly built piece is valid in the post-`build_piece` state. -/
theorem pieceVal_build_piece_new (st : Tree) (txt : List Nat)
    (hwfm : bufWF st.mod_buffer)
    (hli : st.mod_buffer.line_starts.getD st.last_insert.line 0 +
      st.last_insert.column = st.mod_buffer.buffer.length)
    (hlil : st.last_insert.line < st.mod_buffer.line_starts.length) :
    pieceVal (st.build_piece txt).2 (st.build_piece txt).1 := by
  have hlen : 0 < (st.build_piece txt).2.mod_buffer.line_starts.length := by
    have h1 : 0 < st.mod_buffer.line_starts.length := by
      rw [hwfm]
      exact populate_length_pos _
    have := build_piece_ls_len_ge st txt
    omega
  have hlastline : (st.build_piece txt).1.last.line =
      (st.build_piece txt).2.mod_buffer.line_starts.length - 1 := by
    have h : (st.build_piece txt).1.last.line =
        sub64 (st.build_piece txt).2.mod_buffer.line_starts.length 1 := rfl
    rw [h, sub64_le _ _ (by omega)]
  have hofffirst :
      (st.build_piece txt).2.mod_buffer.line_starts.getD
        (st.build_piece txt).1.first.line 0 +
        (st.build_piece txt).1.first.column =
      st.mod_buffer.buffer.length := by
    rw [build_piece_fst_first, build_piece_ls_getD st txt _ hlil]
    exact hli
  have hofflast :
      (st.build_piece txt).2.mod_buffer.line_starts.getD
        (st.build_piece txt).1.last.line 0 +
        (st.build_piece txt).1.last.column =
      (st.build_piece txt).2.mod_buffer.buffer.length := by
    rw [build_piece_fst_last_col, sub64,
      if_pos (build_piece_ls_le st txt hwfm _)]
    have := build_piece_ls_le st txt hwfm (st.build_piece txt).1.last.line
    omega
  have hidx : (st.build_piece txt).1.index = modBufIdx :=
    build_piece_fst_index st txt
  refine ⟨⟨?_, ?_, ?_⟩, ?_⟩
  · rw [hidx, buffer_at_mod, build_piece_fst_first]
    have := build_piece_ls_len_ge st txt
    omega
  · rw [hidx, buffer_at_mod, hlastline]
    omega
  · rw [hidx, buffer_at_mod, hofflast]
  · rw [Tree.buffer_offset, Tree.buffer_offset, hidx, buffer_at_mod,
      hofffirst, hofflast, build_piece_buf_len, build_piece_fst_length]

/-- Trimming a piece on the right at a split position keeps it valid. -/
theorem pieceVal_trim_right (st : Tree) (p : Piece) (r : Nat)
    (hval : pieceVal st p)
    (h0 : (st.buffer_at p.index).line_starts.getD 0 0 = 0)
    (hr : r ≤ p.length) :
    pieceVal st (st.trim_piece_right p (st.buffer_position p r)) := by
  obtain ⟨⟨h1, h2, h3⟩, hoff⟩ := hval
  have hbp := buffer_position_offset st p r h0
  have hlenq := trim_right_length st p r ⟨⟨h1, h2, h3⟩, hoff⟩ h0 hr
  have hif : (st.trim_piece_right p (st.buffer_position p r)).index =
      p.index := rfl
  have hff : (st.trim_piece_right p (st.buffer_position p r)).first =
      p.first := rfl
  have hfl : (st.trim_piece_right p (st.buffer_position p r)).last =
      st.buffer_position p r := rfl
  have hoffnew : st.buffer_offset p.index (st.buffer_position p r) =
      st.buffer_offset p.index p.first + r := hbp.1
  refine ⟨⟨?_, ?_, ?_⟩, ?_⟩
  · rw [hif, hff]
    exact h1
  · rw [hif, hfl]
    have := hbp.2
    omega
  · rw [hif, hfl]
    have hub : st.buffer_offset p.index (st.buffer_position p r) ≤
        (st.buffer_at p.index).buffer.length := by
      rw [hoffnew]
      rw [Tree.buffer_offset] at hoff ⊢
      omega
    rw [Tree.buffer_offset] at hub
    exact hub
  · rw [hif, hff, hfl, hoffnew, hlenq]

/-- A piece re-anchored on the left at a split position, with the length set
to the remaining distance, is valid (this covers both `trim_piece_left` and
the manual `new_piece_right` of `Tree::insert`, whose `newline_count` is
irrelevant to validity). -/
theorem pieceVal_split_right (st : Tree) (p : Piece) (r : Nat) (nlc : Nat)
    (hval : pieceVal st p)
    (h0 : (st.buffer_at p.index).line_starts.getD 0 0 = 0)
    (hr : r ≤ p.length) :
    pieceVal st
      { p with
        first := st.buffer_position p r,
        length := sub64 (st.buffer_offset p.index p.last)
          (st.buffer_offset p.index (st.buffer_position p r)),
        newline_count := nlc } := by
  obtain ⟨⟨h1, h2, h3⟩, hoff⟩ := hval
  have hbp := buffer_position_offset st p r h0
  have hoffnew : st.buffer_offset p.index (st.buffer_position p r) =
      st.buffer_offset p.index p.first + r := hbp.1
  have hlen : sub64 (st.buffer_offset p.index p.last)
      (st.buffer_offset p.index (st.buffer_position p r)) = p.length - r := by
    rw [hoffnew, hoff, sub64_le _ _ (by omega)]
    omega
  refine ⟨⟨?_, ?_, ?_⟩, ?_⟩
  · show (st.buffer_position p r).line <
      (st.buffer_at p.index).line_starts.length
    have := hbp.2
    omega
  · show p.last.line < (st.buffer_at p.index).line_starts.length
    exact h2
  · show (st.buffer_at p.index).line_starts.getD p.last.line 0 +
      p.last.column ≤ (st.buffer_at p.index).buffer.length
    exact h3
  · show st.buffer_offset p.index p.last =
      st.buffer_offset p.index (st.buffer_position p r) +
        sub64 (st.buffer_offset p.index p.last)
          (st.buffer_offset p.index (st.buffer_position p r))
    rw [hlen, hoffnew, hoff]
    omega

/-- `trim_piece_left` at a split position keeps the piece valid. -/
theorem pieceVal_trim_left (st : Tree) (p : Piece) (r : Nat)
    (hval : pieceVal st p)
    (h0 : (st.buffer_at p.index).line_starts.getD 0 0 = 0)
    (hr : r ≤ p.length) :
    pieceVal st (st.trim_piece_left p (st.buffer_position p r)) := by
  obtain ⟨⟨h1, h2, h3⟩, hoff⟩ := hval
  have hbp := buffer_position_offset st p r h0
  have hlenq := trim_left_length st p r ⟨⟨h1, h2, h3⟩, hoff⟩ h0 hr
  have hif : (st.trim_piece_left p (st.buffer_position p r)).index =
      p.index := rfl
  have hff : (st.trim_piece_left p (st.buffer_position p r)).first =
      st.buffer_position p r := rfl
  have hfl : (st.trim_piece_left p (st.buffer_position p r)).last =
      p.last := rfl
  have hoffnew : st.buffer_offset p.index (st.buffer_position p r) =
      st.buffer_offset p.index p.first + r := hbp.1
  refine ⟨⟨?_, ?_, ?_⟩, ?_⟩
  · rw [hif, hff]
    have := hbp.2
    omega
  · rw [hif, hfl]
    exact h2
  · rw [hif, hfl]
    exact h3
  · rw [hif, hff, hfl, hoffnew, hlenq, hoff]
    omega


set_option maxHeartbeats 2000000

theorem bytesOf_build_piece (st : Tree) (txt : List Nat) :
    ∀ (l : List Piece), (∀ p ∈ l, pieceFits st p) →
    bytesOf (st.build_piece txt).2 l = bytesOf st l := by
  intro l
  induction l with
  | nil => intro _; rfl
  | cons p rest ih =>
    intro hfit
    rw [bytesOf_cons, bytesOf_cons,
      pieceBytes_build_piece st txt p (hfit p (by simp)),
      ih (fun x hx => hfit x (by simp [hx]))]

theorem split_right_length (st : Tree) (p : Piece) (r : Nat) (nlc : Nat)
    (hval : pieceVal st p)
    (h0 : (st.buffer_at p.index).line_starts.getD 0 0 = 0)
    (hr : r ≤ p.length) :
    ({ p with
        first := st.buffer_position p r,
        length := sub64 (st.buffer_offset p.index p.last)
          (st.buffer_offset p.index (st.buffer_position p r)),
        newline_count := nlc } : Piece).length = p.length - r := by
  have hoffnew : st.buffer_offset p.index (st.buffer_position p r) =
      st.buffer_offset p.index p.first + r := (buffer_position_offset st p r h0).1
  show sub64 (st.buffer_offset p.index p.last)
    (st.buffer_offset p.index (st.buffer_position p r)) = p.length - r
  rw [hoffnew, hval.2, sub64_le _ _ (by omega)]
  omega

theorem bytes_split_right_rec (st : Tree) (p : Piece) (r : Nat) (nlc : Nat)
    (hval : pieceVal st p)
    (h0 : (st.buffer_at p.index).line_starts.getD 0 0 = 0) :
    pieceBytes st ({ p with
        first := st.buffer_position p r,
        length := sub64 (st.buffer_offset p.index p.last)
          (st.buffer_offset p.index (st.buffer_position p r)),
        newline_count := nlc } : Piece) = (pieceBytes st p).drop r :=
  bytes_split_left st p _ r hval h0 rfl rfl rfl

theorem h0_mod_of_wf (st : Tree) (hwfm : bufWF st.mod_buffer) :
    (st.buffer_at modBufIdx).line_starts.getD 0 0 = 0 := by
  rw [buffer_at_mod, hwfm]
  exact populate_head _

/-- Content and well-formedness of `Tree::insert` at an offset inside or at
the end of the document: the text lands exactly at byte position `offset`,
every stored piece of the result has positive length and is valid, all
line-starts tables in play stay zero-based, and the stored length grows by
the text length. -/
theorem insert_content (st : Tree) (o : Nat) (txt : List Nat)
    (haug : augOk st.root = true)
    (hpos : ∀ p ∈ inorderP st.root, 0 < p.length)
    (hval : ∀ p ∈ inorderP st.root, pieceVal st p)
    (h0 : ∀ p ∈ inorderP st.root,
      (st.buffer_at p.index).line_starts.getD 0 0 = 0)
    (hwfm : bufWF st.mod_buffer)
    (hli : st.mod_buffer.line_starts.getD st.last_insert.line 0 +
      st.last_insert.column = st.mod_buffer.buffer.length)
    (hlil : st.last_insert.line < st.mod_buffer.line_starts.length)
    (ho : o ≤ sumLen (inorderP st.root)) (htxt : txt ≠ []) :
    contentOf (st.insert o txt) =
      (contentOf st).take o ++ txt ++ (contentOf st).drop o ∧
    (∀ p ∈ inorderP (st.insert o txt).root, 0 < p.length) ∧
    (∀ p ∈ inorderP (st.insert o txt).root, pieceVal (st.insert o txt) p) ∧
    (∀ p ∈ inorderP (st.insert o txt).root,
      ((st.insert o txt).buffer_at p.index).line_starts.getD 0 0 = 0) ∧
    sumLen (inorderP (st.insert o txt).root) =
      sumLen (inorderP st.root) + txt.length := by
  have htxtpos : 0 < txt.length := List.length_pos.2 htxt
  have hnewval : pieceVal (st.build_piece txt).2 (st.build_piece txt).1 :=
    pieceVal_build_piece_new st txt hwfm hli hlil
  have hnewlen : (st.build_piece txt).1.length = txt.length :=
    build_piece_fst_length st txt
  have h0mod : (st.buffer_at modBufIdx).line_starts.getD 0 0 = 0 :=
    h0_mod_of_wf st hwfm
  have hfit : ∀ p ∈ inorderP st.root, pieceFits st p :=
    fun p hp => (hval p hp).1
  cases hroot : st.root.is_empty with
  | true =>
    have hnil : st.root = RBTree.nil := by
      cases h : st.root with
      | nil => rfl
      | node c l y r => rw [h] at hroot; exact absurd hroot (by simp [RBTree.is_empty])
    have hL0 : sumLen (inorderP st.root) = 0 := by
      rw [hnil]; rfl
    have ho0 : o = 0 := by omega
    rw [Tree.insert, if_neg htxt, if_pos hroot]
    have hlist : inorderP ((st.build_piece txt).2.root.insert
        ⟨(st.build_piece txt).1, 0, 0⟩ 0) = [(st.build_piece txt).1] := by
      rw [insert_sem _ _ _ (by rw [build_piece_root, hnil]; rfl),
        build_piece_root, hnil]
      rfl
    refine ⟨?_, ?_, ?_, ?_, ?_⟩
    · rw [contentOf_meta_root, hlist, contentOf_bytesOf, hnil]
      rw [show inorderP RBTree.nil = [] from rfl, bytesOf_nil, ho0]
      rw [bytesOf_cons, bytesOf_nil,
        build_piece_new_bytes st txt hwfm hli hlil]
      simp
    · show ∀ p ∈ inorderP ((st.build_piece txt).2.root.insert
        ⟨(st.build_piece txt).1, 0, 0⟩ 0), 0 < p.length
      rw [hlist]
      intro p hp
      rcases List.mem_singleton.1 hp with h
      rw [h, hnewlen]
      omega
    · show ∀ p ∈ inorderP ((st.build_piece txt).2.root.insert
        ⟨(st.build_piece txt).1, 0, 0⟩ 0), pieceVal (st.build_piece txt).2 p
      rw [hlist]
      intro p hp
      rcases List.mem_singleton.1 hp with h
      rw [h]
      exact hnewval
    · show ∀ p ∈ inorderP ((st.build_piece txt).2.root.insert
        ⟨(st.build_piece txt).1, 0, 0⟩ 0),
        (((st.build_piece txt).2.buffer_at p.index).line_starts).getD 0 0 = 0
      rw [hlist]
      intro p hp
      rcases List.mem_singleton.1 hp with h
      rw [h, build_piece_fst_index]
      exact h0_build_piece st txt _ hwfm h0mod
    · show sumLen (inorderP ((st.build_piece txt).2.root.insert
        ⟨(st.build_piece txt).1, 0, 0⟩ 0)) = _
      rw [hlist, hL0, sumLen_cons, sumLen_nil, hnewlen]
      omega
  | false =>
    by_cases hoL : o < sumLen (inorderP st.root)
    · -- in-range insert
      obtain ⟨nd, pre, post, d, hd, hb1, hb2, hn, hr, hs, hp⟩ :=
        node_at_go_spec st st.root o 0 0 [] haug hoL
      have hndpos : 0 < nd.piece.length := hpos _ (by rw [hd]; simp)
      have hndval : pieceVal st nd.piece := hval _ (by rw [hd]; simp)
      have h0nd : (st.buffer_at nd.piece.index).line_starts.getD 0 0 = 0 :=
        h0 _ (by rw [hd]; simp)
      have hpospre : ∀ x ∈ pre, 0 < x.length := fun x hx =>
        hpos x (by rw [hd]; simp [hx])
      have hpospost : ∀ x ∈ post, 0 < x.length := fun x hx =>
        hpos x (by rw [hd]; simp [hx])
      have hvalpre : ∀ x ∈ pre, pieceVal st x := fun x hx =>
        hval x (by rw [hd]; simp [hx])
      have hn' : (st.node_at o).node = some nd := hn
      have hs' : (st.node_at o).start_offset = 0 + sumLen pre := hs
      have hr' : (st.node_at o).remainder = o - sumLen pre := hr
      rw [Tree.insert, if_neg htxt, if_neg (by simp [hroot])]
      try dsimp only
      rw [hn', if_neg (by simp), hn']
      split
      next h => exact Option.noConfusion h
      next nd2 h =>
      have hnd2 : nd = nd2 := by injection h
      subst hnd2
      try dsimp only
      by_cases hq0 : sumLen pre = o
      · -- insertion lands exactly at the start of the found piece: append path
        have hkey :
            contentOf (Tree.compute_buffer_meta
              { (st.build_piece txt).2 with
                root := (st.build_piece txt).2.root.insert
                  ⟨(st.build_piece txt).1, 0, 0⟩ o }) =
              (contentOf st).take o ++ txt ++ (contentOf st).drop o ∧
            inorderP (Tree.compute_buffer_meta
              { (st.build_piece txt).2 with
                root := (st.build_piece txt).2.root.insert
                  ⟨(st.build_piece txt).1, 0, 0⟩ o }).root =
              pre ++ (st.build_piece txt).1 :: nd.piece :: post := by
          constructor
          · have hlib : listIns (pre ++ nd.piece :: post)
                (st.build_piece txt).1 o =
                pre ++ (st.build_piece txt).1 :: nd.piece :: post := by
              rw [← hq0]
              exact listIns_boundary pre (nd.piece :: post) _ (by
                intro x hx
                rcases List.mem_cons.1 hx with h | h
                · rw [h]; exact hndpos
                · exact hpospost x h)
            rw [contentOf_meta_root, insert_sem _ _ _ (by rw [build_piece_root]; exact haug),
              build_piece_root, hd, hlib]
            rw [bytesOf_append, bytesOf_cons,
              bytesOf_build_piece st txt pre (fun x hx => (hvalpre x hx).1),
              build_piece_new_bytes st txt hwfm hli hlil,
              show bytesOf (st.build_piece txt).2 (nd.piece :: post) =
                bytesOf st (nd.piece :: post) from
                bytesOf_build_piece st txt _ (by
                  intro x hx
                  rcases List.mem_cons.1 hx with h | h
                  · rw [h]; exact hndval.1
                  · exact (hval x (by rw [hd]; simp [hx])).1)]
            rw [contentOf_bytesOf, hd,
              bytesOf_take_at st pre nd.piece post o hvalpre hndval
                (by omega) (by omega),
              bytesOf_drop_at st pre nd.piece post o hvalpre hndval
                (by omega) (by omega),
              show o - sumLen pre = 0 from by omega, List.take_zero,
              List.append_nil, List.drop_zero, bytesOf_cons]
            try simp [List.append_assoc]
          · have hlib : listIns (pre ++ nd.piece :: post)
                (st.build_piece txt).1 o =
                pre ++ (st.build_piece txt).1 :: nd.piece :: post := by
              rw [← hq0]
              exact listIns_boundary pre (nd.piece :: post) _ (by
                intro x hx
                rcases List.mem_cons.1 hx with h | h
                · rw [h]; exact hndpos
                · exact hpospost x h)
            rw [show (Tree.compute_buffer_meta
                { (st.build_piece txt).2 with
                  root := (st.build_piece txt).2.root.insert
                    ⟨(st.build_piece txt).1, 0, 0⟩ o }).root =
                (st.build_piece txt).2.root.insert
                    ⟨(st.build_piece txt).1, 0, 0⟩ o from rfl,
              insert_sem _ _ _ (by rw [build_piece_root]; exact haug),
              build_piece_root, hd, hlib]
        have hwf : ∀ (R : RBTree),
            inorderP R = pre ++ (st.build_piece txt).1 :: nd.piece :: post →
            (∀ p ∈ inorderP (Tree.compute_buffer_meta
              { (st.build_piece txt).2 with root := R }).root, 0 < p.length) ∧
            (∀ p ∈ inorderP (Tree.compute_buffer_meta
              { (st.build_piece txt).2 with root := R }).root,
              pieceVal (Tree.compute_buffer_meta
                { (st.build_piece txt).2 with root := R }) p) ∧
            (∀ p ∈ inorderP (Tree.compute_buffer_meta
              { (st.build_piece txt).2 with root := R }).root,
              (((Tree.compute_buffer_meta
                { (st.build_piece txt).2 with root := R }).buffer_at
                p.index).line_starts).getD 0 0 = 0) ∧
            sumLen (inorderP (Tree.compute_buffer_meta
              { (st.build_piece txt).2 with root := R }).root) =
              sumLen (inorderP st.root) + txt.length := by
          intro R hR
          have hmem : ∀ p, p ∈ inorderP R →
              p ∈ inorderP st.root ∨ p = (st.build_piece txt).1 := by
            intro p hp
            rw [hR] at hp
            rcases List.mem_append.1 hp with h | h
            · exact Or.inl (by rw [hd]; simp [h])
            · rcases List.mem_cons.1 h with h | h
              · exact Or.inr h
              · rcases List.mem_cons.1 h with h | h
                · exact Or.inl (by rw [hd, h]; simp)
                · exact Or.inl (by rw [hd]; simp [h])
          refine ⟨?_, ?_, ?_, ?_⟩
          · show ∀ p ∈ inorderP R, 0 < p.length
            intro p hp
            rcases hmem p hp with h | h
            · exact hpos p h
            · rw [h, hnewlen]; omega
          · show ∀ p ∈ inorderP R, pieceVal (st.build_piece txt).2 p
            intro p hp
            rcases hmem p hp with h | h
            · exact pieceVal_build_piece st txt p (hval p h)
            · rw [h]; exact hnewval
          · show ∀ p ∈ inorderP R,
              (((st.build_piece txt).2.buffer_at p.index).line_starts).getD
                0 0 = 0
            intro p hp
            rcases hmem p hp with h | h
            · exact h0_build_piece st txt _ hwfm (h0 p h)
            · rw [h, build_piece_fst_index]
              exact h0_build_piece st txt _ hwfm h0mod
          · show sumLen (inorderP R) = sumLen (inorderP st.root) + txt.length
            simp only [hR, hd, sumLen_append, sumLen_cons]
            rw [hnewlen]
            omega
        split_ifs with h1 h2
        · exact ⟨hkey.1, (hwf _ hkey.2).1, (hwf _ hkey.2).2.1,
            (hwf _ hkey.2).2.2.1, (hwf _ hkey.2).2.2.2⟩
        · exfalso
          rw [hs'] at h1
          omega
        · exfalso
          rw [hs'] at h1
          omega
      · -- the insertion splits the found piece
        have hqpos : 0 < o - sumLen pre := by omega
        have hqle : o - sumLen pre ≤ nd.piece.length := by omega
        have hleftval : pieceVal st (st.trim_piece_right nd.piece
            (st.buffer_position nd.piece (o - sumLen pre))) :=
          pieceVal_trim_right st nd.piece (o - sumLen pre) hndval h0nd hqle
        have hleftlen : (st.trim_piece_right nd.piece
            (st.buffer_position nd.piece (o - sumLen pre))).length =
            o - sumLen pre :=
          trim_right_length st nd.piece (o - sumLen pre) hndval h0nd hqle
        have hrightval : pieceVal st
            ({ nd.piece with
              first := st.buffer_position nd.piece (o - sumLen pre),
              length := sub64 (st.buffer_offset nd.piece.index nd.piece.last)
                (st.buffer_offset nd.piece.index
                  (st.buffer_position nd.piece (o - sumLen pre))),
              newline_count := st.line_feed_count nd.piece.index
                (st.buffer_position nd.piece (o - sumLen pre))
                nd.piece.last } : Piece) :=
          pieceVal_split_right st nd.piece (o - sumLen pre) _ hndval h0nd hqle
        have hrightlen : ({ nd.piece with
              first := st.buffer_position nd.piece (o - sumLen pre),
              length := sub64 (st.buffer_offset nd.piece.index nd.piece.last)
                (st.buffer_offset nd.piece.index
                  (st.buffer_position nd.piece (o - sumLen pre))),
              newline_count := st.line_feed_count nd.piece.index
                (st.buffer_position nd.piece (o - sumLen pre))
                nd.piece.last } : Piece).length =
            nd.piece.length - (o - sumLen pre) :=
          split_right_length st nd.piece (o - sumLen pre) _ hndval h0nd hqle
        have haug0 : augOk (st.root.remove (sumLen pre)) = true :=
          augOk_remove _ haug
        have hrm : inorderP (st.root.remove (sumLen pre)) = pre ++ post := by
          rw [remove_sem st.root (sumLen pre) haug hpos, hd,
            listRem_at_boundary pre nd.piece post hpospre]
        have h1i : inorderP ((st.root.remove (sumLen pre)).insert
            ⟨st.trim_piece_right nd.piece
              (st.buffer_position nd.piece (o - sumLen pre)), 0, 0⟩
            (sumLen pre)) =
            pre ++ (st.trim_piece_right nd.piece
              (st.buffer_position nd.piece (o - sumLen pre))) :: post := by
          rw [insert_sem _ _ _ haug0, hrm]
          exact listIns_boundary pre post _ hpospost
        split_ifs with h1 h2
        · exfalso
          rw [hs'] at h1
          omega
        · simp only [hr', hs', Nat.zero_add]
          have h2i : inorderP (((st.root.remove (sumLen pre)).insert
              ⟨st.trim_piece_right nd.piece
                (st.buffer_position nd.piece (o - sumLen pre)), 0, 0⟩
              (sumLen pre)).insert ⟨(st.build_piece txt).1, 0, 0⟩
              (sumLen pre + (st.trim_piece_right nd.piece
                (st.buffer_position nd.piece (o - sumLen pre))).length)) =
              pre ++ (st.trim_piece_right nd.piece
                (st.buffer_position nd.piece (o - sumLen pre))) ::
              (st.build_piece txt).1 :: post := by
            rw [insert_sem _ _ _ (augOk_insert _ _ haug0), h1i,
              show sumLen pre + (st.trim_piece_right nd.piece
                (st.buffer_position nd.piece (o - sumLen pre))).length =
               sumLen (pre ++ [st.trim_piece_right nd.piece
                (st.buffer_position nd.piece (o - sumLen pre))]) from by
                rw [sumLen_append, sumLen_cons, sumLen_nil]
                omega,
              show pre ++ (st.trim_piece_right nd.piece
                (st.buffer_position nd.piece (o - sumLen pre))) :: post =
               (pre ++ [st.trim_piece_right nd.piece
                (st.buffer_position nd.piece (o - sumLen pre))]) ++ post from
                by simp,
              listIns_boundary _ post _ hpospost]
            simp
          have h3i : inorderP ((((st.root.remove (sumLen pre)).insert
              ⟨st.trim_piece_right nd.piece
                (st.buffer_position nd.piece (o - sumLen pre)), 0, 0⟩
              (sumLen pre)).insert ⟨(st.build_piece txt).1, 0, 0⟩
              (sumLen pre + (st.trim_piece_right nd.piece
                (st.buffer_position nd.piece (o - sumLen pre))).length)).insert
              ⟨{ nd.piece with
                first := st.buffer_position nd.piece (o - sumLen pre),
                length := sub64 (st.buffer_offset nd.piece.index nd.piece.last)
                  (st.buffer_offset nd.piece.index
                    (st.buffer_position nd.piece (o - sumLen pre))),
                newline_count := st.line_feed_count nd.piece.index
                  (st.buffer_position nd.piece (o - sumLen pre))
                  nd.piece.last }, 0, 0⟩
              (sumLen pre + (st.trim_piece_right nd.piece
                (st.buffer_position nd.piece (o - sumLen pre))).length +
                (st.build_piece txt).1.length)) =
              pre ++ (st.trim_piece_right nd.piece
                (st.buffer_position nd.piece (o - sumLen pre))) ::
              (st.build_piece txt).1 ::
              ({ nd.piece with
                first := st.buffer_position nd.piece (o - sumLen pre),
                length := sub64 (st.buffer_offset nd.piece.index nd.piece.last)
                  (st.buffer_offset nd.piece.index
                    (st.buffer_position nd.piece (o - sumLen pre))),
                newline_count := st.line_feed_count nd.piece.index
                  (st.buffer_position nd.piece (o - sumLen pre))
                  nd.piece.last } : Piece) :: post := by
            rw [insert_sem _ _ _ (augOk_insert _ _ (augOk_insert _ _ haug0)),
              h2i,
              show sumLen pre + (st.trim_piece_right nd.piece
                (st.buffer_position nd.piece (o - sumLen pre))).length +
                (st.build_piece txt).1.length =
               sumLen ((pre ++ [st.trim_piece_right nd.piece
                (st.buffer_position nd.piece (o - sumLen pre))]) ++
                [(st.build_piece txt).1]) from by
                simp only [sumLen_append, sumLen_cons, sumLen_nil]
                omega,
              show pre ++ (st.trim_piece_right nd.piece
                (st.buffer_position nd.piece (o - sumLen pre))) ::
                (st.build_piece txt).1 :: post =
               ((pre ++ [st.trim_piece_right nd.piece
                (st.buffer_position nd.piece (o - sumLen pre))]) ++
                [(st.build_piece txt).1]) ++ post from by simp,
              listIns_boundary _ post _ hpospost]
            simp
          have hmem : ∀ p, p ∈ pre ++ (st.trim_piece_right nd.piece
              (st.buffer_position nd.piece (o - sumLen pre))) ::
              (st.build_piece txt).1 ::
              ({ nd.piece with
                first := st.buffer_position nd.piece (o - sumLen pre),
                length := sub64 (st.buffer_offset nd.piece.index nd.piece.last)
                  (st.buffer_offset nd.piece.index
                    (st.buffer_position nd.piece (o - sumLen pre))),
                newline_count := st.line_feed_count nd.piece.index
                  (st.buffer_position nd.piece (o - sumLen pre))
                  nd.piece.last } : Piece) :: post →
              p ∈ inorderP st.root ∨
              p = st.trim_piece_right nd.piece
                (st.buffer_position nd.piece (o - sumLen pre)) ∨
              p = (st.build_piece txt).1 ∨
              p = ({ nd.piece with
                first := st.buffer_position nd.piece (o - sumLen pre),
                length := sub64 (st.buffer_offset nd.piece.index nd.piece.last)
                  (st.buffer_offset nd.piece.index
                    (st.buffer_position nd.piece (o - sumLen pre))),
                newline_count := st.line_feed_count nd.piece.index
                  (st.buffer_position nd.piece (o - sumLen pre))
                  nd.piece.last } : Piece) := by
            intro p hp
            rcases List.mem_append.1 hp with h | h
            · exact Or.inl (by rw [hd]; simp [h])
            · rcases List.mem_cons.1 h with h | h
              · exact Or.inr (Or.inl h)
              · rcases List.mem_cons.1 h with h | h
                · exact Or.inr (Or.inr (Or.inl h))
                · rcases List.mem_cons.1 h with h | h
                  · exact Or.inr (Or.inr (Or.inr h))
                  · exact Or.inl (by rw [hd]; simp [h])
          have h3i2 : inorderP ((((((st.build_piece txt).2.root.remove (sumLen pre)).insert
              ⟨st.trim_piece_right nd.piece
                (st.buffer_position nd.piece (o - sumLen pre)), 0, 0⟩
              (sumLen pre)).insert ⟨(st.build_piece txt).1, 0, 0⟩
              (sumLen pre + (st.trim_piece_right nd.piece
                (st.buffer_position nd.piece (o - sumLen pre))).length)).insert
              ⟨{ nd.piece with
                first := st.buffer_position nd.piece (o - sumLen pre),
                length := sub64 (st.buffer_offset nd.piece.index nd.piece.last)
                  (st.buffer_offset nd.piece.index
                    (st.buffer_position nd.piece (o - sumLen pre))),
                newline_count := st.line_feed_count nd.piece.index
                  (st.buffer_position nd.piece (o - sumLen pre))
                  nd.piece.last }, 0, 0⟩
              (sumLen pre + (st.trim_piece_right nd.piece
                (st.buffer_position nd.piece (o - sumLen pre))).length +
                (st.build_piece txt).1.length))) =
              pre ++ (st.trim_piece_right nd.piece
                (st.buffer_position nd.piece (o - sumLen pre))) ::
              (st.build_piece txt).1 ::
              ({ nd.piece with
                first := st.buffer_position nd.piece (o - sumLen pre),
                length := sub64 (st.buffer_offset nd.piece.index nd.piece.last)
                  (st.buffer_offset nd.piece.index
                    (st.buffer_position nd.piece (o - sumLen pre))),
                newline_count := st.line_feed_count nd.piece.index
                  (st.buffer_position nd.piece (o - sumLen pre))
                  nd.piece.last } : Piece) :: post := by
            rw [build_piece_root]
            exact h3i
          have hwf3 : ∀ (R : RBTree),
              inorderP R = pre ++ (st.trim_piece_right nd.piece
                (st.buffer_position nd.piece (o - sumLen pre))) ::
              (st.build_piece txt).1 ::
              ({ nd.piece with
                first := st.buffer_position nd.piece (o - sumLen pre),
                length := sub64 (st.buffer_offset nd.piece.index nd.piece.last)
                  (st.buffer_offset nd.piece.index
                    (st.buffer_position nd.piece (o - sumLen pre))),
                newline_count := st.line_feed_count nd.piece.index
                  (st.buffer_position nd.piece (o - sumLen pre))
                  nd.piece.last } : Piece) :: post →
              (∀ p ∈ inorderP (Tree.compute_buffer_meta
                { (st.build_piece txt).2 with root := R }).root, 0 < p.length) ∧
              (∀ p ∈ inorderP (Tree.compute_buffer_meta
                { (st.build_piece txt).2 with root := R }).root,
                pieceVal (Tree.compute_buffer_meta
                  { (st.build_piece txt).2 with root := R }) p) ∧
              (∀ p ∈ inorderP (Tree.compute_buffer_meta
                { (st.build_piece txt).2 with root := R }).root,
                (((Tree.compute_buffer_meta
                  { (st.build_piece txt).2 with root := R }).buffer_at
                  p.index).line_starts).getD 0 0 = 0) ∧
              sumLen (inorderP (Tree.compute_buffer_meta
                { (st.build_piece txt).2 with root := R }).root) =
                sumLen (inorderP st.root) + txt.length := by
            intro R hR
            refine ⟨?_, ?_, ?_, ?_⟩
            · show ∀ p ∈ inorderP R, 0 < p.length
              rw [hR]
              intro p hp
              rcases hmem p hp with h | h | h | h
              · exact hpos p h
              · rw [h, hleftlen]; omega
              · rw [h, hnewlen]; omega
              · rw [h, hrightlen]; omega
            · show ∀ p ∈ inorderP R, pieceVal (st.build_piece txt).2 p
              rw [hR]
              intro p hp
              rcases hmem p hp with h | h | h | h
              · exact pieceVal_build_piece st txt p (hval p h)
              · rw [h]; exact pieceVal_build_piece st txt _ hleftval
              · rw [h]; exact hnewval
              · rw [h]; exact pieceVal_build_piece st txt _ hrightval
            · show ∀ p ∈ inorderP R,
                (((st.build_piece txt).2.buffer_at p.index).line_starts).getD
                  0 0 = 0
              rw [hR]
              intro p hp
              rcases hmem p hp with h | h | h | h
              · exact h0_build_piece st txt _ hwfm (h0 p h)
              · rw [h]
                exact h0_build_piece st txt _ hwfm h0nd
              · rw [h, build_piece_fst_index]
                exact h0_build_piece st txt _ hwfm h0mod
              · rw [h]
                exact h0_build_piece st txt _ hwfm h0nd
            · show sumLen (inorderP R) = sumLen (inorderP st.root) + txt.length
              rw [hR, hd]
              simp only [sumLen_append, sumLen_cons]
              rw [hleftlen, hnewlen,
                show sub64 (st.buffer_offset nd.piece.index nd.piece.last)
                  (st.buffer_offset nd.piece.index
                    (st.buffer_position nd.piece (o - sumLen pre))) =
                  nd.piece.length - (o - sumLen pre) from hrightlen]
              omega
          refine ⟨?_, (hwf3 _ h3i2).1, (hwf3 _ h3i2).2.1,
            (hwf3 _ h3i2).2.2.1, (hwf3 _ h3i2).2.2.2⟩
          · rw [contentOf_meta_root, build_piece_root, h3i]
            rw [bytesOf_append, bytesOf_cons, bytesOf_cons, bytesOf_cons,
              bytesOf_build_piece st txt pre (fun x hx => (hvalpre x hx).1),
              bytesOf_build_piece st txt post
                (fun x hx => (hval x (by rw [hd]; simp [hx])).1),
              pieceBytes_build_piece st txt _ hleftval.1,
              pieceBytes_build_piece st txt _ hrightval.1,
              build_piece_new_bytes st txt hwfm hli hlil,
              trim_right_bytes st nd.piece (o - sumLen pre) hndval h0nd hqle,
              bytes_split_right_rec st nd.piece (o - sumLen pre) _ hndval h0nd]
            rw [contentOf_bytesOf, hd,
              bytesOf_take_at st pre nd.piece post o hvalpre hndval
                (by omega) (by omega),
              bytesOf_drop_at st pre nd.piece post o hvalpre hndval
                (by omega) (by omega)]
            try simp [List.append_assoc]
        · exfalso
          rw [hs'] at h2
          omega
    · -- insertion at the document end: append path
      have hoEnd : sumLen (inorderP st.root) ≤ o := by omega
      obtain ⟨nd, pre, hdec, hn, hr, hs, hp⟩ :=
        node_at_go_end_full st st.root o 0 0 [] haug hroot hoEnd
      have hndpos : 0 < nd.piece.length := hpos _ (by rw [hdec]; simp)
      have hL : sumLen (inorderP st.root) =
          sumLen pre + nd.piece.length := by
        rw [hdec, sumLen_append, sumLen_cons, sumLen_nil]
        omega
      have hn' : (st.node_at o).node = some nd := hn
      have hs' : (st.node_at o).start_offset = 0 + sumLen pre := hs
      have hlenC : (contentOf st).length = sumLen (inorderP st.root) := by
        rw [contentOf_bytesOf]
        exact bytesOf_length st _ hval
      rw [Tree.insert, if_neg htxt, if_neg (by simp [hroot])]
      try dsimp only
      rw [hn', if_neg (by simp), hn']
      split
      next h => exact Option.noConfusion h
      next nd2 h =>
      have hnd2 : nd = nd2 := by injection h
      subst hnd2
      try dsimp only
      have hlist : inorderP ((st.build_piece txt).2.root.insert
          ⟨(st.build_piece txt).1, 0, 0⟩ o) =
          inorderP st.root ++ [(st.build_piece txt).1] := by
        rw [insert_sem _ _ _ (by rw [build_piece_root]; exact haug),
          build_piece_root,
          show o = sumLen (inorderP st.root) from by omega,
          listIns_total]
      have hkey :
          contentOf (Tree.compute_buffer_meta
            { (st.build_piece txt).2 with
              root := (st.build_piece txt).2.root.insert
                ⟨(st.build_piece txt).1, 0, 0⟩ o }) =
            (contentOf st).take o ++ txt ++ (contentOf st).drop o := by
        rw [contentOf_meta_root, hlist, bytesOf_append, bytesOf_cons,
          bytesOf_nil,
          bytesOf_build_piece st txt _ hfit,
          build_piece_new_bytes st txt hwfm hli hlil,
          List.take_of_length_le (by omega),
          List.drop_eq_nil_of_le (by omega), ← contentOf_bytesOf]
        simp
      have hwf2 : ∀ (R : RBTree),
          inorderP R = inorderP st.root ++ [(st.build_piece txt).1] →
          (∀ p ∈ inorderP (Tree.compute_buffer_meta
            { (st.build_piece txt).2 with root := R }).root, 0 < p.length) ∧
          (∀ p ∈ inorderP (Tree.compute_buffer_meta
            { (st.build_piece txt).2 with root := R }).root,
            pieceVal (Tree.compute_buffer_meta
              { (st.build_piece txt).2 with root := R }) p) ∧
          (∀ p ∈ inorderP (Tree.compute_buffer_meta
            { (st.build_piece txt).2 with root := R }).root,
            (((Tree.compute_buffer_meta
              { (st.build_piece txt).2 with root := R }).buffer_at
              p.index).line_starts).getD 0 0 = 0) ∧
          sumLen (inorderP (Tree.compute_buffer_meta
            { (st.build_piece txt).2 with root := R }).root) =
            sumLen (inorderP st.root) + txt.length := by
        intro R hR
        have hmem : ∀ p, p ∈ inorderP R →
            p ∈ inorderP st.root ∨ p = (st.build_piece txt).1 := by
          intro p hp
          rw [hR] at hp
          rcases List.mem_append.1 hp with h | h
          · exact Or.inl h
          · exact Or.inr (List.mem_singleton.1 h)
        refine ⟨?_, ?_, ?_, ?_⟩
        · show ∀ p ∈ inorderP R, 0 < p.length
          intro p hp
          rcases hmem p hp with h | h
          · exact hpos p h
          · rw [h, hnewlen]; omega
        · show ∀ p ∈ inorderP R, pieceVal (st.build_piece txt).2 p
          intro p hp
          rcases hmem p hp with h | h
          · exact pieceVal_build_piece st txt p (hval p h)
          · rw [h]; exact hnewval
        · show ∀ p ∈ inorderP R,
            (((st.build_piece txt).2.buffer_at p.index).line_starts).getD
              0 0 = 0
          intro p hp
          rcases hmem p hp with h | h
          · exact h0_build_piece st txt _ hwfm (h0 p h)
          · rw [h, build_piece_fst_index]
            exact h0_build_piece st txt _ hwfm h0mod
        · show sumLen (inorderP R) = sumLen (inorderP st.root) + txt.length
          rw [hR, sumLen_append, sumLen_cons, sumLen_nil, hnewlen]
          omega
      split_ifs with h1 h2
      · exact ⟨hkey, (hwf2 _ hlist).1, (hwf2 _ hlist).2.1,
          (hwf2 _ hlist).2.2.1, (hwf2 _ hlist).2.2.2⟩
      · exfalso
        rw [hs'] at h2
        omega
      · exact ⟨hkey, (hwf2 _ hlist).1, (hwf2 _ hlist).2.1,
          (hwf2 _ hlist).2.2.1, (hwf2 _ hlist).2.2.2⟩


set_option maxHeartbeats 1000000

/-- Removing at the exact end of a well-formed document keeps the content:
the same-node shrink path runs with both split positions at the end of the
rightmost piece, rebuilding it (plus a zero-length remnant) unchanged. -/
theorem remove_at_end_content (st : Tree) (c : Nat)
    (haug : augOk st.root = true)
    (hpos : ∀ p ∈ inorderP st.root, 0 < p.length)
    (hval : ∀ p ∈ inorderP st.root, pieceVal st p)
    (h0 : ∀ p ∈ inorderP st.root,
      (st.buffer_at p.index).line_starts.getD 0 0 = 0)
    (hc : 1 ≤ c) (hc64 : sumLen (inorderP st.root) + c < w64) :
    contentOf (st.remove (sumLen (inorderP st.root)) c) = contentOf st := by
  cases hroot : st.root.is_empty with
  | true =>
    rw [Tree.remove, if_pos (Or.inr hroot)]
  | false =>
    obtain ⟨nd1, pre1, hd1, hn1, hr1, hs1, hp1⟩ :=
      node_at_go_end_full st st.root (sumLen (inorderP st.root)) 0 0 [] haug
        hroot (Nat.le_refl _)
    obtain ⟨nd2, pre2, hd2, hn2, hr2, hs2, hp2⟩ :=
      node_at_go_end_full st st.root (sumLen (inorderP st.root) + c) 0 0 []
        haug hroot (by omega)
    have hpos1 : 0 < nd1.piece.length := hpos _ (by rw [hd1]; simp)
    have hval1 : pieceVal st nd1.piece := hval _ (by rw [hd1]; simp)
    have h01 : (st.buffer_at nd1.piece.index).line_starts.getD 0 0 = 0 :=
      h0 _ (by rw [hd1]; simp)
    have hvalpre1 : ∀ x ∈ pre1, pieceVal st x := fun x hx =>
      hval x (by rw [hd1]; simp [hx])
    have hpospre1 : ∀ x ∈ pre1, 0 < x.length := fun x hx =>
      hpos x (by rw [hd1]; simp [hx])
    have hlen12 : pre1.length = pre2.length := by
      have h := congrArg List.length (hd1 ▸ hd2 :
        pre1 ++ [nd1.piece] = pre2 ++ [nd2.piece])
      simp at h
      exact h
    obtain ⟨hpre, hpp, _⟩ := decomp_eq_of_len pre1 nd1.piece [] pre2
      nd2.piece [] (by rw [← hd1, hd2]) hlen12
    rw [← hpp] at hr2
    have hL : sumLen (inorderP st.root) =
        sumLen pre1 + nd1.piece.length := by
      rw [hd1, sumLen_append, sumLen_cons, sumLen_nil]
      omega
    have hb1len : (pieceBytes st nd1.piece).length = nd1.piece.length :=
      pieceBytes_length st nd1.piece hval1
    rw [Tree.remove, if_neg (by
      intro h
      rcases h with h | h
      · omega
      · rw [hroot] at h
        exact absurd h (by simp))]
    simp only [Tree.node_at]
    rw [show add64 (sumLen (inorderP st.root)) c =
      sumLen (inorderP st.root) + c from add64_eq _ _ hc64]
    rw [hn1]
    try dsimp only
    rw [if_pos (by rw [hp1, hp2])]
    try dsimp only
    simp only [hr1, hr2, hs1, Nat.zero_add]
    rw [show add64 (sumLen pre1) nd1.piece.length =
      sumLen pre1 + nd1.piece.length from add64_eq _ _ (by omega)]
    rw [if_neg (show ¬ sumLen pre1 = sumLen (inorderP st.root) from by omega),
      if_neg (show ¬ sumLen pre1 + nd1.piece.length =
        sumLen (inorderP st.root) + c from by omega)]
    simp only [Tree.shrink_piece]
    try dsimp only
    have hrm : inorderP (st.root.remove (sumLen pre1)) = pre1 := by
      rw [remove_sem st.root (sumLen pre1) haug hpos, hd1,
        listRem_at_boundary pre1 nd1.piece [] hpospre1, List.append_nil]
    have htl : (st.trim_piece_left nd1.piece
        (st.buffer_position nd1.piece nd1.piece.length)).length = 0 := by
      rw [trim_left_length st nd1.piece nd1.piece.length hval1 h01 (by omega)]
      omega
    have hins1 : inorderP ((st.root.remove (sumLen pre1)).insert
        ⟨st.trim_piece_left nd1.piece
          (st.buffer_position nd1.piece nd1.piece.length), 0, 0⟩
        (sumLen pre1)) =
        pre1 ++ [st.trim_piece_left nd1.piece
          (st.buffer_position nd1.piece nd1.piece.length)] := by
      rw [insert_sem _ _ _ (augOk_remove _ haug), hrm]
      exact listIns_total pre1 _
    have hsum2 : sumLen (pre1 ++ [st.trim_piece_left nd1.piece
        (st.buffer_position nd1.piece nd1.piece.length)]) = sumLen pre1 := by
      rw [sumLen_append, sumLen_cons, sumLen_nil, htl]
      omega
    have hins2 : inorderP (((st.root.remove (sumLen pre1)).insert
        ⟨st.trim_piece_left nd1.piece
          (st.buffer_position nd1.piece nd1.piece.length), 0, 0⟩
        (sumLen pre1)).insert
        ⟨st.trim_piece_right nd1.piece
          (st.buffer_position nd1.piece nd1.piece.length), 0, 0⟩
        (sumLen pre1)) =
        (pre1 ++ [st.trim_piece_left nd1.piece
          (st.buffer_position nd1.piece nd1.piece.length)]) ++
        [st.trim_piece_right nd1.piece
          (st.buffer_position nd1.piece nd1.piece.length)] := by
      rw [insert_sem _ _ _ (augOk_insert _ _ (augOk_remove _ haug)), hins1,
        ← hsum2]
      exact listIns_total _ _
    rw [contentOf_meta_root, hins2, contentOf_bytesOf, hd1]
    simp only [bytesOf_append, bytesOf_cons, bytesOf_nil]
    rw [trim_left_bytes st nd1.piece nd1.piece.length hval1 h01,
      trim_right_bytes st nd1.piece nd1.piece.length hval1 h01 (by omega),
      List.drop_eq_nil_of_le (by omega),
      List.take_of_length_le (by omega)]
    simp

/-- Splicing a text into a list at position `o` and cutting it back out. -/
theorem take_drop_roundtrip (C txt : List Nat) (o : Nat) (ho : o ≤ C.length) :
    (C.take o ++ txt ++ C.drop o).take o ++
      (C.take o ++ txt ++ C.drop o).drop (o + txt.length) = C := by
  have hlt : (C.take o).length = o := by
    rw [List.length_take]
    omega
  have h1 : (C.take o ++ txt ++ C.drop o).take o = C.take o := by
    rw [List.append_assoc, List.take_append_eq_append_take, hlt,
      List.take_of_length_le (by omega),
      show o - o = 0 from by omega, List.take_zero, List.append_nil]
  have h2 : (C.take o ++ txt ++ C.drop o).drop (o + txt.length) = C.drop o := by
    rw [List.append_assoc, List.drop_append_eq_append_drop, hlt,
      List.drop_eq_nil_of_le (by omega),
      show o + txt.length - o = txt.length from by omega, List.nil_append,
      List.drop_append_eq_append_drop,
      List.drop_eq_nil_of_le (Nat.le_refl _),
      show txt.length - txt.length = 0 from by omega, List.drop_zero,
      List.nil_append]
  rw [h1, h2, List.take_append_drop]


/-! Claim theorems. -/

/-- C4: augmentation correctness.  For every engine state reachable from a
built tree by any sequence of `insert` and `remove` operations, every node
of the root satisfies `left_subtree_length = Σ piece.length` and
`left_subtree_lf_count = Σ piece.newline_count` over its left subtree
(`augOk` states exactly this for every node): every node constructor runs
`attribute`, which recomputes both sums from the actual left child. -/
theorem C4_augmentation_correct (st : Tree) (h : Reachable st) :
    augOk st.root = true := by
  induction h with
  | created bufs => exact augOk_create bufs
  | inserted st offset txt _ ih => exact augOk_engine_insert st offset txt ih
  | removed st offset count _ ih => exact augOk_engine_remove st offset count ih

/-- C4 witness: the augmentation invariant evaluated on the state reached by
building from `"ab\ncd"` and inserting `"x\ny"` in the middle. -/
theorem C4_augmentation_correct_witness :
    augOk ((create [[97, 98, 10, 99, 100]]).insert 2 [120, 10, 121]).root = true :=
  C4_augmentation_correct _
    (Reachable.inserted _ 2 [120, 10, 121] (Reachable.created _))

/-- C10: the walker's end sentinel.  For every engine state and every walker
over it (freshly constructed at any offset, or advanced any number of times
by `next`), once `exhausted()` is true every further `next()` returns the
byte `'\0'` and leaves the walker state — in particular `total_offset` and
`exhausted()` — unchanged. -/
theorem C10_walker_end_sentinel (st : Tree) (w : TreeWalker)
    (hr : WalkerReach st w) (h : w.exhausted = true) :
    w.next st = (0, w) ∧ (w.next st).2.total_offset = w.total_offset ∧
      (w.next st).2.exhausted = w.exhausted := by
  have hinv := TreeWalker.reach_wInv hr
  have hptr := TreeWalker.exhausted_ptr_eq w h hinv
  have : w.next st = (0, w) := by
    unfold TreeWalker.next
    rw [TreeWalker.nextAux]
    rw [if_pos hptr]
    dsimp only
    rw [TreeWalker.populate_ptrs_exhausted st _ w h]
    rw [if_pos h]
  exact ⟨this, by rw [this], by rw [this]⟩

/-- C10 witness: the freshly constructed walker over the empty document is
exhausted, and `next` on it returns `'\0'` without changing the state. -/
theorem C10_walker_end_sentinel_witness :
    (TreeWalker.init (create []) 0).exhausted = true ∧
      (TreeWalker.init (create []) 0).next (create []) =
        (0, TreeWalker.init (create []) 0) :=
  ⟨by decide,
    (C10_walker_end_sentinel (create []) (TreeWalker.init (create []) 0)
      (WalkerReach.init 0) (by decide)).1⟩

/-- C8: no-op edits leave the whole engine state unchanged: `insert` with
empty text, `remove` with count `0`, and `remove` on an empty tree each
return the state itself (tree root, meta, modification buffer bytes and
line-starts table included), because the early returns fire before the
scope guard that recomputes the meta is constructed. -/
theorem C8_noop_edits :
    (∀ (st : Tree) (offset : Nat), st.insert offset [] = st) ∧
    (∀ (st : Tree) (offset : Nat), st.remove offset 0 = st) ∧
    (∀ (st : Tree) (offset count : Nat), st.root.is_empty = true →
      st.remove offset count = st) := by
  refine ⟨fun st offset => rfl, fun st offset => by simp [Tree.remove], ?_⟩
  intro st offset count h
  simp [Tree.remove, h]

/-- C8 witness: the three no-ops evaluated on the engine built from the
single original buffer `"ab"`. -/
theorem C8_noop_edits_witness :
    (create [[97, 98]]).insert 1 [] = create [[97, 98]] ∧
    (create [[97, 98]]).remove 1 0 = create [[97, 98]] ∧
    (create []).root.is_empty = true ∧ (create []).remove 3 7 = create [] :=
  ⟨C8_noop_edits.1 _ 1, C8_noop_edits.2.1 _ 1, by decide,
    C8_noop_edits.2.2 (create []) 3 7 (by decide)⟩

/-- C3, evaluation at the failing input: building from `"a\r\nb"` and
removing the trailing `"\nb"` stores the piece `"a\r"`, whose byte range
contains no line feed, but whose stored `newline_count` is `2^64 - 1`: the
carriage-return branch of `line_feed_count` computes
`end.line - start.line - 1 = 0 - 1` in `size_t`. -/
theorem C3_newline_count_bug :
    (inorderP ((create [[97, 13, 10, 98]]).remove 2 2).root).map Piece.newline_count
        = [2 ^ 64 - 1] ∧
    (inorderP ((create [[97, 13, 10, 98]]).remove 2 2).root).map
        (fun p => countLf (pieceBytes ((create [[97, 13, 10, 98]]).remove 2 2) p))
        = [0] := by
  constructor <;> decide

/-- C1, counterexample: the insert/remove inverse fails as stated.
First input: on the document `"a"`, `insert(5, "bc")` (offset beyond the
end, clamped to an append) followed by `remove(5, 2)` (whose range is
clamped to nothing) leaves `"abc"`, not `"a"`.
Second input: even with an in-range offset the law fails on a reachable
state holding a zero-length piece: after `create("ab","cd")` and
`remove(3, 9)` the tree holds pieces of lengths `[2, 0, 1]`; the round trip
`insert(2, "x"); remove(2, 1)` then deletes the zero-length piece instead
of the inserted one and leaves `"abxc"` instead of `"abc"`. -/
theorem C1_insert_remove_inverse_cex :
    contentOf (((create [[97]]).insert 5 [98, 99]).remove 5 2)
        ≠ contentOf (create [[97]]) ∧
    contentOf ((((create [[97, 98], [99, 100]]).remove 3 9).insert 2 [120]).remove 2 1)
        ≠ contentOf ((create [[97, 98], [99, 100]]).remove 3 9) := by
  constructor <;> decide

/-- C5, counterexample (two independent failures).  First: on the reachable
document `"a"` produced by `create("ab"); remove(1, 5)` — whose tree holds a
zero-length piece in front of the piece `"a"` — the call `remove(0, 1)`
(offset `0 ≤ L = 1`) deletes the zero-length piece instead of `"a"` and
leaves the content unchanged, instead of deleting the byte range `[0, 1)`.
Second: counts that make the `size_t` sum `offset + count` wrap are not
clamped either: on `create("ab")`, `remove(1, 2^64 - 1)` computes
`node_at((1 + 2^64 - 1) mod 2^64) = node_at(0)` and takes the same-node
shrink path, producing `"aab"` instead of the clamped `"a"`. -/
theorem C5_remove_clamping_cex :
    (¬ (contentOf (((create [[97, 98]]).remove 1 5).remove 0 1) =
        (contentOf ((create [[97, 98]]).remove 1 5)).take 0 ++
        (contentOf ((create [[97, 98]]).remove 1 5)).drop
          (min (0 + 1) (contentOf ((create [[97, 98]]).remove 1 5)).length))) ∧
    (¬ (contentOf ((create [[97, 98]]).remove 1 (w64 - 1)) =
        (contentOf (create [[97, 98]])).take 1 ++
        (contentOf (create [[97, 98]])).drop
          (min (1 + (w64 - 1)) (contentOf (create [[97, 98]])).length))) := by
  constructor <;> decide

/-- C7, counterexample: on the reachable document produced by
`create("a"); remove(0, 5)` — a tree holding a single zero-length piece, so
`line_feed_count() = 0` and every `line > 1` is out of range — the call
`get_line_content(3)` appends one `'\0'` byte to the caller's buffer
instead of leaving it empty: the walker seeded at the end-of-document
offset `0` is not exhausted (the fast-forward returns immediately at
offset `0`), and its first `next()` returns the `'\0'` sentinel, which is
not a line feed and is pushed. -/
theorem C7_out_of_range_line_cex :
    ((create [[97]]).remove 0 5).root.tree_lf_count + 1 < 3 ∧
    ((create [[97]]).remove 0 5).get_line_content 3 = [0] ∧
    ((create [[97]]).remove 0 5).get_line_content 3 ≠ [] := by
  refine ⟨by decide, by decide, by decide⟩

/-- C2: red-black invariant preservation.  Every root reachable from a built
tree by any sequence of `insert` and `remove` operations is either empty or
has a black root, contains no red node with a red child (`invc`), and has
the same number of black nodes on every root-to-empty path (`invh`: at every
node the black heights of the two subtrees agree). -/
theorem C2_rb_invariants (st : Tree) (h : Reachable st) :
    st.root.is_empty = true ∨
      (st.root.rootColor = Color.Black ∧ invc st.root = true ∧
        invh st.root = true) := by
  obtain ⟨hc, hh, hdb, hnr⟩ := rbOk_unpack (rbOk_reachable st h)
  cases hroot : st.root with
  | nil => exact Or.inl rfl
  | node c l d r =>
    right
    rw [hroot] at hc hh hnr hdb
    refine ⟨?_, hc, hh⟩
    cases c with
    | Black => rfl
    | Red => simp [RBTree.isRed] at hnr
    | DoubleBlack =>
      rw [noDB_node] at hdb
      exact absurd rfl hdb.1

/-- C2 witness: the invariants evaluated on the root reached by building
from `"ab\ncd"`, inserting `"x\ny"` in the middle and removing two bytes. -/
theorem C2_rb_invariants_witness :
    (((create [[97, 98, 10, 99, 100]]).insert 2 [120, 10, 121]).remove 1 2).root.is_empty
        = true ∨
      ((((create [[97, 98, 10, 99, 100]]).insert 2 [120, 10, 121]).remove 1 2).root.rootColor
          = Color.Black ∧
        invc (((create [[97, 98, 10, 99, 100]]).insert 2 [120, 10, 121]).remove 1 2).root
          = true ∧
        invh (((create [[97, 98, 10, 99, 100]]).insert 2 [120, 10, 121]).remove 1 2).root
          = true) :=
  C2_rb_invariants _
    (Reachable.removed _ 1 2 (Reachable.inserted _ 2 [120, 10, 121] (Reachable.created _)))

/-- C9: construction.  A tree created from a builder that accepted the byte
strings of `bufs` (in order) has content equal to their concatenation, and
its piece list holds exactly one piece per non-empty accepted string, in
acceptance order, each denoting exactly that string's bytes (the hypothesis
keeps the buffer count below the modification-buffer sentinel index, as the
C++ size_t buffer index does). -/
theorem C9_construction (bufs : List (List Nat)) (hlen : bufs.length ≤ modBufIdx) :
    contentOf (create bufs) = bufs.flatten ∧
    (inorderP (create bufs).root).map (pieceBytes (create bufs)) =
      bufs.filter (fun b => decide (b ≠ [])) := by
  have hroot : (create bufs).root =
      btGo (bufs.map (fun b => CharBuffer.mk b (populate_line_starts b))) 0 0
        RBTree.nil := rfl
  have hbufs : (create bufs).buffers =
      bufs.map (fun b => CharBuffer.mk b (populate_line_starts b)) := rfl
  have hio : inorderP (create bufs).root =
      btPieces (bufs.map (fun b => CharBuffer.mk b (populate_line_starts b))) 0 := by
    rw [hroot, btGo_inorder _ 0 0 RBTree.nil rfl (by simp [inorderP, sumLen])]
    rfl
  have hb : ∀ k, k < (bufs.map (fun b => CharBuffer.mk b (populate_line_starts b))).length →
      (create bufs).buffer_at (0 + k) =
        (bufs.map (fun b => CharBuffer.mk b (populate_line_starts b))).getD k ⟨[], []⟩ := by
    intro k hk
    rw [Tree.buffer_at, if_neg ?_, hbufs, Nat.zero_add]
    rw [List.length_map] at hk
    rw [Nat.zero_add]
    omega
  have hwf : ∀ k, k < (bufs.map (fun b => CharBuffer.mk b (populate_line_starts b))).length →
      bufWF ((bufs.map (fun b => CharBuffer.mk b (populate_line_starts b))).getD k ⟨[], []⟩) := by
    intro k hk
    rw [List.length_map] at hk
    rw [List.getD_eq_getElem?_getD, List.getElem?_map, List.getElem?_eq_getElem hk]
    simp [bufWF]
  have hkey := btPieces_bytes (create bufs)
    (bufs.map (fun b => CharBuffer.mk b (populate_line_starts b))) 0 hb hwf
  have hmm : ((bufs.map (fun b => CharBuffer.mk b (populate_line_starts b))).map
      CharBuffer.buffer) = bufs := by
    simp
    rw [show (CharBuffer.buffer ∘ fun b => CharBuffer.mk b (populate_line_starts b))
        = id from rfl, List.map_id]
  rw [hmm] at hkey
  refine ⟨?_, by rw [hio]; exact hkey⟩
  rw [contentOf, hio, hkey, flatten_filter_ne_nil]

/-- C9 witness: the construction law evaluated on the three accepted strings
`"a"`, `""` and `"b\n"` (the empty one contributes no piece). -/
theorem C9_construction_witness :
    ([[97], [], [98, 10]] : List (List Nat)).length ≤ modBufIdx ∧
    (contentOf (create [[97], [], [98, 10]]) = [[97], [], [98, 10]].flatten ∧
      (inorderP (create [[97], [], [98, 10]]).root).map
          (pieceBytes (create [[97], [], [98, 10]])) =
        [[97], [], [98, 10]].filter (fun b => decide (b ≠ []))) :=
  ⟨by decide, C9_construction [[97], [], [98, 10]] (by decide)⟩


/-- C7, amended: out-of-range line queries.  For every state with correct
augmentations and every line number beyond `line_feed_count + 1`,
`get_line_range` returns the empty range at the end-of-document offset, and
`get_line_content` produces no bytes whenever the document is empty or has
positive length (the unamended claim fails only on the degenerate documents
of length `0` that still hold a zero-length piece, where a `'\0'` byte is
produced). -/
theorem C7_out_of_range_line_amended (st : Tree) (line : Nat)
    (haug : augOk st.root = true)
    (hline : st.root.tree_lf_count + 1 < line) :
    st.get_line_range line = (st.root.tree_length, st.root.tree_length) ∧
    (st.root.is_empty = true ∨ 0 < st.root.tree_length →
      st.get_line_content line = []) := by
  rw [tree_lf_count_eq_sumNl _ haug] at hline
  have hlen := tree_length_eq_sumLen st.root haug
  constructor
  · rw [Tree.get_line_range,
      line_start_out_of_range st _ _ 0 line haug (by omega),
      line_start_out_of_range st _ _ 0 (line + 1) haug (by omega), hlen,
      Nat.zero_add]
  · intro hpos
    rw [Tree.get_line_content, if_neg (by omega), Tree.assemble_line]
    cases hroot : st.root.is_empty with
    | true => rw [if_pos rfl]
    | false =>
      rw [if_neg (by simp)]
      try dsimp only
      rw [line_start_out_of_range st _ _ 0 line haug (by omega)]
      have hL : 0 < sumLen (inorderP st.root) := by
        rcases hpos with h | h
        · rw [hroot] at h; exact absurd h (by simp)
        · omega
      rw [TreeWalker.init, if_neg (by omega)]
      try dsimp only
      rw [Nat.zero_add, ffGo_at_end st st.root [] haug]
      exact walkLoop_exhausted st _ _ [] rfl

/-- C7 witness: the amended law evaluated on the document `"x\ny"` (one line
feed, so line `5` is out of range): the range degenerates to the
end-of-document offset `3` and the content is empty. -/
theorem C7_out_of_range_line_amended_witness :
    augOk (create [[120, 10, 121]]).root = true ∧
    (create [[120, 10, 121]]).root.tree_lf_count + 1 < 5 ∧
    (create [[120, 10, 121]]).get_line_range 5 =
      ((create [[120, 10, 121]]).root.tree_length,
        (create [[120, 10, 121]]).root.tree_length) ∧
    (create [[120, 10, 121]]).get_line_content 5 = [] :=
  ⟨by decide, by decide,
    (C7_out_of_range_line_amended (create [[120, 10, 121]]) 5
      (by decide) (by decide)).1,
    (C7_out_of_range_line_amended (create [[120, 10, 121]]) 5
      (by decide) (by decide)).2 (Or.inr (by decide))⟩


/-- C6: insert clamping.  For every well-formed non-empty document of stored
length `L`, every offset `o ≥ L`, and every non-empty text, `insert(o, txt)`
appends the text: the new content is the old content followed by `txt`. -/
theorem C6_insert_clamping (st : Tree) (offset : Nat) (txt : List Nat)
    (haug : augOk st.root = true)
    (hne : st.root.is_empty = false)
    (htxt : txt ≠ [])
    (hwfm : bufWF st.mod_buffer)
    (hli : st.mod_buffer.line_starts.getD st.last_insert.line 0 +
      st.last_insert.column = st.mod_buffer.buffer.length)
    (hlil : st.last_insert.line < st.mod_buffer.line_starts.length)
    (hfit : ∀ p ∈ inorderP st.root, pieceFits st p)
    (hoff : sumLen (inorderP st.root) ≤ offset) :
    contentOf (st.insert offset txt) = contentOf st ++ txt := by
  obtain ⟨nd, hnd, hsum⟩ := node_at_go_end st st.root offset 0 0 [] haug hne hoff
  have hkey : contentOf (Tree.compute_buffer_meta
      { (st.build_piece txt).2 with
        root := (st.build_piece txt).2.root.insert
          ⟨(st.build_piece txt).1, 0, 0⟩ offset }) = contentOf st ++ txt := by
    have hlist : inorderP (Tree.compute_buffer_meta
        { (st.build_piece txt).2 with
          root := (st.build_piece txt).2.root.insert
            ⟨(st.build_piece txt).1, 0, 0⟩ offset }).root =
        inorderP st.root ++ [(st.build_piece txt).1] := by
      rw [show (Tree.compute_buffer_meta
        { (st.build_piece txt).2 with
          root := (st.build_piece txt).2.root.insert
            ⟨(st.build_piece txt).1, 0, 0⟩ offset }).root =
        (st.build_piece txt).2.root.insert ⟨(st.build_piece txt).1, 0, 0⟩ offset
        from rfl]
      rw [inorder_insert_ins, build_piece_root,
        ins_append st.root _ offset 0 haug (by omega)]
    have hpb : ∀ p, pieceBytes (Tree.compute_buffer_meta
        { (st.build_piece txt).2 with
          root := (st.build_piece txt).2.root.insert
            ⟨(st.build_piece txt).1, 0, 0⟩ offset }) p =
        pieceBytes (st.build_piece txt).2 p := fun p => rfl
    rw [contentOf, hlist, List.map_append, List.flatten_append]
    rw [List.map_congr_left (fun p hp => (hpb p).trans
      (pieceBytes_build_piece st txt p (hfit p hp)))]
    rw [List.map_cons, List.map_nil, hpb,
      build_piece_new_bytes st txt hwfm hli hlil]
    rw [contentOf]
    simp
  have hnd' : (st.node_at offset).node = some nd := hnd
  have hsum' : (st.node_at offset).start_offset + nd.piece.length =
      sumLen (inorderP st.root) := by
    rw [show st.node_at offset = Tree.node_at_go st st.root offset 0 0 [] from rfl]
    omega
  rw [Tree.insert, if_neg htxt, if_neg (by simp [hne])]
  try dsimp only
  rw [hnd', if_neg (by simp), hnd']
  split
  next h => exact Option.noConfusion h
  next nd2 h =>
    have hnd2 : nd = nd2 := by injection h
    subst hnd2
    try dsimp only
    split_ifs with h1 h2
    · exact hkey
    · omega
    · exact hkey

/-- C6 witness: appending `"x"` at offset `5` to the two-byte document
`"ab"` (offset past the end) yields `"abx"`. -/
theorem C6_insert_clamping_witness :
    sumLen (inorderP (create [[97, 98]]).root) ≤ 5 ∧
    contentOf ((create [[97, 98]]).insert 5 [120]) =
      contentOf (create [[97, 98]]) ++ [120] :=
  ⟨by decide,
    C6_insert_clamping (create [[97, 98]]) 5 [120] (by decide) (by decide)
      (by decide) (by rw [bufWF]; decide) (by decide) (by decide)
      (by simp only [pieceFits]; decide) (by decide)⟩


/-- C5 (amended): remove clamping on well-formed states for non-wrapping
counts.  For every engine state whose stored augmentations are correct,
whose stored pieces all have positive length and are valid (stored length
equal to the byte distance between their cursors, which fit in their
buffer), whose referenced line-starts tables start at offset `0`, and whose
stored document length `L` fits in `size_t` (`L < 2^64`, automatic for any
document the program can hold), for every offset `o ≤ L` and every count `c`
with `o + c < 2^64`, `remove(o, c)` produces content equal to the old
content with the bytes in `[o, min(o+c, L))` deleted; in particular when
`o + c > L` exactly the bytes from `o` to the end are removed.  (Counts
with `o + c ≥ 2^64` wrap the `size_t` sum `offset + count` and are not
clamped: see the counterexample.) -/
theorem C5_remove_clamping_amended (st : Tree) (o c : Nat)
    (haug : augOk st.root = true)
    (hpos : ∀ p ∈ inorderP st.root, 0 < p.length)
    (hval : ∀ p ∈ inorderP st.root, pieceVal st p)
    (h0 : ∀ p ∈ inorderP st.root,
      (st.buffer_at p.index).line_starts.getD 0 0 = 0)
    (ho : o ≤ sumLen (inorderP st.root))
    (hoc : o + c < w64) (hL64 : sumLen (inorderP st.root) < w64) :
    contentOf (st.remove o c) =
      (contentOf st).take o ++
        (contentOf st).drop (min (o + c) (sumLen (inorderP st.root))) := by
  have hlenC : (contentOf st).length = sumLen (inorderP st.root) := by
    rw [contentOf_bytesOf]
    exact bytesOf_length st _ hval
  by_cases hc : c = 0
  · rw [hc, Tree.remove, if_pos (Or.inl rfl), Nat.add_zero,
      Nat.min_eq_left ho, List.take_append_drop]
  · by_cases hoL : o < sumLen (inorderP st.root)
    · exact remove_content st o c haug hpos hval h0 hoL (by omega) hoc hL64
    · have hoEq : o = sumLen (inorderP st.root) := by omega
      rw [hoEq, remove_at_end_content st c haug hpos hval h0 (by omega)
          (by omega),
        Nat.min_eq_right (by omega),
        List.take_of_length_le (by omega),
        List.drop_eq_nil_of_le (by omega), List.append_nil]

/-- C5 witness: removing five bytes from offset `1` of the two-byte document
`"ab"` clamps to the end and leaves `"a"`. -/
theorem C5_remove_clamping_amended_witness :
    1 ≤ sumLen (inorderP (create [[97, 98]]).root) ∧
    contentOf ((create [[97, 98]]).remove 1 5) =
      (contentOf (create [[97, 98]])).take 1 ++
        (contentOf (create [[97, 98]])).drop
          (min (1 + 5) (sumLen (inorderP (create [[97, 98]]).root))) :=
  ⟨by decide, C5_remove_clamping_amended (create [[97, 98]]) 1 5 (by decide)
    (by decide) (by simp only [pieceVal, pieceFits]; decide) (by decide)
    (by decide) (by decide) (by decide)⟩

/-- C1 (amended): insert/remove inverse on well-formed states.  For every
engine state whose stored augmentations are correct, whose stored pieces all
have positive length and are valid, whose referenced line-starts tables
start at offset `0`, whose modification-buffer line-starts table is exactly
`populate_line_starts` of its bytes, and whose `last_insert` cursor sits at
the end of the modification buffer, and for every offset `o ≤ L`, performing
`insert(o, t)` followed by `remove(o, |t|)` restores the original content,
for every byte string `t` whose insertion keeps the document length below
`2^64` (`L + |t| < 2^64`, automatic for any text the program can hold: the
`size_t` sum `offset + count` inside `remove` does not wrap when the count
is the length of the just-inserted text). -/
theorem C1_insert_remove_inverse_amended (st : Tree) (o : Nat)
    (txt : List Nat)
    (haug : augOk st.root = true)
    (hpos : ∀ p ∈ inorderP st.root, 0 < p.length)
    (hval : ∀ p ∈ inorderP st.root, pieceVal st p)
    (h0 : ∀ p ∈ inorderP st.root,
      (st.buffer_at p.index).line_starts.getD 0 0 = 0)
    (hwfm : bufWF st.mod_buffer)
    (hli : st.mod_buffer.line_starts.getD st.last_insert.line 0 +
      st.last_insert.column = st.mod_buffer.buffer.length)
    (hlil : st.last_insert.line < st.mod_buffer.line_starts.length)
    (ho : o ≤ sumLen (inorderP st.root))
    (hfit : sumLen (inorderP st.root) + txt.length < w64) :
    contentOf ((st.insert o txt).remove o txt.length) = contentOf st := by
  by_cases htxt : txt = []
  · rw [htxt, Tree.insert, if_pos rfl, Tree.remove,
      if_pos (show List.length ([] : List Nat) = 0 ∨
        st.root.is_empty = true from Or.inl rfl)]
  · obtain ⟨hcont, hpos1, hval1, h01, hsum1⟩ :=
      insert_content st o txt haug hpos hval h0 hwfm hli hlil ho htxt
    have htxtpos : 0 < txt.length := List.length_pos.2 htxt
    have haug1 : augOk (st.insert o txt).root = true :=
      augOk_engine_insert st o txt haug
    have hlenC : (contentOf st).length = sumLen (inorderP st.root) := by
      rw [contentOf_bytesOf]
      exact bytesOf_length st _ hval
    have ho1 : o < sumLen (inorderP (st.insert o txt).root) := by
      rw [hsum1]
      omega
    rw [remove_content (st.insert o txt) o txt.length haug1 hpos1 hval1 h01
      ho1 (by omega) (by omega) (by rw [hsum1]; omega),
      hcont, hsum1, Nat.min_eq_left (by omega)]
    exact take_drop_roundtrip (contentOf st) txt o (by omega)

/-- C1 witness: inserting `"x"` at offset `1` of `"ab"` and removing one
byte at offset `1` restores `"ab"`. -/
theorem C1_insert_remove_inverse_amended_witness :
    1 ≤ sumLen (inorderP (create [[97, 98]]).root) ∧
    contentOf (((create [[97, 98]]).insert 1 [120]).remove 1
      (List.length [120])) = contentOf (create [[97, 98]]) :=
  ⟨by decide, C1_insert_remove_inverse_amended (create [[97, 98]]) 1 [120]
    (by decide) (by decide) (by simp only [pieceVal, pieceFits]; decide)
    (by decide) (by rw [bufWF]; decide) (by decide) (by decide) (by decide)
    (by decide)⟩


end Fredbuf

